import Mathlib

/-!
# Ogg page parser and Vorbis stream demuxer (`webmoggsource/oggparser.cpp`)

A shallow embedding of `oggparser::ReadInt`, `OggPage::Read`, `OggStream::ReadPage`,
`OggStream::GetPacket` and `OggStream::Init`, followed by theorems about them.

Conventions of the embedding.

* A C++ function that writes through reference parameters returns the new values
  of those parameters next to its `long` result.
* `long`/`long long` values are `Int`; the 64-bit pattern assembled by `ReadInt` is
  kept modulo `2^64` and read back as a signed value.  Byte offsets never get near
  `2^63`, so cursor arithmetic is plain `Int` arithmetic.
* A failed `assert` aborts the program: functions containing one return `Option`,
  and `none` is the abort (`Run.abort` in `OggStream.Init`).  This is the build in
  which `assert` is active.  For the build with `NDEBUG`, in which the tag checks of
  `OggStream::Init` decide nothing, see `OggStream.InitRelease`.
-/

namespace oggparser

/-! ## Constants of the header `oggparser.hpp` -/

/-- Modelled from the spec: the header `oggparser.hpp` is not part of the sources.
The flag bits of the wire header byte are given by the wire table of the spec
(bit0 continuation, bit1 BOS, bit2 EOS).  The value of the synthetic bit `fDone`
and of the error code `E_FILE_FORMAT_INVALID` are not given anywhere, so they are
parameters. -/
structure Consts where
  fDone : Nat
  E_FILE_FORMAT_INVALID : Int
deriving DecidableEq, Repr

/-- Modelled from the spec: `OggPage::fContinued`, bit0 of the header byte. -/
def fContinued : Nat := 1

/-- Modelled from the spec: `OggPage::fBOS`, bit1 of the header byte. -/
def fBOS : Nat := 2

/-- Modelled from the spec: `OggPage::fEOS`, bit2 of the header byte. -/
def fEOS : Nat := 4

/-- What the code needs of the missing constants: the error code is negative (every
caller tests `result < 0`) and `fDone` is one of the bits of the header byte that
the wire format leaves unused. -/
def Consts.Valid (K : Consts) : Prop :=
  K.E_FILE_FORMAT_INVALID < 0 ∧
    (K.fDone = 8 ∨ K.fDone = 16 ∨ K.fDone = 32 ∨ K.fDone = 64 ∨ K.fDone = 128)

instance (K : Consts) : Decidable K.Valid :=
  inferInstanceAs (Decidable (K.E_FILE_FORMAT_INVALID < 0 ∧
    (K.fDone = 8 ∨ K.fDone = 16 ∨ K.fDone = 32 ∨ K.fDone = 64 ∨ K.fDone = 128)))

/-! ## The byte reader -/

/-- The interface `IOggReader`: `Read pos len` gives the `long` result of the call
(negative on error) and the contents of the caller's buffer after the call. -/
structure IOggReader where
  Read : Int → Nat → Int × List Nat

/-- The `i`-th `unsigned char` of a buffer. -/
def byteAt (buf : List Nat) (i : Nat) : Nat := buf.getD i 0 % 256

/-- Modelled from the spec: a Byte Reader over a finite byte sequence (spec §6):
a positional read fills exactly `len` bytes or fails. -/
def memReader (data : List Nat) : IOggReader where
  Read pos len :=
    if 0 ≤ pos ∧ pos + len ≤ data.length then (0, (data.drop pos.toNat).take len)
    else (-1, [])

/-! ## `oggparser::ReadInt` -/

/-- A 64-bit pattern read as a `long long`. -/
def toInt64 (v : Nat) : Int :=
  if v % 2 ^ 64 < 2 ^ 63 then ((v % 2 ^ 64 : Nat) : Int) else ((v % 2 ^ 64 : Nat) : Int) - 2 ^ 64

/-- The `for` loop of `ReadInt` (lines 16-28).  The first argument counts the
iterations that remain, `i` is the loop variable, `val` the 64-bit pattern of the
accumulator.  Every iteration reads at the same `pos`. -/
def ReadInt.loop (pReader : IOggReader) (pos : Int) (len : Nat) : Nat → Nat → Nat → Int × Nat
  | 0, _, val => (0, val)
  | n + 1, i, val =>
    let rd := pReader.Read pos 1
    if rd.1 < 0 then ((len : Int), val)
    else ReadInt.loop pReader pos len n (i + 1) ((val ||| (byteAt rd.2 0 <<< (i * 8))) % 2 ^ 64)

/-- The function `oggparser::ReadInt(pReader, pos, len, val)`: the `long` result and
the value left in `val`. -/
def ReadInt (pReader : IOggReader) (pos : Int) (len : Nat) : Int × Int :=
  let r := ReadInt.loop pReader pos len len 0 0
  (r.1, toInt64 r.2)

/-! ## `OggPage` -/

/-- The struct `OggPage::Descriptor`. -/
structure Descriptor where
  pos : Int
  len : Int
deriving DecidableEq, Repr

/-- The class `OggPage`. -/
structure OggPage where
  m_capture_pattern : List Nat
  m_version : Nat
  m_header : Nat
  m_granule_pos : Int
  m_serial_num : Nat
  m_sequence_num : Nat
  m_crc : Nat
  m_descriptors : List Descriptor
deriving DecidableEq, Repr

/-- Apply `f` to `back()` of a list. -/
def modifyBack {α : Type} (f : α → α) : List α → List α
  | [] => []
  | [x] => [f x]
  | x :: y :: t => x :: modifyBack f (y :: t)

/-- The capture pattern, the bytes of the literal `OggS`. -/
def OggS : List Nat := [79, 103, 103, 83]

/-- The loops over the segment table in `OggPage::Read` (lines 135-175), as one
recursion on `segments_count`.  The state is `segments_count`, `pos`, `m_header`
and `m_descriptors`, whose `back()` is the descriptor under construction.  Leaving
the inner `for` while `segments_count > 0` re-enters the outer `while`, which
pushes a fresh descriptor. -/
def OggPage.Read.lacing (K : Consts) (pReader : IOggReader) :
    Nat → Int → Nat → List Descriptor → Int × Int × Nat × List Descriptor
  | 0, pos, hdr, ds => (0, pos, hdr, ds)
  | n + 1, pos, hdr, ds =>
    let lv := ReadInt pReader pos 1
    if lv.1 < 0 then (lv.1, pos, hdr, ds)
    else
      let pos := pos + 1
      let ds := modifyBack (fun d => { d with len := d.len + lv.2 }) ds
      if n = 0 then
        if lv.2 = 255 then (0, pos, hdr, modifyBack (fun d => { d with len := -d.len }) ds)
        else (0, pos, (hdr ||| K.fDone) % 256, ds)
      else if lv.2 ≠ 255 then OggPage.Read.lacing K pReader n pos hdr (ds ++ [⟨-1, 0⟩])
      else OggPage.Read.lacing K pReader n pos hdr ds

/-- The second pass of `OggPage::Read` (lines 179-188): give every descriptor its
offset. -/
def OggPage.Read.assign : List Descriptor → Int → List Descriptor × Int
  | [], pos => ([], pos)
  | d :: ds, pos =>
    let r := OggPage.Read.assign ds (pos + |d.len|)
    ({ d with pos := pos } :: r.1, r.2)

/-- The method `OggPage::Read(pReader, pos)`: the `long` result, the page object
and `pos` after the call. -/
def OggPage.Read (K : Consts) (page : OggPage) (pReader : IOggReader) (pos : Int) :
    Int × OggPage × Int :=
  if pos < 0 then (-1, page, pos)
  else
    let rd := pReader.Read pos 4
    let page := { page with m_capture_pattern := (rd.2.take 4).map (· % 256) }
    if rd.1 < 0 then (rd.1, page, pos)
    else if page.m_capture_pattern ≠ OggS then (K.E_FILE_FORMAT_INVALID, page, pos)
    else
      let pos := pos + 4
      let version := ReadInt pReader pos 1
      if version.1 < 0 then (version.1, page, pos)
      else
        let pos := pos + 1
        let page := { page with m_version := (version.2 % 256).toNat }
        let header := ReadInt pReader pos 1
        if header.1 < 0 then (header.1, page, pos)
        else
          let pos := pos + 1
          let page := { page with m_header := (header.2 % 256).toNat }
          let granule := ReadInt pReader pos 8
          let page := { page with m_granule_pos := granule.2 }
          if granule.1 < 0 then (granule.1, page, pos)
          else
            let pos := pos + 8
            let serial_num := ReadInt pReader pos 4
            if serial_num.1 < 0 then (serial_num.1, page, pos)
            else
              let pos := pos + 4
              let page := { page with m_serial_num := (serial_num.2 % 2 ^ 32).toNat }
              let sequence_num := ReadInt pReader pos 4
              if sequence_num.1 < 0 then (sequence_num.1, page, pos)
              else
                let pos := pos + 4
                let page := { page with m_sequence_num := (sequence_num.2 % 2 ^ 32).toNat }
                let crc := ReadInt pReader pos 4
                if crc.1 < 0 then (crc.1, page, pos)
                else
                  let pos := pos + 4
                  let page := { page with m_crc := (crc.2 % 2 ^ 32).toNat }
                  let segments_count := ReadInt pReader pos 1
                  if segments_count.1 < 0 then (segments_count.1, page, pos)
                  else if segments_count.2 ≤ 0 then (K.E_FILE_FORMAT_INVALID, page, pos)
                  else
                    let pos := pos + 1
                    let l := OggPage.Read.lacing K pReader segments_count.2.toNat pos
                      page.m_header [⟨-1, 0⟩]
                    let page := { page with m_header := l.2.2.1, m_descriptors := l.2.2.2 }
                    if l.1 < 0 then (l.1, page, l.2.1)
                    else
                      let a := OggPage.Read.assign page.m_descriptors l.2.1
                      (0, { page with m_descriptors := a.1 }, a.2)

/-! ## `OggStream` -/

/-- The struct `OggStream::Packet`. -/
structure Packet where
  descriptors : List Descriptor
  granule_pos : Int
deriving DecidableEq, Repr

/-- The data members of the class `OggStream`. -/
structure OggStream where
  m_pReader : IOggReader
  m_pos : Int
  m_packets : List Packet

/-- The constructor `OggStream::OggStream(p)`. -/
def OggStream.new (p : IOggReader) : OggStream := ⟨p, 0, []⟩

/-- Lines 554-589 of `OggStream::ReadPage`, the test of the continuation flag.
`d0 :: rest` is `page.m_descriptors`.  The value `none` is
`return E_FILE_FORMAT_INVALID`; otherwise the new `m_packets` and
`page.m_descriptors`. -/
def OggStream.ReadPage.continuation (m_header : Nat) (m_packets : List Packet)
    (d0 : Descriptor) (rest : List Descriptor) : Option (List Packet × List Descriptor) :=
  if m_header &&& fContinued ≠ 0 then
    match m_packets.getLast? with
    | none => none
    | some pkt =>
      match pkt.descriptors.getLast? with
      | some d =>
        if d.len ≥ 0 then none
        else
          let dd := modifyBack (fun d => { d with len := |d.len| }) pkt.descriptors
          some (modifyBack (fun p => { p with descriptors := dd ++ [d0] }) m_packets, rest)
      | none =>
        some (modifyBack (fun p => { p with descriptors := pkt.descriptors ++ [d0] }) m_packets,
          rest)
  else
    match m_packets.getLast? with
    | none => some (m_packets, d0 :: rest)
    | some pkt =>
      match pkt.descriptors.getLast? with
      | some d => if d.len < 0 then none else some (m_packets, d0 :: rest)
      | none => some (m_packets, d0 :: rest)

/-- Lines 593-604 of `OggStream::ReadPage`: every descriptor left in the page
starts a packet with granule position -1. -/
def OggStream.ReadPage.push : List Packet → List Descriptor → List Packet
  | m_packets, [] => m_packets
  | m_packets, d :: dd => OggStream.ReadPage.push (m_packets ++ [⟨[d], -1⟩]) dd

/-- Lines 625-653 of `OggStream::ReadPage`: the walk over `m_packets` with a reverse
iterator.  The argument and the list in the result are in iteration order (newest
packet first).  The value `none` is the failure of `assert(pkt.granule_pos < 0)`. -/
def OggStream.ReadPage.scan (K : Consts) (page_pos granule_pos : Int) :
    List Packet → Option (Int × List Packet)
  | [] => some (K.E_FILE_FORMAT_INVALID, [])
  | pkt :: older =>
    match pkt.descriptors.getLast? with
    | none =>
      (OggStream.ReadPage.scan K page_pos granule_pos older).map fun r => (r.1, pkt :: r.2)
    | some d =>
      if d.len < 0 then
        (OggStream.ReadPage.scan K page_pos granule_pos older).map fun r => (r.1, pkt :: r.2)
      else if d.pos ≤ page_pos then some (K.E_FILE_FORMAT_INVALID, pkt :: older)
      else if ¬ pkt.granule_pos < 0 then none
      else some (0, { pkt with granule_pos := granule_pos } :: older)

/-- Lines 606-653 of `OggStream::ReadPage`, the resolution of the granule position,
entered with the members of the stream and of the page as they are after line 604.
`none` when an `assert` fails. -/
def OggStream.ReadPage.resolve (K : Consts) (page_pos : Int) (s : OggStream) (page : OggPage) :
    Option (Int × OggStream × OggPage) :=
  match s.m_packets.getLast? with
  | none => none
  | some pkt =>
    if page.m_granule_pos < 0 then
      match pkt.descriptors.getLast? with
      | some d =>
        if d.len ≥ 0 then some (K.E_FILE_FORMAT_INVALID, s, page) else some (0, s, page)
      | none => some (0, s, page)
    else
      match OggStream.ReadPage.scan K page_pos page.m_granule_pos s.m_packets.reverse with
      | none => none
      | some r => some (r.1, { s with m_packets := r.2.reverse }, page)

/-- The method `OggStream::ReadPage(page)`: the `long` result, the stream and the
page object after the call; `none` when an `assert` fails. -/
def OggStream.ReadPage (K : Consts) (s : OggStream) (page : OggPage) :
    Option (Int × OggStream × OggPage) :=
  let page_pos := s.m_pos
  let rd := OggPage.Read K page s.m_pReader s.m_pos
  let page := rd.2.1
  let s := { s with m_pos := rd.2.2 }
  if rd.1 < 0 then some (rd.1, s, page)
  else
    match page.m_descriptors with
    | [] => none
    | d0 :: rest =>
      match OggStream.ReadPage.continuation page.m_header s.m_packets d0 rest with
      | none => some (K.E_FILE_FORMAT_INVALID, s, page)
      | some (q, dd) =>
        OggStream.ReadPage.resolve K page_pos
          { s with m_packets := OggStream.ReadPage.push q dd }
          { page with m_descriptors := [] }

/-- The method `OggStream::Parse()`. -/
def OggStream.Parse (K : Consts) (s : OggStream) (page : OggPage) : Option (Int × OggStream) :=
  (OggStream.ReadPage K s page).map fun r => (r.1, r.2.1)

/-- The method `OggStream::GetPacket(pkt_)`: the `long` result, the packet assigned
to `pkt_` (if any) and the stream after the call; `none` when
`assert(!dd.empty())` fails. -/
def OggStream.GetPacket (s : OggStream) : Option (Int × Option Packet × OggStream) :=
  match s.m_packets with
  | [] => some (0, none, s)
  | pkt :: rest =>
    match pkt.descriptors.getLast? with
    | none => none
    | some d =>
      if d.len < 0 then some (0, none, s)
      else some (1, some pkt, { s with m_packets := rest })

/-! ## `OggStream::Init` -/

/-- How a function with unbounded loops ends: it returns, an `assert` fails, or the
iteration budget of the embedding runs out. -/
inductive Run (α : Type) where
  | done (a : α)
  | abort
  | timeout
deriving Repr

/-- The bytes of the literals `"\x01vorbis"`, `"\x03vorbis"`, `"\x05vorbis"`. -/
def vorbisTag (b : Nat) : List Nat := [b, 118, 111, 114, 98, 105, 115]

/-- The blocks at lines 457-472, 491-506 and 519-534 of `OggStream::Init`: all of
their `assert`s hold.  (`dd.front()` needs a descriptor; `GetPacket` has asserted
that there is one.)  The blocks have no `return`: `assert` is the only thing that
looks at the bytes. -/
def OggStream.Init.check (s : OggStream) (pkt : Packet) (str : List Nat) : Bool :=
  match pkt.descriptors with
  | [] => false
  | d :: _ =>
    if ¬ d.len > 0 then false
    else if ¬ d.len.toNat ≥ str.length then false
    else
      let rd := s.m_pReader.Read d.pos d.len.toNat
      if rd.1 ≠ 0 then false
      else (rd.2.take str.length).map (· % 256) == str

/-- The loop at lines 479-489: read pages until `GetPacket(comment)` delivers.
`Sum.inl result` is the `return result` inside the loop. -/
def OggStream.Init.loop1 (K : Consts) :
    Nat → OggStream → OggPage → Run (Sum Int Packet × OggStream × OggPage)
  | 0, _, _ => .timeout
  | fuel + 1, s, page =>
    match OggStream.ReadPage K s page with
    | none => .abort
    | some (result, s, page) =>
      if result < 0 then .done (.inl result, s, page)
      else
        match OggStream.GetPacket s with
        | none => .abort
        | some (r, out, s) =>
          if r ≥ 1 then
            match out with
            | some comment => .done (.inr comment, s, page)
            | none => .abort
          else OggStream.Init.loop1 K fuel s page

/-- The loop at lines 510-517: while `GetPacket(setup)` does not deliver, read a
page. -/
def OggStream.Init.loop2 (K : Consts) :
    Nat → OggStream → OggPage → Run (Sum Int Packet × OggStream × OggPage)
  | 0, _, _ => .timeout
  | fuel + 1, s, page =>
    match OggStream.GetPacket s with
    | none => .abort
    | some (r, out, s) =>
      if r < 1 then
        match OggStream.ReadPage K s page with
        | none => .abort
        | some (result, s, page) =>
          if result < 0 then .done (.inl result, s, page)
          else OggStream.Init.loop2 K fuel s page
      else
        match out with
        | some setup => .done (.inr setup, s, page)
        | none => .abort

/-- The method `OggStream::Init()`: the `long` result and the stream after the
call.  `page` is the initial value of the local `OggPage`, `fuel` bounds the
iterations of each of the two loops.  This is the build in which `assert` is
active: a failing assertion of a tag-check block ends the run (`Run.abort`), it is
not an error return.  `OggStream.InitRelease` is the build with `NDEBUG`. -/
def OggStream.Init (K : Consts) (fuel : Nat) (s : OggStream) (page : OggPage) :
    Run (Int × OggStream) :=
  match OggStream.ReadPage K s page with
  | none => .abort
  | some (result, s, page) =>
    if result < 0 then .done (result, s)
    else if page.m_header &&& fBOS = 0 then .done (K.E_FILE_FORMAT_INVALID, s)
    else if page.m_header &&& fEOS ≠ 0 then .done (K.E_FILE_FORMAT_INVALID, s)
    else if page.m_header &&& K.fDone = 0 then .done (K.E_FILE_FORMAT_INVALID, s)
    else if page.m_granule_pos ≠ 0 then .done (K.E_FILE_FORMAT_INVALID, s)
    else if s.m_pos ≠ 58 then .done (K.E_FILE_FORMAT_INVALID, s)
    else
      match OggStream.GetPacket s with
      | none => .abort
      | some (r, out, s) =>
        if r < 1 then .done (K.E_FILE_FORMAT_INVALID, s)
        else
          match out with
          | none => .abort
          | some ident =>
            if ¬ OggStream.Init.check s ident (vorbisTag 1) then .abort
            else if ¬ s.m_packets.isEmpty then .done (K.E_FILE_FORMAT_INVALID, s)
            else
              match OggStream.Init.loop1 K fuel s page with
              | .abort => .abort
              | .timeout => .timeout
              | .done (.inl result, s, _) => .done (result, s)
              | .done (.inr comment, s, page) =>
                if ¬ OggStream.Init.check s comment (vorbisTag 3) then .abort
                else
                  match OggStream.Init.loop2 K fuel s page with
                  | .abort => .abort
                  | .timeout => .timeout
                  | .done (.inl result, s, _) => .done (result, s)
                  | .done (.inr setup, s, _) =>
                    if ¬ OggStream.Init.check s setup (vorbisTag 5) then .abort
                    else if ¬ s.m_packets.isEmpty then .done (K.E_FILE_FORMAT_INVALID, s)
                    else .done (0, s)

/-- The function `OggStream::Create(pReader, pStream)`: the `long` result and
`pStream` after the call (`none` is `NULL`). -/
def OggStream.Create (K : Consts) (fuel : Nat) (pReader : Option IOggReader) (page : OggPage) :
    Run (Int × Option OggStream) :=
  match pReader with
  | none => .done (-1, none)
  | some p =>
    match OggStream.Init K fuel (OggStream.new p) page with
    | .abort => .abort
    | .timeout => .timeout
    | .done (result, s) => if result ≥ 0 then .done (0, some s) else .done (result, none)

/-! ## What an accepting `OggPage::Read` computes -/

/-- The values that the segment-table loop of `OggPage::Read` obtains from `ReadInt`
for a table of `n` entries starting at `pos`. -/
def lacingValues (r : IOggReader) (pos : Int) (n : Nat) : List Int :=
  (List.range n).map fun (i : Nat) => (ReadInt r (pos + (i : Int)) 1).2

/-- The descriptors (offsets not yet assigned) that the segment-table loop builds
from the values it consumes, `c` being the length accumulated so far in the open
descriptor. -/
def laceDescs : Int → List Int → List Descriptor
  | _, [] => []
  | c, [v] => if v = 255 then [⟨-1, -(c + v)⟩] else [⟨-1, c + v⟩]
  | c, v :: w :: vs =>
    if v ≠ 255 then ⟨-1, c + v⟩ :: laceDescs 0 (w :: vs) else laceDescs (c + v) (w :: vs)

/-- The condition under which `OggPage::Read` at `pos` runs to its final `return 0`:
the capture pattern is read and matches, and the segment count it obtains is
positive. -/
def OggPage.Accepts (r : IOggReader) (pos : Int) : Prop :=
  0 ≤ pos ∧ 0 ≤ (r.Read pos 4).1 ∧ ((r.Read pos 4).2.take 4).map (· % 256) = OggS ∧
    0 < (ReadInt r (pos + 26) 1).2

instance (r : IOggReader) (pos : Int) : Decidable (OggPage.Accepts r pos) :=
  inferInstanceAs (Decidable (0 ≤ pos ∧ 0 ≤ (r.Read pos 4).1 ∧
    ((r.Read pos 4).2.take 4).map (· % 256) = OggS ∧ 0 < (ReadInt r (pos + 26) 1).2))

/-- The segment count that `OggPage::Read` at `pos` obtains. -/
def segmentCount (r : IOggReader) (pos : Int) : Nat := (ReadInt r (pos + 26) 1).2.toNat

/-- The descriptors without offsets that `OggPage::Read` at `pos` builds from the
segment table. -/
def rawDescriptors (r : IOggReader) (pos : Int) : List Descriptor :=
  laceDescs 0 (lacingValues r (pos + 27) (segmentCount r pos))

/-- The page object that an accepting `OggPage::Read` at `pos` leaves behind. -/
def decodedPage (K : Consts) (r : IOggReader) (pos : Int) : OggPage where
  m_capture_pattern := OggS
  m_version := ((ReadInt r (pos + 4) 1).2 % 256).toNat
  m_header :=
    if (lacingValues r (pos + 27) (segmentCount r pos)).getLast? = some 255 then
      ((ReadInt r (pos + 5) 1).2 % 256).toNat
    else (((ReadInt r (pos + 5) 1).2 % 256).toNat ||| K.fDone) % 256
  m_granule_pos := (ReadInt r (pos + 6) 8).2
  m_serial_num := ((ReadInt r (pos + 14) 4).2 % 2 ^ 32).toNat
  m_sequence_num := ((ReadInt r (pos + 18) 4).2 % 2 ^ 32).toNat
  m_crc := ((ReadInt r (pos + 22) 4).2 % 2 ^ 32).toNat
  m_descriptors :=
    (OggPage.Read.assign (rawDescriptors r pos) (pos + 27 + (segmentCount r pos : Int))).1

/-- The value of `pos` after an accepting `OggPage::Read` at `pos`. -/
def decodedEnd (r : IOggReader) (pos : Int) : Int :=
  (OggPage.Read.assign (rawDescriptors r pos) (pos + 27 + (segmentCount r pos : Int))).2

/-! ## The wire format, in the words of the spec -/

/-- The unsigned little-endian value of a byte sequence (least significant byte
first). -/
def leValue : List Nat → Nat
  | [] => 0
  | b :: bs => b % 256 + 256 * leValue bs

/-- The bytes `data[off .. off + n)`. -/
def slice (data : List Nat) (off n : Nat) : List Nat := (data.drop off).take n

/-- A run of 255s closed by a lacing value below 255. -/
def ClosedRun (g : List Nat) : Prop := ∃ k t, t < 255 ∧ g = List.replicate k 255 ++ [t]

/-- A non-empty run of 255s that nothing closes. -/
def OpenRun (g : List Nat) : Prop := ∃ k, g = List.replicate (k + 1) 255

/-! ## Sample byte sources -/

/-- A page header with flags byte `flags`, every granule byte equal to `g`, zero
serial number, sequence number and CRC, and the given segment table. -/
def samplePageHeader (flags g : Nat) (lacing : List Nat) : List Nat :=
  [79, 103, 103, 83, 0, flags] ++ List.replicate 8 g ++ List.replicate 12 0 ++
    [lacing.length] ++ lacing

/-- A whole page: `samplePageHeader` followed by a zero payload of the announced
size. -/
def samplePage (flags g : Nat) (lacing : List Nat) : List Nat :=
  samplePageHeader flags g lacing ++ List.replicate lacing.sum 0

/-- A 28-byte page whose granule field holds the little-endian encoding of 1, whose
serial number field holds 258 and whose sequence number field holds 3; one lacing
value 0. -/
def granuleOnePage : List Nat :=
  [79, 103, 103, 83, 0, 0, 1, 0, 0, 0, 0, 0, 0, 0, 2, 1, 0, 0, 3, 0, 0, 0, 0, 0, 0, 0, 1, 0]

/-- A byte source that ends right after the capture pattern. -/
def captureOnly : List Nat := [79, 103, 103, 83]

/-- A byte source that ends right after the segment count (1) of its only page: the
lacing value is missing. -/
def missingLacing : List Nat :=
  [79, 103, 103, 83, 0, 0, 0, 0, 0, 0, 0, 0, 0, 0, 0, 0, 0, 0, 0, 0, 0, 0, 0, 0, 0, 0, 1]

/-- Some initial value of a page object. -/
def blankPage : OggPage := ⟨[], 0, 0, 0, 0, 0, 0, []⟩

/-- A table of lacing bytes as the `long long` values that `ReadInt` delivers. -/
def asInts (vs : List Nat) : List Int := vs.map fun (v : Nat) => (v : Int)

/-- Sample values of the constants of the missing header. -/
def sampleK : Consts := ⟨128, -2⟩

/-- The segment table of `lacedHeader`. -/
def lacedTable : List Nat := [255, 255, 3, 0, 255]

/-- A page header (granule position -1) with the segment table `lacedTable`. -/
def lacedHeader : List Nat := samplePageHeader 0 255 lacedTable

/-- A page header with the continuation flag set, granule position -1 and the
segment table `[255]`. -/
def continuedHeader : List Nat := samplePageHeader 1 255 [255]

/-- A page header with the BOS flag set, granule position 0 and the segment table
`[30]`. -/
def identHeader : List Nat := samplePageHeader 2 0 [30]

/-- The state of a demuxer over `lacedHeader` after one call of `ReadPage`. -/
def lacedState : OggStream :=
  ⟨memReader lacedHeader, 800, [⟨[⟨32, 513⟩], -1⟩, ⟨[⟨545, 0⟩], -1⟩, ⟨[⟨545, -255⟩], -1⟩]⟩

/-- The state of a demuxer over `identHeader` after one call of `ReadPage`. -/
def identState : OggStream := ⟨memReader identHeader, 58, [⟨[⟨28, 30⟩], 0⟩]⟩

/-- A first page like `identHeader` but without the BOS flag. -/
def noBosHeader : List Nat := samplePageHeader 0 0 [30]

/-- The state of a demuxer over `noBosHeader` after one call of `ReadPage`. -/
def noBosState : OggStream := ⟨memReader noBosHeader, 58, [⟨[⟨28, 30⟩], 0⟩]⟩

/-- Three consecutive pages carrying one packet: segment tables `[255]`, `[255]`
(continued) and `[7]` (continued, granule position 0). -/
def threePages : List Nat :=
  samplePage 0 255 [255] ++ samplePage 1 255 [255] ++ samplePage 1 0 [7]

/-- The demuxer over `threePages` after its first page. -/
def afterFirstOfThree : OggStream := ⟨memReader threePages, 283, [⟨[⟨28, -255⟩], -1⟩]⟩

/-- The demuxer over `threePages` after its second page. -/
def afterSecondOfThree : OggStream :=
  ⟨memReader threePages, 566, [⟨[⟨28, 255⟩, ⟨311, -255⟩], -1⟩]⟩

/-- The demuxer over `threePages` after its third page. -/
def afterThirdOfThree : OggStream :=
  ⟨memReader threePages, 601, [⟨[⟨28, 255⟩, ⟨311, 255⟩, ⟨594, 7⟩], 0⟩]⟩

/-- The page object that `ReadPage` leaves behind: the decoded page with its
descriptor list emptied. -/
def drained (page : OggPage) : OggPage := { page with m_descriptors := [] }

/-- Two consecutive pages carrying one packet: segment tables `[255]` and `[7]`
(continued, granule position 0). -/
def twoPages : List Nat := samplePage 0 255 [255] ++ samplePage 1 0 [7]

/-- The demuxer over `twoPages` after its first page. -/
def afterFirstOfTwo : OggStream := ⟨memReader twoPages, 283, [⟨[⟨28, -255⟩], -1⟩]⟩

/-- The demuxer over `twoPages` after its second page. -/
def afterSecondOfTwo : OggStream := ⟨memReader twoPages, 318, [⟨[⟨28, 255⟩, ⟨311, 7⟩], 0⟩]⟩

/-- A byte source that does not begin with the capture pattern. -/
def notOgg : List Nat := [82, 73, 70, 70, 0, 0, 0, 0]

/-- A page header whose segment count is 0. -/
def zeroSegmentsHeader : List Nat := samplePageHeader 0 0 []

/-- A page header whose flags byte on the wire is `0xF8` (every bit that the wire
format leaves unused is set), with granule position -1 and segment table `[255]`. -/
def pollutedHeader : List Nat := samplePageHeader 248 255 [255]

/-- A whole identification page: `identHeader` followed by a 30-byte payload that
begins with `"\x01vorbis"`. -/
def identPage : List Nat := identHeader ++ vorbisTag 1 ++ List.replicate 23 0

/-- Two pages with the three Vorbis header packets: `identPage`, and a page with
the segment table `[8, 8]` whose packets begin with the comment tag and the setup
tag. -/
def threeHeaders : List Nat :=
  identPage ++ samplePageHeader 0 0 [8, 8] ++ vorbisTag 3 ++ [0] ++ vorbisTag 5 ++ [0]

/-- A page header whose granule bytes are all `0x80`, with the single lacing value
255: the granule position decodes to a negative value other than -1 and the last
descriptor is incomplete. -/
def farGranuleOpen : List Nat := samplePageHeader 0 128 [255]

/-- A page header whose granule bytes are all `0x80`, with the single lacing value 7:
negative granule position, last descriptor complete. -/
def farGranuleClosed : List Nat := samplePageHeader 0 128 [7]

/-- The identification page followed by one page whose only packet does not end:
341 bytes. -/
def openEnded : List Nat := identPage ++ samplePage 0 255 [255]

/-- Two well-formed pages, a first page with the segment table `[30]` and a second
page with the segment table `[8, 8]`, whose three packets are all zero: none begins
with a Vorbis tag.  103 bytes. -/
def taglessHeaders : List Nat := samplePage 2 0 [30] ++ samplePage 0 0 [8, 8]

/-- As `threeHeaders`, but the second packet is all zero. -/
def taglessComment : List Nat :=
  identPage ++ samplePageHeader 0 0 [8, 8] ++ List.replicate 8 0 ++ vorbisTag 5 ++ [0]

/-- As `threeHeaders`, but the third packet is all zero. -/
def taglessSetup : List Nat :=
  identPage ++ samplePageHeader 0 0 [8, 8] ++ vorbisTag 3 ++ [0] ++ List.replicate 8 0

/-- A first page like `identHeader` but with the segment table `[29]`: it ends at
offset 57. -/
def shortIdentHeader : List Nat := samplePageHeader 2 0 [29]

/-! ## Packets, states and the granule rule of the spec -/

/-- A packet is complete: its last descriptor has non-negative length. -/
def Packet.Complete (pkt : Packet) : Prop :=
  match pkt.descriptors.getLast? with
  | some d => 0 ≤ d.len
  | none => False

/-- A packet is incomplete: its last descriptor has negative length. -/
def Packet.Incomplete (pkt : Packet) : Prop :=
  match pkt.descriptors.getLast? with
  | some d => d.len < 0
  | none => False

instance (pkt : Packet) : Decidable pkt.Complete :=
  match h : pkt.descriptors.getLast? with
  | some d => decidable_of_iff (0 ≤ d.len) (by unfold Packet.Complete; rw [h])
  | none => isFalse (by unfold Packet.Complete; rw [h]; exact id)

instance (pkt : Packet) : Decidable pkt.Incomplete :=
  match h : pkt.descriptors.getLast? with
  | some d => decidable_of_iff (d.len < 0) (by unfold Packet.Incomplete; rw [h])
  | none => isFalse (by unfold Packet.Incomplete; rw [h]; exact id)

/-- The last descriptor of the packet is complete and lies beyond `page_start`. -/
def Packet.FinishedAfter (page_start : Int) (pkt : Packet) : Prop :=
  match pkt.descriptors.getLast? with
  | some d => 0 ≤ d.len ∧ page_start < d.pos
  | none => False

instance (page_start : Int) (pkt : Packet) : Decidable (pkt.FinishedAfter page_start) :=
  match h : pkt.descriptors.getLast? with
  | some d =>
    decidable_of_iff (0 ≤ d.len ∧ page_start < d.pos) (by unfold Packet.FinishedAfter; rw [h])
  | none => isFalse (by unfold Packet.FinishedAfter; rw [h]; exact id)

/-- The granule rule in the words of the spec (§4.2 step 5, granule >= 0): scanning
the queue from newest to oldest, the first packet whose last descriptor is complete
and has `byte_offset` strictly greater than `page_start` receives the granule
position; `none` when there is no such packet.  The argument and the result list
the queue newest packet first. -/
def assignGranuleSpec (page_start g : Int) : List Packet → Option (List Packet)
  | [] => none
  | pkt :: older =>
    if pkt.FinishedAfter page_start then some ({ pkt with granule_pos := g } :: older)
    else (assignGranuleSpec page_start g older).map fun l => pkt :: l

/-- The states of a demuxer over the reader `r`: the freshly constructed one, and
every state that a call of `ReadPage` or `GetPacket` that returns leaves behind,
whatever the call returns. -/
inductive Reachable (K : Consts) (r : IOggReader) : OggStream → Prop
  | fresh : Reachable K r (OggStream.new r)
  | readPage {s s2 : OggStream} {page page2 : OggPage} {res : Int} :
      Reachable K r s → OggStream.ReadPage K s page = some (res, s2, page2) → Reachable K r s2
  | getPacket {s s2 : OggStream} {res : Int} {out : Option Packet} :
      Reachable K r s → OggStream.GetPacket s = some (res, out, s2) → Reachable K r s2

/-- The invariant of the demuxer state. -/
structure Inv (s : OggStream) : Prop where
  pos_nonneg : 0 ≤ s.m_pos
  nonempty : ∀ pkt ∈ s.m_packets, pkt.descriptors ≠ []
  behind : ∀ pkt ∈ s.m_packets, ∀ d, pkt.descriptors.getLast? = some d → d.pos ≤ s.m_pos
  complete : ∀ pkt ∈ s.m_packets.dropLast, pkt.Complete
  granule : ∀ pkt ∈ s.m_packets, pkt.granule_pos = -1 ∨ (0 ≤ pkt.granule_pos ∧ pkt.Complete)

/-- What holds of the queue `q` after lines 554-604 of `OggStream::ReadPage`, when
the queue before the call was `old`, the page began at `page_pos` and the cursor
after the page is `cursor`. -/
structure Ingested (page_pos cursor : Int) (old q : List Packet) : Prop where
  ne_nil : q ≠ []
  nonempty : ∀ pkt ∈ q, pkt.descriptors ≠ []
  behind : ∀ pkt ∈ q, ∀ d, pkt.descriptors.getLast? = some d → d.pos ≤ cursor
  complete : ∀ pkt ∈ q.dropLast, pkt.Complete
  granule : ∀ pkt ∈ q, pkt.granule_pos = -1 ∨ (0 ≤ pkt.granule_pos ∧ pkt.Complete)
  split : ∃ a b, q = a ++ b ∧
    (∀ pkt ∈ a, ∀ d, pkt.descriptors.getLast? = some d → d.pos ≤ page_pos) ∧
    (∀ pkt ∈ b, pkt.granule_pos = -1 ∧
      ∀ d, pkt.descriptors.getLast? = some d → page_pos < d.pos)
  kept : ∀ i (hi : i < old.length), 0 ≤ (old[i]).granule_pos → q[i]? = some old[i]

/-! ## Runs of the bootstrap -/

/-- The stream `t` is what a sequence of successful calls of `ReadPage` makes of the
stream `s` (calls of `GetPacket` that return 0 in between leave the stream as it
is). -/
inductive PagesRead (K : Consts) : OggStream → OggStream → Prop
  | none (s : OggStream) : PagesRead K s s
  | page (s s2 t : OggStream) (page page2 : OggPage) (res : Int) :
      OggStream.ReadPage K s page = some (res, s2, page2) → 0 ≤ res → PagesRead K s2 t →
      PagesRead K s t

/-- Every byte range of the packet `p` ends where the byte ranges of the packet `q`
have not yet begun. -/
def Packet.Before (p q : Packet) : Prop :=
  ∀ d ∈ p.descriptors, ∀ e ∈ q.descriptors, d.pos + |d.len| ≤ e.pos

/-- The payload of the packet begins with the bytes `tag`: the first descriptor is
at least as long as `tag`, its bytes are read with result 0, and the first of them
are `tag`. -/
def PayloadBeginsWith (r : IOggReader) (pkt : Packet) (tag : List Nat) : Prop :=
  ∃ d rest, pkt.descriptors = d :: rest ∧ 0 < d.len ∧ tag.length ≤ d.len.toNat ∧
    (r.Read d.pos d.len.toNat).1 = 0 ∧
    ((r.Read d.pos d.len.toNat).2.take tag.length).map (· % 256) = tag

/-- The byte ranges of the descriptor lists in `L` all end at or before `cur`, and
the byte ranges of an earlier list of `L` end where those of a later list have not
yet begun. -/
def InOrder (cur : Int) (L : List (List Descriptor)) : Prop :=
  (∀ x ∈ L, ∀ d ∈ x, d.pos + |d.len| ≤ cur) ∧
    L.Pairwise fun a b => ∀ d ∈ a, ∀ e ∈ b, d.pos + |d.len| ≤ e.pos

/-- The last byte range of the last queued packet, if there is one, ends at the
cursor. -/
def EndsAtCursor (s : OggStream) : Prop :=
  ∀ pkt, s.m_packets.getLast? = some pkt → ∀ d, pkt.descriptors.getLast? = some d →
    d.pos + |d.len| = s.m_pos

/-- Lines 508-540 of `OggStream::Init`: the second loop, the setup packet and the
final test of the queue. -/
def OggStream.Init.fromSetup (K : Consts) (fuel : Nat) (s : OggStream) (page : OggPage) :
    Run (Int × OggStream) :=
  match OggStream.Init.loop2 K fuel s page with
  | .abort => .abort
  | .timeout => .timeout
  | .done (.inl result, s, _) => .done (result, s)
  | .done (.inr setup, s, _) =>
    if ¬ OggStream.Init.check s setup (vorbisTag 5) then .abort
    else if ¬ s.m_packets.isEmpty then .done (K.E_FILE_FORMAT_INVALID, s)
    else .done (0, s)

/-- Lines 477-540 of `OggStream::Init`: the first loop, the comment packet, and the
rest. -/
def OggStream.Init.fromComment (K : Consts) (fuel : Nat) (s : OggStream) (page : OggPage) :
    Run (Int × OggStream) :=
  match OggStream.Init.loop1 K fuel s page with
  | .abort => .abort
  | .timeout => .timeout
  | .done (.inl result, s, _) => .done (result, s)
  | .done (.inr comment, s, page) =>
    if ¬ OggStream.Init.check s comment (vorbisTag 3) then .abort
    else OggStream.Init.fromSetup K fuel s page

/-- Lines 450-540 of `OggStream::Init`: the identification packet, and the rest. -/
def OggStream.Init.fromIdent (K : Consts) (fuel : Nat) (s : OggStream) (page : OggPage) :
    Run (Int × OggStream) :=
  match OggStream.GetPacket s with
  | none => .abort
  | some (r, out, s) =>
    if r < 1 then .done (K.E_FILE_FORMAT_INVALID, s)
    else
      match out with
      | none => .abort
      | some ident =>
        if ¬ OggStream.Init.check s ident (vorbisTag 1) then .abort
        else if ¬ s.m_packets.isEmpty then .done (K.E_FILE_FORMAT_INVALID, s)
        else OggStream.Init.fromComment K fuel s page

/-- A reader over a finite byte source of length `L`: every read of at least one
byte that begins at or after `L` fails. -/
def IOggReader.EndsAt (r : IOggReader) (L : Int) : Prop :=
  ∀ (pos : Int) (n : Nat), L ≤ pos → 0 < n → (r.Read pos n).1 < 0

/-- The method `OggStream::Init()` as compiled with `NDEBUG`, where `assert` expands
to nothing: the body of `OggStream.Init` without the outcome of the three tag-check
blocks (lines 457-472, 491-506, 519-534), whose reads remain but decide nothing.
The `assert`s inside `ReadPage` and `GetPacket` are kept as in `OggStream.Init`. -/
def OggStream.InitRelease (K : Consts) (fuel : Nat) (s : OggStream) (page : OggPage) :
    Run (Int × OggStream) :=
  match OggStream.ReadPage K s page with
  | none => .abort
  | some (result, s, page) =>
    if result < 0 then .done (result, s)
    else if page.m_header &&& fBOS = 0 then .done (K.E_FILE_FORMAT_INVALID, s)
    else if page.m_header &&& fEOS ≠ 0 then .done (K.E_FILE_FORMAT_INVALID, s)
    else if page.m_header &&& K.fDone = 0 then .done (K.E_FILE_FORMAT_INVALID, s)
    else if page.m_granule_pos ≠ 0 then .done (K.E_FILE_FORMAT_INVALID, s)
    else if s.m_pos ≠ 58 then .done (K.E_FILE_FORMAT_INVALID, s)
    else
      match OggStream.GetPacket s with
      | none => .abort
      | some (r, out, s) =>
        if r < 1 then .done (K.E_FILE_FORMAT_INVALID, s)
        else
          match out with
          | none => .abort
          | some _ =>
            if ¬ s.m_packets.isEmpty then .done (K.E_FILE_FORMAT_INVALID, s)
            else
              match OggStream.Init.loop1 K fuel s page with
              | .abort => .abort
              | .timeout => .timeout
              | .done (.inl result, s, _) => .done (result, s)
              | .done (.inr _, s, page) =>
                match OggStream.Init.loop2 K fuel s page with
                | .abort => .abort
                | .timeout => .timeout
                | .done (.inl result, s, _) => .done (result, s)
                | .done (.inr _, s, _) =>
                  if ¬ s.m_packets.isEmpty then .done (K.E_FILE_FORMAT_INVALID, s)
                  else .done (0, s)

/-- The function `OggStream::Create(pReader, pStream)` as compiled with `NDEBUG`. -/
def OggStream.CreateRelease (K : Consts) (fuel : Nat) (pReader : Option IOggReader)
    (page : OggPage) : Run (Int × Option OggStream) :=
  match pReader with
  | none => .done (-1, none)
  | some p =>
    match OggStream.InitRelease K fuel (OggStream.new p) page with
    | .abort => .abort
    | .timeout => .timeout
    | .done (result, s) => if result ≥ 0 then .done (0, some s) else .done (result, none)

/-! # Theorems -/

/-! ## `ReadInt` and the segment-table loop -/

theorem modifyBack_append_singleton {α : Type} (f : α → α) (l : List α) (x : α) :
    modifyBack f (l ++ [x]) = l ++ [f x] := by
  induction l with
  | nil => rfl
  | cons a t ih =>
    cases t with
    | nil => rfl
    | cons b u =>
      have : modifyBack f (a :: b :: (u ++ [x])) = a :: modifyBack f (b :: (u ++ [x])) := by
        cases u <;> rfl
      simp only [List.cons_append] at ih ⊢
      rw [this, ih]

theorem ReadInt.loop_fst (r : IOggReader) (pos : Int) (len : Nat) :
    ∀ n i val, (ReadInt.loop r pos len n i val).1 = 0 ∨ (ReadInt.loop r pos len n i val).1 = len := by
  intro n
  induction n with
  | zero => intro i val; left; rfl
  | succ n ih =>
    intro i val
    simp only [ReadInt.loop]
    split
    · right; rfl
    · exact ih _ _

theorem ReadInt_fst_nonneg (r : IOggReader) (pos : Int) (len : Nat) :
    0 ≤ (ReadInt r pos len).1 := by
  rcases ReadInt.loop_fst r pos len len 0 0 with h | h <;> simp [ReadInt, h]

theorem ReadInt_fst_not_neg (r : IOggReader) (pos : Int) (len : Nat) :
    ¬ (ReadInt r pos len).1 < 0 := not_lt.mpr (ReadInt_fst_nonneg r pos len)

theorem toInt64_of_lt (v : Nat) (h : v < 2 ^ 63) : toInt64 v = v := by
  have h2 : v % 2 ^ 64 = v := Nat.mod_eq_of_lt (by omega)
  unfold toInt64
  rw [h2, if_pos h]

theorem ReadInt_one (r : IOggReader) (pos : Int) :
    ReadInt r pos 1 =
      if (r.Read pos 1).1 < 0 then (1, 0) else (0, ((byteAt (r.Read pos 1).2 0 : Nat) : Int)) := by
  have hb : byteAt (r.Read pos 1).2 0 < 256 := Nat.mod_lt _ (by norm_num)
  by_cases h : (r.Read pos 1).1 < 0
  · simp [ReadInt, ReadInt.loop, h, toInt64]
  · have h2 : byteAt (r.Read pos 1).2 0 % 2 ^ 64 = byteAt (r.Read pos 1).2 0 :=
      Nat.mod_eq_of_lt (by omega)
    simp only [ReadInt, ReadInt.loop, h, h2, if_false, Nat.zero_or, Nat.zero_mul,
      Nat.shiftLeft_zero]
    rw [toInt64_of_lt _ (by omega)]

theorem ReadInt_one_range (r : IOggReader) (pos : Int) :
    0 ≤ (ReadInt r pos 1).2 ∧ (ReadInt r pos 1).2 ≤ 255 := by
  have hb : byteAt (r.Read pos 1).2 0 < 256 := Nat.mod_lt _ (by norm_num)
  rw [ReadInt_one]
  split <;> simp; omega

theorem lacingValues_succ (r : IOggReader) (pos : Int) (n : Nat) :
    lacingValues r pos (n + 1) = (ReadInt r pos 1).2 :: lacingValues r (pos + 1) n := by
  simp only [lacingValues, List.range_succ_eq_map, List.map_cons, List.map_map]
  congr 1
  · simp
  · apply List.map_congr_left
    intro i _
    simp only [Function.comp, Nat.succ_eq_add_one, Nat.cast_add, Nat.cast_one]
    congr 2
    ring

theorem lacing_eq (K : Consts) (r : IOggReader) :
    ∀ (n : Nat) (pos : Int) (hdr : Nat) (ds : List Descriptor) (c : Int),
      OggPage.Read.lacing K r (n + 1) pos hdr (ds ++ [⟨-1, c⟩]) =
        (0, pos + ((n + 1 : Nat) : Int),
          if (lacingValues r pos (n + 1)).getLast? = some 255 then hdr
          else (hdr ||| K.fDone) % 256,
          ds ++ laceDescs c (lacingValues r pos (n + 1))) := by
  intro n
  induction n with
  | zero =>
    intro pos hdr ds c
    have hv : lacingValues r pos 1 = [(ReadInt r pos 1).2] := by
      rw [lacingValues_succ]; rfl
    rw [OggPage.Read.lacing]
    simp only [ReadInt_fst_not_neg, if_false, modifyBack_append_singleton,
      hv, laceDescs, List.getLast?_singleton, Option.some.injEq, if_true]
    by_cases h : (ReadInt r pos 1).2 = 255 <;> simp [h]
  | succ n ih =>
    intro pos hdr ds c
    have hv : lacingValues r pos (n + 1 + 1) =
        (ReadInt r pos 1).2 :: (ReadInt r (pos + 1) 1).2 :: lacingValues r (pos + 1 + 1) n := by
      rw [lacingValues_succ, lacingValues_succ]
    have hv1 : lacingValues r (pos + 1) (n + 1) =
        (ReadInt r (pos + 1) 1).2 :: lacingValues r (pos + 1 + 1) n := lacingValues_succ _ _ _
    have hpos : pos + 1 + ((n + 1 : Nat) : Int) = pos + ((n + 1 + 1 : Nat) : Int) := by
      push_cast; ring
    rw [OggPage.Read.lacing]
    simp only [ReadInt_fst_not_neg, if_false, modifyBack_append_singleton,
      Nat.add_one_ne_zero]
    rw [hv, laceDescs, ← hv1]
    by_cases h : (ReadInt r pos 1).2 = 255
    · simp only [h, ne_eq, not_true_eq_false, if_false]
      rw [ih, hpos, hv1]
      simp [List.getLast?_cons_cons]
    · simp only [h, ne_eq, not_false_eq_true, if_true]
      rw [ih, hpos, hv1]
      simp [List.getLast?_cons_cons]

theorem Read_of_accepts (K : Consts) (page : OggPage) (r : IOggReader) (pos : Int)
    (h : OggPage.Accepts r pos) :
    OggPage.Read K page r pos = (0, decodedPage K r pos, decodedEnd r pos) := by
  obtain ⟨h0, h1, h2, h3⟩ := h
  have e1 : pos + 4 + 1 = pos + 5 := by ring
  have e2 : pos + 5 + 1 = pos + 6 := by ring
  have e3 : pos + 6 + 8 = pos + 14 := by ring
  have e4 : pos + 14 + 4 = pos + 18 := by ring
  have e5 : pos + 18 + 4 = pos + 22 := by ring
  have e6 : pos + 22 + 4 = pos + 26 := by ring
  have e7 : pos + 26 + 1 = pos + 27 := by ring
  obtain ⟨m, hm⟩ : ∃ m, (ReadInt r (pos + 26) 1).2.toNat = m + 1 :=
    ⟨(ReadInt r (pos + 26) 1).2.toNat - 1, by omega⟩
  have hl := lacing_eq K r m (pos + 27) ((ReadInt r (pos + 5) 1).2 % 256).toNat [] 0
  simp only [List.nil_append] at hl
  unfold OggPage.Read
  simp only [not_lt.mpr h0, not_lt.mpr h1, h2, ReadInt_fst_not_neg, not_le.mpr h3, if_false,
    ne_eq, not_true_eq_false, e1, e2, e3, e4, e5, e6, e7, hm, hl]
  simp only [decodedPage, decodedEnd, rawDescriptors, segmentCount, hm]
  simp

theorem Read_of_not_accepts (K : Consts) (page : OggPage) (r : IOggReader) (pos : Int)
    (h : ¬ OggPage.Accepts r pos) :
    (OggPage.Read K page r pos).1 < 0 ∨
      (OggPage.Read K page r pos).1 = K.E_FILE_FORMAT_INVALID := by
  unfold OggPage.Read
  by_cases h0 : pos < 0
  · left; simp only [h0, if_true]; decide
  by_cases h1 : (r.Read pos 4).1 < 0
  · left; simp only [h0, h1, if_true, if_false]
  by_cases h2 : ((r.Read pos 4).2.take 4).map (· % 256) = OggS
  · have h3 : (ReadInt r (pos + 26) 1).2 ≤ 0 := by
      by_contra hc
      exact h ⟨not_lt.mp h0, not_lt.mp h1, h2, not_le.mp hc⟩
    have e : pos + 4 + 1 + 1 + 8 + 4 + 4 + 4 = pos + 26 := by ring
    right
    simp only [h0, h1, h2, ReadInt_fst_not_neg, if_false, ne_eq, not_true_eq_false, e, h3,
      if_true]
  · right; simp only [h0, h1, h2, ne_eq, not_false_eq_true, if_true, if_false]

/-! ## The segment table as runs of 255 -/

theorem asInts_cons (v : Nat) (t : List Nat) : asInts (v :: t) = (v : Int) :: asInts t := rfl

theorem asInts_nil : asInts [] = [] := rfl

theorem getLast?_cons_of_ne_nil {α : Type} (a : α) (l : List α) (h : l ≠ []) :
    (a :: l).getLast? = l.getLast? := by
  cases l with
  | nil => exact absurd rfl h
  | cons b t => exact List.getLast?_cons_cons

theorem laceDescs_one (c v : Int) :
    laceDescs c [v] = if v = 255 then [⟨-1, -(c + v)⟩] else [⟨-1, c + v⟩] := rfl

theorem laceDescs_cons_cons (c v w : Int) (u : List Int) :
    laceDescs c (v :: w :: u) =
      if v ≠ 255 then ⟨-1, c + v⟩ :: laceDescs 0 (w :: u) else laceDescs (c + v) (w :: u) := rfl

theorem laceDescs_ne_nil (c : Int) (vs : List Int) (h : vs ≠ []) : laceDescs c vs ≠ [] := by
  induction vs generalizing c with
  | nil => exact absurd rfl h
  | cons v t ih =>
    cases t with
    | nil => simp only [laceDescs]; split <;> simp
    | cons w u =>
      simp only [laceDescs]
      split
      · simp
      · exact ih _ (by simp)

theorem sum_replicate_255 (k : Nat) : (List.replicate k 255).sum = 255 * k := by
  simp [List.sum_replicate, Nat.mul_comm]

theorem laceDescs_groups (vs : List Nat) (hne : vs ≠ []) (hb : ∀ v ∈ vs, v ≤ 255) :
    ∀ k : Nat, ∃ gs : List (List Nat),
      gs.flatten = List.replicate k 255 ++ vs ∧
      (∀ g ∈ gs.dropLast, ClosedRun g) ∧
      (∀ g, gs.getLast? = some g →
        (vs.getLast? ≠ some 255 → ClosedRun g) ∧ (vs.getLast? = some 255 → OpenRun g)) ∧
      (laceDescs (255 * (k : Int)) (asInts vs)).map (fun d => d.len.natAbs)
        = gs.map List.sum ∧
      (∀ d ∈ (laceDescs (255 * (k : Int)) (asInts vs)).dropLast, 0 ≤ d.len) ∧
      (∀ d, (laceDescs (255 * (k : Int)) (asInts vs)).getLast? = some d →
        (d.len < 0 ↔ vs.getLast? = some 255)) := by
  induction vs with
  | nil => exact absurd rfl hne
  | cons v t ih =>
    intro k
    cases t with
    | nil =>
      by_cases hv : v = 255
      · subst hv
        refine ⟨[List.replicate (k + 1) 255], ?_, ?_, ?_, ?_, ?_, ?_⟩
        · simp [List.replicate_succ']
        · simp
        · intro g hg
          simp only [List.getLast?_singleton, Option.some.injEq] at hg
          subst hg
          exact ⟨fun h => absurd rfl h, fun _ => ⟨k, rfl⟩⟩
        · simp only [asInts_cons, asInts_nil, laceDescs_one, Nat.cast_ofNat, if_true,
            sum_replicate_255, List.map_cons, List.map_nil]
          congr 1
        · simp [asInts_cons, asInts_nil, laceDescs_one]
        · intro d hd
          simp only [asInts_cons, asInts_nil, laceDescs_one, Nat.cast_ofNat, if_true,
            List.getLast?_singleton, Option.some.injEq] at hd
          subst hd
          simp only [List.getLast?_singleton, iff_true]
          omega
      · have hv2 : ((v : Nat) : Int) ≠ 255 := by exact_mod_cast hv
        have hlt : v < 255 := by
          have := hb v (by simp); omega
        refine ⟨[List.replicate k 255 ++ [v]], ?_, ?_, ?_, ?_, ?_, ?_⟩
        · simp
        · simp
        · intro g hg
          simp only [List.getLast?_singleton, Option.some.injEq] at hg
          subst hg
          refine ⟨fun _ => ⟨k, v, hlt, rfl⟩, fun h => ?_⟩
          simp only [List.getLast?_singleton, Option.some.injEq] at h
          exact absurd h hv
        · simp only [asInts_cons, asInts_nil, laceDescs_one, hv2, if_false, List.sum_append,
            sum_replicate_255, List.sum_cons, List.sum_nil, List.map_cons, List.map_nil]
          congr 1
        · simp [asInts_cons, asInts_nil, laceDescs_one, hv2]
        · intro d hd
          simp only [asInts_cons, asInts_nil, laceDescs_one, hv2, if_false,
            List.getLast?_singleton, Option.some.injEq] at hd
          subst hd
          simp only [List.getLast?_singleton, Option.some.injEq]
          constructor
          · intro h; omega
          · intro h; exact absurd h hv
    | cons w u =>
      have hb2 : ∀ x ∈ w :: u, x ≤ 255 := fun x hx => hb x (List.mem_cons_of_mem _ hx)
      have hlast : (v :: w :: u).getLast? = (w :: u).getLast? := List.getLast?_cons_cons
      by_cases hv : v = 255
      · subst hv
        obtain ⟨gs, h1, h2, h3, h4, h5, h6⟩ := ih (by simp) hb2 (k + 1)
        have hc : (255 : Int) * ((k : Int)) + ((255 : Nat) : Int) = 255 * (((k + 1 : Nat) : Int)) := by
          push_cast; ring
        have hl : laceDescs (255 * (k : Int)) (asInts (255 :: w :: u))
            = laceDescs (255 * (((k + 1 : Nat) : Int))) (asInts (w :: u)) := by
          simp only [asInts_cons, laceDescs_cons_cons, Nat.cast_ofNat, ne_eq, not_true_eq_false,
            if_false]
          rw [← hc]; simp
        refine ⟨gs, ?_, h2, ?_, ?_, ?_, ?_⟩
        · rw [h1, List.replicate_succ']; simp
        · intro g hg; rw [hlast]; exact h3 g hg
        · rw [hl]; exact h4
        · rw [hl]; exact h5
        · rw [hl, hlast]; exact h6
      · have hv2 : ((v : Nat) : Int) ≠ 255 := by exact_mod_cast hv
        have hlt : v < 255 := by
          have := hb v (by simp); omega
        obtain ⟨gs, h1, h2, h3, h4, h5, h6⟩ := ih (by simp) hb2 0
        have hgs : gs ≠ [] := by
          intro h; subst h; simp at h1
        have hl : laceDescs (255 * (k : Int)) (asInts (v :: w :: u))
            = ⟨-1, 255 * (k : Int) + v⟩ ::
              laceDescs (255 * (((0 : Nat) : Int))) (asInts (w :: u)) := by
          simp only [asInts_cons, laceDescs_cons_cons, ne_eq, hv2, not_false_eq_true, if_true]
          simp
        have hne2 : laceDescs (255 * (((0 : Nat) : Int))) (asInts (w :: u)) ≠ [] :=
          laceDescs_ne_nil _ _ (by simp [asInts_cons])
        refine ⟨(List.replicate k 255 ++ [v]) :: gs, ?_, ?_, ?_, ?_, ?_, ?_⟩
        · simp only [List.flatten_cons, h1]; simp
        · intro g hg
          rw [List.dropLast_cons_of_ne_nil hgs] at hg
          rcases List.mem_cons.mp hg with rfl | hg
          · exact ⟨k, v, hlt, rfl⟩
          · exact h2 g hg
        · intro g hg
          rw [getLast?_cons_of_ne_nil _ _ hgs] at hg
          rw [hlast]; exact h3 g hg
        · rw [hl]
          simp only [List.map_cons, h4, List.sum_append, sum_replicate_255, List.sum_cons,
            List.sum_nil]
          congr 1
        · rw [hl]
          intro d hd
          rw [List.dropLast_cons_of_ne_nil hne2] at hd
          rcases List.mem_cons.mp hd with rfl | hd
          · simp; omega
          · exact h5 d hd
        · rw [hl, hlast]
          intro d hd
          rw [getLast?_cons_of_ne_nil _ _ hne2] at hd
          exact h6 d hd

/-! ## Facts about an accepting `OggPage::Read` -/

theorem assign_map_len (ds : List Descriptor) :
    ∀ p : Int, (OggPage.Read.assign ds p).1.map (fun d => d.len) = ds.map (fun d => d.len) := by
  induction ds with
  | nil => intro p; rfl
  | cons d t ih => intro p; simp only [OggPage.Read.assign, List.map_cons, ih]

theorem accepts_of_nonneg (K : Consts) (page : OggPage) (r : IOggReader) (pos : Int)
    (hK : K.E_FILE_FORMAT_INVALID < 0) (hacc : 0 ≤ (OggPage.Read K page r pos).1) :
    OggPage.Accepts r pos := by
  by_contra h
  rcases Read_of_not_accepts K page r pos h with h1 | h1 <;> omega

theorem Read_of_nonneg (K : Consts) (page : OggPage) (r : IOggReader) (pos : Int)
    (hK : K.E_FILE_FORMAT_INVALID < 0) (hacc : 0 ≤ (OggPage.Read K page r pos).1) :
    OggPage.Read K page r pos = (0, decodedPage K r pos, decodedEnd r pos) :=
  Read_of_accepts K page r pos (accepts_of_nonneg K page r pos hK hacc)

theorem lacingValues_eq_asInts (r : IOggReader) (p : Int) (vs : List Nat)
    (htable : ∀ i (hi : i < vs.length),
      0 ≤ (r.Read (p + (i : Int)) 1).1 ∧ byteAt (r.Read (p + (i : Int)) 1).2 0 = vs[i]) :
    lacingValues r p vs.length = asInts vs := by
  apply List.ext_getElem
  · simp [lacingValues, asInts]
  · intro i h1 h2
    have hi : i < vs.length := by simpa [asInts] using h2
    obtain ⟨ha, hb⟩ := htable i hi
    simp only [lacingValues, asInts, List.getElem_map, List.getElem_range, ReadInt_one,
      not_lt.mpr ha, if_false, hb]

/-! ## Unfolding `OggStream::ReadPage` -/

theorem assign_ne_nil (ds : List Descriptor) (p : Int) (h : ds ≠ []) :
    (OggPage.Read.assign ds p).1 ≠ [] := by
  cases ds with
  | nil => exact absurd rfl h
  | cons d t => simp [OggPage.Read.assign]

theorem segmentCount_pos (r : IOggReader) (pos : Int) (h : OggPage.Accepts r pos) :
    0 < segmentCount r pos := by
  have := h.2.2.2
  unfold segmentCount; omega

theorem lacingValues_ne_nil (r : IOggReader) (p : Int) (n : Nat) (h : 0 < n) :
    lacingValues r p n ≠ [] := by
  obtain ⟨m, rfl⟩ : ∃ m, n = m + 1 := ⟨n - 1, by omega⟩
  rw [lacingValues_succ]; simp

theorem rawDescriptors_ne_nil (r : IOggReader) (pos : Int) (h : OggPage.Accepts r pos) :
    rawDescriptors r pos ≠ [] :=
  laceDescs_ne_nil _ _ (lacingValues_ne_nil _ _ _ (segmentCount_pos r pos h))

theorem decodedPage_descriptors_ne_nil (K : Consts) (r : IOggReader) (pos : Int)
    (h : OggPage.Accepts r pos) : (decodedPage K r pos).m_descriptors ≠ [] :=
  assign_ne_nil _ _ (rawDescriptors_ne_nil r pos h)

theorem ReadPage_of_accepts (K : Consts) (s : OggStream) (page : OggPage)
    (d0 : Descriptor) (rest : List Descriptor)
    (hA : OggPage.Accepts s.m_pReader s.m_pos)
    (hd : (decodedPage K s.m_pReader s.m_pos).m_descriptors = d0 :: rest) :
    OggStream.ReadPage K s page =
      match OggStream.ReadPage.continuation (decodedPage K s.m_pReader s.m_pos).m_header
          s.m_packets d0 rest with
      | none => some (K.E_FILE_FORMAT_INVALID,
          { s with m_pos := decodedEnd s.m_pReader s.m_pos }, decodedPage K s.m_pReader s.m_pos)
      | some (q, dd) =>
        OggStream.ReadPage.resolve K s.m_pos
          { s with m_pos := decodedEnd s.m_pReader s.m_pos,
                   m_packets := OggStream.ReadPage.push q dd }
          { decodedPage K s.m_pReader s.m_pos with m_descriptors := [] } := by
  unfold OggStream.ReadPage
  simp only [Read_of_accepts K page s.m_pReader s.m_pos hA, lt_irrefl, if_false, hd]

theorem ReadPage_of_not_accepts (K : Consts) (s : OggStream) (page : OggPage)
    (hK : K.E_FILE_FORMAT_INVALID < 0) (hA : ¬ OggPage.Accepts s.m_pReader s.m_pos) :
    OggStream.ReadPage K s page =
      some ((OggPage.Read K page s.m_pReader s.m_pos).1,
        { s with m_pos := (OggPage.Read K page s.m_pReader s.m_pos).2.2 },
        (OggPage.Read K page s.m_pReader s.m_pos).2.1) := by
  have h : (OggPage.Read K page s.m_pReader s.m_pos).1 < 0 := by
    rcases Read_of_not_accepts K page s.m_pReader s.m_pos hA with h | h <;> omega
  unfold OggStream.ReadPage
  simp only [h, if_true]

/-! ## Positions and lengths of decoded descriptors -/

theorem assign_bounds (ds : List Descriptor) :
    ∀ p : Int, p ≤ (OggPage.Read.assign ds p).2 ∧
      ∀ d ∈ (OggPage.Read.assign ds p).1, p ≤ d.pos ∧ d.pos ≤ (OggPage.Read.assign ds p).2 := by
  induction ds with
  | nil => intro p; simp [OggPage.Read.assign]
  | cons e t ih =>
    intro p
    obtain ⟨h1, h2⟩ := ih (p + |e.len|)
    have ha : 0 ≤ |e.len| := abs_nonneg _
    simp only [OggPage.Read.assign, List.mem_cons]
    refine ⟨by omega, ?_⟩
    rintro d (rfl | hd)
    · simp; omega
    · have := h2 d hd; omega

theorem lacingValues_exists_bytes (r : IOggReader) (p : Int) (n : Nat) :
    ∃ vs : List Nat, lacingValues r p n = asInts vs ∧ vs.length = n ∧ ∀ v ∈ vs, v ≤ 255 := by
  refine ⟨(lacingValues r p n).map Int.toNat, ?_, by simp [lacingValues], ?_⟩
  · simp only [asInts, lacingValues, List.map_map]
    apply List.map_congr_left
    intro i _
    have := ReadInt_one_range r (p + (i : Int))
    simp only [Function.comp]
    omega
  · intro v hv
    simp only [lacingValues, List.map_map, List.mem_map, Function.comp] at hv
    obtain ⟨i, _, rfl⟩ := hv
    have := ReadInt_one_range r (p + (i : Int))
    omega

theorem rawDescriptors_dropLast_nonneg (r : IOggReader) (pos : Int)
    (h : OggPage.Accepts r pos) : ∀ d ∈ (rawDescriptors r pos).dropLast, 0 ≤ d.len := by
  obtain ⟨vs, h1, h2, h3⟩ := lacingValues_exists_bytes r (pos + 27) (segmentCount r pos)
  have hne : vs ≠ [] := by
    intro hv; subst hv
    have := segmentCount_pos r pos h
    simp at h2; omega
  obtain ⟨gs, _, _, _, _, g5, _⟩ := laceDescs_groups vs hne h3 0
  unfold rawDescriptors
  rw [h1]
  simpa using g5

theorem decodedPage_dropLast_nonneg (K : Consts) (r : IOggReader) (pos : Int)
    (h : OggPage.Accepts r pos) :
    ∀ d ∈ (decodedPage K r pos).m_descriptors.dropLast, 0 ≤ d.len := by
  intro d hd
  have hm : d.len ∈ ((decodedPage K r pos).m_descriptors.map (fun d => d.len)).dropLast := by
    rw [← List.map_dropLast]; exact List.mem_map_of_mem _ hd
  unfold decodedPage at hm
  simp only [assign_map_len] at hm
  rw [← List.map_dropLast] at hm
  obtain ⟨e, he, hee⟩ := List.mem_map.mp hm
  rw [← hee]; exact rawDescriptors_dropLast_nonneg r pos h e he

theorem decodedPage_pos_bounds (K : Consts) (r : IOggReader) (pos : Int) :
    ∀ d ∈ (decodedPage K r pos).m_descriptors, pos < d.pos ∧ d.pos ≤ decodedEnd r pos := by
  intro d hd
  have := (assign_bounds (rawDescriptors r pos) (pos + 27 + (segmentCount r pos : Int))).2 d hd
  unfold decodedEnd
  omega

theorem decodedEnd_gt (r : IOggReader) (pos : Int) (h : OggPage.Accepts r pos) :
    pos + 28 ≤ decodedEnd r pos := by
  have := (assign_bounds (rawDescriptors r pos) (pos + 27 + (segmentCount r pos : Int))).1
  have := segmentCount_pos r pos h
  unfold decodedEnd
  omega

theorem Read_pos_mono (K : Consts) (page : OggPage) (r : IOggReader) (pos : Int) :
    pos ≤ (OggPage.Read K page r pos).2.2 := by
  by_cases hA : OggPage.Accepts r pos
  · rw [Read_of_accepts K page r pos hA]
    have := decodedEnd_gt r pos hA
    show pos ≤ decodedEnd r pos
    omega
  · unfold OggPage.Read
    by_cases h0 : pos < 0
    · simp only [h0, if_true, le_refl]
    by_cases h1 : (r.Read pos 4).1 < 0
    · simp only [h0, h1, if_true, if_false, le_refl]
    by_cases h2 : ((r.Read pos 4).2.take 4).map (· % 256) = OggS
    · have h3 : (ReadInt r (pos + 26) 1).2 ≤ 0 := by
        by_contra hc
        exact hA ⟨not_lt.mp h0, not_lt.mp h1, h2, not_le.mp hc⟩
      have e : pos + 4 + 1 + 1 + 8 + 4 + 4 + 4 = pos + 26 := by ring
      simp only [h0, h1, h2, ReadInt_fst_not_neg, if_false, ne_eq, not_true_eq_false, e, h3,
        if_true]
      omega
    · simp only [h0, h1, h2, ne_eq, not_false_eq_true, if_true, if_false, le_refl]

/-! ## The queue after a page has been ingested -/

theorem push_eq (q : List Packet) (dd : List Descriptor) :
    OggStream.ReadPage.push q dd = q ++ dd.map (fun d => (⟨[d], -1⟩ : Packet)) := by
  induction dd generalizing q with
  | nil => simp [OggStream.ReadPage.push]
  | cons d t ih => simp [OggStream.ReadPage.push, ih]

theorem complete_iff (pkt : Packet) (d : Descriptor) (h : pkt.descriptors.getLast? = some d) :
    pkt.Complete ↔ 0 ≤ d.len := by
  unfold Packet.Complete; rw [h]

theorem incomplete_iff (pkt : Packet) (d : Descriptor) (h : pkt.descriptors.getLast? = some d) :
    pkt.Incomplete ↔ d.len < 0 := by
  unfold Packet.Incomplete; rw [h]

theorem newPackets_granule (dd : List Descriptor) :
    ∀ pkt ∈ dd.map (fun d => (⟨[d], -1⟩ : Packet)), pkt.granule_pos = -1 := by
  intro pkt h
  obtain ⟨d, _, rfl⟩ := List.mem_map.mp h
  rfl

theorem newPackets_last (dd : List Descriptor) :
    ∀ pkt ∈ dd.map (fun d => (⟨[d], -1⟩ : Packet)),
      ∃ d ∈ dd, pkt.descriptors = [d] := by
  intro pkt h
  obtain ⟨d, hd, rfl⟩ := List.mem_map.mp h
  exact ⟨d, hd, rfl⟩

theorem newPackets_dropLast_complete (dd : List Descriptor)
    (h : ∀ d ∈ dd.dropLast, 0 ≤ d.len) :
    ∀ pkt ∈ (dd.map (fun d => (⟨[d], -1⟩ : Packet))).dropLast, pkt.Complete := by
  intro pkt hp
  rw [← List.map_dropLast] at hp
  obtain ⟨d, hd, rfl⟩ := List.mem_map.mp hp
  exact (complete_iff (⟨[d], -1⟩ : Packet) d (by simp)).mpr (h d hd)

/-- The queue after lines 554-604 when the continuation flag is clear. -/
theorem ingested_fresh (page_pos cursor : Int) (old : List Packet) (D : List Descriptor)
    (hD : D ≠ [])
    (hpos : ∀ d ∈ D, page_pos < d.pos ∧ d.pos ≤ cursor)
    (hlen : ∀ d ∈ D.dropLast, 0 ≤ d.len)
    (hle : page_pos ≤ cursor)
    (h2 : ∀ pkt ∈ old, pkt.descriptors ≠ [])
    (h3 : ∀ pkt ∈ old, ∀ d, pkt.descriptors.getLast? = some d → d.pos ≤ page_pos)
    (h4 : ∀ pkt ∈ old, pkt.Complete)
    (h5 : ∀ pkt ∈ old, pkt.granule_pos = -1 ∨ (0 ≤ pkt.granule_pos ∧ pkt.Complete)) :
    Ingested page_pos cursor old (old ++ D.map (fun d => (⟨[d], -1⟩ : Packet))) := by
  have hne : D.map (fun d => (⟨[d], -1⟩ : Packet)) ≠ [] := by simpa using hD
  refine ⟨by simp [hD], ?_, ?_, ?_, ?_, ⟨old, _, rfl, h3, ?_⟩, ?_⟩
  · intro pkt hp
    rcases List.mem_append.mp hp with hp | hp
    · exact h2 pkt hp
    · obtain ⟨d, _, hd⟩ := newPackets_last D pkt hp
      rw [hd]; simp
  · intro pkt hp d hd
    rcases List.mem_append.mp hp with hp | hp
    · have := h3 pkt hp d hd; omega
    · obtain ⟨e, he, hee⟩ := newPackets_last D pkt hp
      rw [hee] at hd
      simp only [List.getLast?_singleton, Option.some.injEq] at hd
      subst hd
      exact (hpos e he).2
  · intro pkt hp
    rw [List.dropLast_append_of_ne_nil _ hne] at hp
    rcases List.mem_append.mp hp with hp | hp
    · exact h4 pkt hp
    · exact newPackets_dropLast_complete D hlen pkt hp
  · intro pkt hp
    rcases List.mem_append.mp hp with hp | hp
    · exact h5 pkt hp
    · exact Or.inl (newPackets_granule D pkt hp)
  · intro pkt hp
    refine ⟨newPackets_granule D pkt hp, ?_⟩
    intro d hd
    obtain ⟨e, he, hee⟩ := newPackets_last D pkt hp
    rw [hee] at hd
    simp only [List.getLast?_singleton, Option.some.injEq] at hd
    subst hd
    exact (hpos e he).1
  · intro i hi _
    rw [List.getElem?_append_left hi, List.getElem?_eq_getElem hi]

/-- The queue after lines 554-604 when the continuation flag is set: the open last
packet `pkt` of the old queue `init ++ [pkt]` takes the first descriptor `d0` of the
page. -/
theorem ingested_continued (page_pos cursor : Int) (init : List Packet) (pkt : Packet)
    (dd : List Descriptor) (d0 : Descriptor) (rest : List Descriptor)
    (hpos : ∀ d ∈ d0 :: rest, page_pos < d.pos ∧ d.pos ≤ cursor)
    (hlen : ∀ d ∈ (d0 :: rest).dropLast, 0 ≤ d.len)
    (hle : page_pos ≤ cursor)
    (h2 : ∀ p ∈ init, p.descriptors ≠ [])
    (h3 : ∀ p ∈ init, ∀ d, p.descriptors.getLast? = some d → d.pos ≤ page_pos)
    (h4 : ∀ p ∈ init, p.Complete)
    (h5 : ∀ p ∈ init, p.granule_pos = -1 ∨ (0 ≤ p.granule_pos ∧ p.Complete))
    (h6 : pkt.granule_pos = -1) :
    Ingested page_pos cursor (init ++ [pkt])
      (init ++ [(⟨dd ++ [d0], pkt.granule_pos⟩ : Packet)] ++
        rest.map (fun d => (⟨[d], -1⟩ : Packet))) := by
  have hl0 : (⟨dd ++ [d0], pkt.granule_pos⟩ : Packet).descriptors.getLast? = some d0 := by
    simp
  refine ⟨by simp, ?_, ?_, ?_, ?_,
    ⟨init, (⟨dd ++ [d0], pkt.granule_pos⟩ : Packet) :: rest.map (fun d => (⟨[d], -1⟩ : Packet)),
      by simp, h3, ?_⟩, ?_⟩
  · intro p hp
    simp only [List.append_assoc, List.mem_append, List.mem_singleton] at hp
    rcases hp with hp | rfl | hp
    · exact h2 p hp
    · simp
    · obtain ⟨d, _, hd⟩ := newPackets_last rest p hp
      rw [hd]; simp
  · intro p hp d hd
    simp only [List.append_assoc, List.mem_append, List.mem_singleton] at hp
    rcases hp with hp | rfl | hp
    · have := h3 p hp d hd; omega
    · rw [hl0] at hd
      simp only [Option.some.injEq] at hd
      subst hd
      exact (hpos _ (List.mem_cons_self _ _)).2
    · obtain ⟨e, he, hee⟩ := newPackets_last rest p hp
      rw [hee] at hd
      simp only [List.getLast?_singleton, Option.some.injEq] at hd
      subst hd
      exact (hpos e (List.mem_cons_of_mem _ he)).2
  · intro p hp
    by_cases hr : rest = []
    · subst hr
      simp only [List.map_nil, List.append_nil, List.dropLast_concat] at hp
      exact h4 p hp
    · have hne : rest.map (fun d => (⟨[d], -1⟩ : Packet)) ≠ [] := by simpa using hr
      rw [List.dropLast_append_of_ne_nil _ hne] at hp
      rw [List.dropLast_cons_of_ne_nil hr] at hlen
      simp only [List.mem_append, List.mem_singleton] at hp
      rcases hp with (hp | rfl) | hp
      · exact h4 p hp
      · exact (complete_iff _ d0 hl0).mpr (hlen d0 (List.mem_cons_self _ _))
      · exact newPackets_dropLast_complete rest
          (fun d hd => hlen d (List.mem_cons_of_mem _ hd)) p hp
  · intro p hp
    simp only [List.append_assoc, List.mem_append, List.mem_singleton] at hp
    rcases hp with hp | rfl | hp
    · exact h5 p hp
    · exact Or.inl h6
    · exact Or.inl (newPackets_granule rest p hp)
  · intro p hp
    rcases List.mem_cons.mp hp with rfl | hp
    · refine ⟨h6, ?_⟩
      intro d hd
      rw [hl0] at hd
      simp only [Option.some.injEq] at hd
      subst hd
      exact (hpos _ (List.mem_cons_self _ _)).1
    · refine ⟨newPackets_granule rest p hp, ?_⟩
      intro d hd
      obtain ⟨e, he, hee⟩ := newPackets_last rest p hp
      rw [hee] at hd
      simp only [List.getLast?_singleton, Option.some.injEq] at hd
      subst hd
      exact (hpos e (List.mem_cons_of_mem _ he)).1
  · intro i hi hg
    simp only [List.length_append, List.length_singleton] at hi
    by_cases hlt : i < init.length
    · rw [List.append_assoc, List.getElem?_append_left hlt]
      rw [List.getElem?_eq_getElem hlt, List.getElem_append_left hlt]
    · have hi2 : i = init.length := by omega
      subst hi2
      simp only [List.getElem_concat_length] at hg
      omega

theorem getLast?_ne_none_of_ne_nil {α : Type} (l : List α) (h : l ≠ []) :
    ∃ x, l.getLast? = some x := by
  cases hq : l.getLast? with
  | none => exact absurd (List.getLast?_eq_none_iff.mp hq) h
  | some x => exact ⟨x, rfl⟩

theorem continuation_ingested (K : Consts) (s : OggStream) (d0 : Descriptor)
    (rest : List Descriptor) (q : List Packet) (dd : List Descriptor)
    (hInv : Inv s) (hA : OggPage.Accepts s.m_pReader s.m_pos)
    (hd : (decodedPage K s.m_pReader s.m_pos).m_descriptors = d0 :: rest)
    (hc : OggStream.ReadPage.continuation (decodedPage K s.m_pReader s.m_pos).m_header
      s.m_packets d0 rest = some (q, dd)) :
    Ingested s.m_pos (decodedEnd s.m_pReader s.m_pos) s.m_packets
      (OggStream.ReadPage.push q dd) := by
  have hpos : ∀ d ∈ d0 :: rest, s.m_pos < d.pos ∧ d.pos ≤ decodedEnd s.m_pReader s.m_pos := by
    rw [← hd]; exact decodedPage_pos_bounds K s.m_pReader s.m_pos
  have hlen : ∀ d ∈ (d0 :: rest).dropLast, 0 ≤ d.len := by
    rw [← hd]; exact decodedPage_dropLast_nonneg K s.m_pReader s.m_pos hA
  have hle : s.m_pos ≤ decodedEnd s.m_pReader s.m_pos := by
    have := decodedEnd_gt s.m_pReader s.m_pos hA; omega
  rw [push_eq]
  unfold OggStream.ReadPage.continuation at hc
  cases hq : s.m_packets.getLast? with
  | none =>
    have hnil : s.m_packets = [] := List.getLast?_eq_none_iff.mp hq
    rw [hq] at hc
    by_cases hf : (decodedPage K s.m_pReader s.m_pos).m_header &&& fContinued ≠ 0
    · rw [if_pos hf] at hc
      exact absurd hc (by simp)
    · rw [if_neg hf] at hc
      simp only [Option.some.injEq, Prod.mk.injEq] at hc
      obtain ⟨rfl, rfl⟩ := hc
      exact ingested_fresh _ _ _ _ (by simp) hpos hlen hle (by simp [hnil]) (by simp [hnil])
        (by simp [hnil]) (by simp [hnil])
  | some pkt =>
    obtain ⟨init, hinit⟩ := List.getLast?_eq_some_iff.mp hq
    have hmem : pkt ∈ s.m_packets := by rw [hinit]; simp
    obtain ⟨d, hdl⟩ := getLast?_ne_none_of_ne_nil _ (hInv.nonempty pkt hmem)
    have hdrop : s.m_packets.dropLast = init := by rw [hinit]; simp
    have hsub : ∀ p ∈ init, p ∈ s.m_packets := by
      intro p hp; rw [hinit]; exact List.mem_append_left _ hp
    have h4 : ∀ p ∈ init, p.Complete := by
      intro p hp; exact hInv.complete p (by rw [hdrop]; exact hp)
    rw [hq] at hc
    simp only [hdl] at hc
    by_cases hf : (decodedPage K s.m_pReader s.m_pos).m_header &&& fContinued ≠ 0
    · rw [if_pos hf] at hc
      by_cases hl : d.len ≥ 0
      · rw [if_pos hl] at hc
        exact absurd hc (by simp)
      · rw [if_neg hl] at hc
        simp only [Option.some.injEq, Prod.mk.injEq] at hc
        obtain ⟨rfl, rfl⟩ := hc
        have hg : pkt.granule_pos = -1 := by
          rcases hInv.granule pkt hmem with h | ⟨_, h⟩
          · exact h
          · exact absurd ((complete_iff pkt d hdl).mp h) (by omega)
        rw [hinit, modifyBack_append_singleton]
        exact ingested_continued _ _ init pkt _ d0 rest hpos hlen hle
          (fun p hp => hInv.nonempty p (hsub p hp))
          (fun p hp => hInv.behind p (hsub p hp)) h4
          (fun p hp => hInv.granule p (hsub p hp)) hg
    · rw [if_neg hf] at hc
      by_cases hl : d.len < 0
      · rw [if_pos hl] at hc
        exact absurd hc (by simp)
      · rw [if_neg hl] at hc
        simp only [Option.some.injEq, Prod.mk.injEq] at hc
        obtain ⟨rfl, rfl⟩ := hc
        refine ingested_fresh _ _ _ _ (by simp) hpos hlen hle hInv.nonempty hInv.behind ?_
          hInv.granule
        intro p hp
        rw [hinit] at hp
        rcases List.mem_append.mp hp with hp | hp
        · exact h4 p hp
        · simp only [List.mem_singleton] at hp
          subst hp
          exact (complete_iff _ d hdl).mpr (by omega)

theorem assignGranuleSpec_none (pp g : Int) (l : List Packet) :
    assignGranuleSpec pp g l = none ↔ ∀ p ∈ l, ¬ p.FinishedAfter pp := by
  induction l with
  | nil => simp [assignGranuleSpec]
  | cons a t ih =>
    by_cases h : a.FinishedAfter pp
    · simp [assignGranuleSpec, h]
    · simp [assignGranuleSpec, h, ih]

theorem assignGranuleSpec_some (pp g : Int) (l l2 : List Packet)
    (h : assignGranuleSpec pp g l = some l2) :
    ∃ pre tgt post, l = pre ++ tgt :: post ∧
      l2 = pre ++ ({ tgt with granule_pos := g } : Packet) :: post ∧
      tgt.FinishedAfter pp ∧ ∀ p ∈ pre, ¬ p.FinishedAfter pp := by
  induction l generalizing l2 with
  | nil => simp [assignGranuleSpec] at h
  | cons a t ih =>
    by_cases ha : a.FinishedAfter pp
    · simp only [assignGranuleSpec, ha, if_true, Option.some.injEq] at h
      exact ⟨[], a, t, rfl, by rw [← h]; rfl, ha, by simp⟩
    · simp only [assignGranuleSpec, ha, if_false, Option.map_eq_some'] at h
      obtain ⟨l3, h3, rfl⟩ := h
      obtain ⟨pre, tgt, post, e1, e2, e3, e4⟩ := ih l3 h3
      refine ⟨a :: pre, tgt, post, by rw [e1]; rfl, by rw [e2]; rfl, e3, ?_⟩
      intro p hp
      rcases List.mem_cons.mp hp with rfl | hp
      · exact ha
      · exact e4 p hp

theorem scan_old (K : Consts) (pp g : Int) (l : List Packet)
    (h : ∀ p ∈ l, ∀ d, p.descriptors.getLast? = some d → d.pos ≤ pp) :
    OggStream.ReadPage.scan K pp g l = some (K.E_FILE_FORMAT_INVALID, l) ∧
      assignGranuleSpec pp g l = none := by
  induction l with
  | nil => exact ⟨rfl, rfl⟩
  | cons a t ih =>
    obtain ⟨ih1, ih2⟩ := ih (fun p hp => h p (List.mem_cons_of_mem _ hp))
    have ha := h a (List.mem_cons_self _ _)
    cases hq : a.descriptors.getLast? with
    | none =>
      have hf : ¬ a.FinishedAfter pp := by unfold Packet.FinishedAfter; rw [hq]; simp
      simp [OggStream.ReadPage.scan, assignGranuleSpec, hq, ih1, ih2, hf]
    | some d =>
      have hd := ha d hq
      have hf : ¬ a.FinishedAfter pp := by
        unfold Packet.FinishedAfter; rw [hq]; simp; intro _; omega
      by_cases hl : d.len < 0
      · simp [OggStream.ReadPage.scan, assignGranuleSpec, hq, ih1, ih2, hf, hl]
      · simp [OggStream.ReadPage.scan, assignGranuleSpec, hq, ih2, hf, hl, hd]

theorem scan_cons_skip (K : Consts) (pp g : Int) (x : Packet) (l : List Packet)
    (h : match x.descriptors.getLast? with
      | some d => d.len < 0
      | none => True) :
    OggStream.ReadPage.scan K pp g (x :: l) =
      (OggStream.ReadPage.scan K pp g l).map fun r => (r.1, x :: r.2) := by
  rw [OggStream.ReadPage.scan]
  cases hq : x.descriptors.getLast? with
  | none => rfl
  | some d =>
    rw [hq] at h
    have h2 : d.len < 0 := h
    simp only [h2, if_true]

theorem scan_cons_hit (K : Consts) (pp g : Int) (x : Packet) (l : List Packet) (d : Descriptor)
    (hq : x.descriptors.getLast? = some d) (hl : 0 ≤ d.len) (hp : pp < d.pos)
    (hg : x.granule_pos < 0) :
    OggStream.ReadPage.scan K pp g (x :: l) =
      some (0, ({ x with granule_pos := g } : Packet) :: l) := by
  rw [OggStream.ReadPage.scan]
  simp only [hq, not_lt.mpr hl, not_le.mpr hp, hg, if_false, not_true_eq_false]

theorem assignGranuleSpec_cons_skip (pp g : Int) (x : Packet) (l : List Packet)
    (h : ¬ x.FinishedAfter pp) :
    assignGranuleSpec pp g (x :: l) = (assignGranuleSpec pp g l).map fun l2 => x :: l2 := by
  rw [assignGranuleSpec, if_neg h]

theorem assignGranuleSpec_cons_hit (pp g : Int) (x : Packet) (l : List Packet)
    (h : x.FinishedAfter pp) :
    assignGranuleSpec pp g (x :: l) = some (({ x with granule_pos := g } : Packet) :: l) := by
  rw [assignGranuleSpec, if_pos h]

theorem scan_eq_spec (K : Consts) (pp g : Int) (b a : List Packet)
    (hb : ∀ p ∈ b, p.granule_pos = -1 ∧ ∀ d, p.descriptors.getLast? = some d → pp < d.pos)
    (ha : ∀ p ∈ a, ∀ d, p.descriptors.getLast? = some d → d.pos ≤ pp) :
    OggStream.ReadPage.scan K pp g (b ++ a) =
      match assignGranuleSpec pp g (b ++ a) with
      | some l => some (0, l)
      | none => some (K.E_FILE_FORMAT_INVALID, b ++ a) := by
  induction b with
  | nil =>
    obtain ⟨h1, h2⟩ := scan_old K pp g a ha
    simp only [List.nil_append, h1, h2]
  | cons x t ih =>
    have iht := ih (fun p hp => hb p (List.mem_cons_of_mem _ hp))
    obtain ⟨hg, hx⟩ := hb x (List.mem_cons_self _ _)
    rw [List.cons_append]
    by_cases hf : x.FinishedAfter pp
    · rw [assignGranuleSpec_cons_hit pp g x _ hf]
      unfold Packet.FinishedAfter at hf
      cases hq : x.descriptors.getLast? with
      | none => rw [hq] at hf; exact absurd hf (by simp)
      | some d =>
        rw [hq] at hf
        exact scan_cons_hit K pp g x _ d hq hf.1 hf.2 (by omega)
    · rw [assignGranuleSpec_cons_skip pp g x _ hf, scan_cons_skip, iht]
      · cases assignGranuleSpec pp g (t ++ a) <;> rfl
      · unfold Packet.FinishedAfter at hf
        cases hq : x.descriptors.getLast? with
        | none => trivial
        | some d =>
          rw [hq] at hf
          have := hx d hq
          show d.len < 0
          by_contra hc
          exact hf ⟨by omega, this⟩

/-! ## The invariant of the demuxer state -/

theorem finishedAfter_complete (pp : Int) (p : Packet) (h : p.FinishedAfter pp) : p.Complete := by
  unfold Packet.FinishedAfter at h
  unfold Packet.Complete
  cases hq : p.descriptors.getLast? with
  | none => rw [hq] at h; exact h
  | some d => rw [hq] at h; exact h.1

theorem ingested_target_unassigned (pp cur : Int) (old q : List Packet) (tgt : Packet)
    (hI : Ingested pp cur old q) (hm : tgt ∈ q) (hf : tgt.FinishedAfter pp) :
    tgt.granule_pos = -1 := by
  obtain ⟨a, b, rfl, ha, hb⟩ := hI.split
  rcases List.mem_append.mp hm with h | h
  · unfold Packet.FinishedAfter at hf
    cases hq : tgt.descriptors.getLast? with
    | none => rw [hq] at hf; exact absurd hf (by simp)
    | some d =>
      rw [hq] at hf
      have := ha tgt h d hq
      omega
  · exact (hb tgt h).1

theorem inv_of_ingested (r : IOggReader) (pp cur : Int) (old q : List Packet)
    (hI : Ingested pp cur old q) (hc : 0 ≤ cur) : Inv ⟨r, cur, q⟩ :=
  ⟨hc, hI.nonempty, hI.behind, hI.complete, hI.granule⟩

theorem inv_of_assigned (r : IOggReader) (pp cur g : Int) (old x y : List Packet) (tgt : Packet)
    (hI : Ingested pp cur old (x ++ [tgt] ++ y)) (hc : 0 ≤ cur) (hg : 0 ≤ g)
    (hf : tgt.FinishedAfter pp) :
    Inv ⟨r, cur, x ++ [({ tgt with granule_pos := g } : Packet)] ++ y⟩ ∧
      ∀ i (hi : i < old.length), 0 ≤ (old[i]).granule_pos →
        (x ++ [({ tgt with granule_pos := g } : Packet)] ++ y)[i]? = some old[i] := by
  have hmem : ∀ p ∈ x ++ [({ tgt with granule_pos := g } : Packet)] ++ y,
      p ∈ x ++ [tgt] ++ y ∨ p = ({ tgt with granule_pos := g } : Packet) := by
    intro p hp
    simp only [List.append_assoc, List.mem_append, List.mem_singleton] at hp ⊢
    tauto
  have htm : tgt ∈ x ++ [tgt] ++ y := by simp
  have hct : ({ tgt with granule_pos := g } : Packet).Complete := finishedAfter_complete pp tgt hf
  refine ⟨⟨hc, ?_, ?_, ?_, ?_⟩, ?_⟩
  · intro p hp
    rcases hmem p hp with h | rfl
    · exact hI.nonempty p h
    · exact hI.nonempty tgt htm
  · intro p hp d hd
    rcases hmem p hp with h | rfl
    · exact hI.behind p h d hd
    · exact hI.behind tgt htm d hd
  · intro p hp
    have hcomp := hI.complete
    by_cases hy : y = []
    · subst hy
      simp only [List.append_nil, List.dropLast_concat] at hp hcomp
      exact hcomp p hp
    · rw [List.dropLast_append_of_ne_nil _ hy] at hp hcomp
      simp only [List.mem_append, List.mem_singleton] at hp
      rcases hp with (hp | rfl) | hp
      · exact hcomp p (by simp [hp])
      · exact hct
      · exact hcomp p (by simp [hp])
  · intro p hp
    rcases hmem p hp with h | rfl
    · exact hI.granule p h
    · exact Or.inr ⟨hg, hct⟩
  · intro i hi h0
    have hk := hI.kept i hi h0
    have hset : x ++ [({ tgt with granule_pos := g } : Packet)] ++ y
        = (x ++ [tgt] ++ y).set x.length ({ tgt with granule_pos := g } : Packet) := by
      simp [List.set_append]
    have hne : x.length ≠ i := by
      intro he
      subst he
      have : (x ++ [tgt] ++ y)[x.length]? = some tgt := by
        rw [List.append_assoc, List.getElem?_append_right (le_refl _)]
        simp
      rw [this] at hk
      simp only [Option.some.injEq] at hk
      have hu := ingested_target_unassigned pp cur old _ tgt hI htm hf
      rw [← hk] at h0
      omega
    rw [hset, List.getElem?_set_ne hne]
    exact hk

theorem resolve_of_ingested (K : Consts) (pp : Int) (s : OggStream) (page : OggPage)
    (old : List Packet) (hI : Ingested pp s.m_pos old s.m_packets) :
    OggStream.ReadPage.resolve K pp s page =
      if page.m_granule_pos < 0 then
        if (∃ pkt, s.m_packets.getLast? = some pkt ∧ pkt.Complete) then
          some (K.E_FILE_FORMAT_INVALID, s, page)
        else some (0, s, page)
      else
        match assignGranuleSpec pp page.m_granule_pos s.m_packets.reverse with
        | some l => some (0, { s with m_packets := l.reverse }, page)
        | none => some (K.E_FILE_FORMAT_INVALID, s, page) := by
  obtain ⟨pkt, hpk⟩ := getLast?_ne_none_of_ne_nil _ hI.ne_nil
  obtain ⟨d, hd⟩ := getLast?_ne_none_of_ne_nil _
    (hI.nonempty pkt (List.mem_of_getLast?_eq_some hpk))
  unfold OggStream.ReadPage.resolve
  simp only [hpk, hd]
  by_cases hg : page.m_granule_pos < 0
  · simp only [hg, if_true, Option.some.injEq, exists_eq_left', complete_iff pkt d hd]
  · simp only [hg, if_false]
    obtain ⟨a, b, hab, ha, hb⟩ := hI.split
    have hrev : s.m_packets.reverse = b.reverse ++ a.reverse := by rw [hab]; simp
    have hsc := scan_eq_spec K pp page.m_granule_pos b.reverse a.reverse
      (fun p hp => hb p (List.mem_reverse.mp hp)) (fun p hp => ha p (List.mem_reverse.mp hp))
    rw [← hrev] at hsc
    rw [hsc]
    cases assignGranuleSpec pp page.m_granule_pos s.m_packets.reverse with
    | none => simp
    | some l => simp

theorem inv_advance (s : OggStream) (p : Int) (hInv : Inv s) (hp : s.m_pos ≤ p) :
    Inv { s with m_pos := p } :=
  ⟨le_trans hInv.pos_nonneg hp, hInv.nonempty,
    fun pkt hm d hd => le_trans (hInv.behind pkt hm d hd) hp, hInv.complete, hInv.granule⟩

theorem kept_refl (q : List Packet) :
    ∀ i (hi : i < q.length), 0 ≤ (q[i]).granule_pos → q[i]? = some q[i] :=
  fun _ hi _ => List.getElem?_eq_getElem hi

theorem ReadPage_step (K : Consts) (hK : K.E_FILE_FORMAT_INVALID < 0) (s : OggStream)
    (page : OggPage) (hInv : Inv s) :
    ∃ res s2 page2, OggStream.ReadPage K s page = some (res, s2, page2) ∧ Inv s2 ∧
      s2.m_pReader = s.m_pReader ∧ s.m_pos ≤ s2.m_pos ∧
      ∀ i (hi : i < s.m_packets.length), 0 ≤ (s.m_packets[i]).granule_pos →
        s2.m_packets[i]? = some s.m_packets[i] := by
  by_cases hA : OggPage.Accepts s.m_pReader s.m_pos
  · have hend := decodedEnd_gt s.m_pReader s.m_pos hA
    have hle : s.m_pos ≤ decodedEnd s.m_pReader s.m_pos := by omega
    obtain ⟨d0, rest, hd⟩ := List.exists_cons_of_ne_nil
      (decodedPage_descriptors_ne_nil K s.m_pReader s.m_pos hA)
    rw [ReadPage_of_accepts K s page d0 rest hA hd]
    cases hc : OggStream.ReadPage.continuation (decodedPage K s.m_pReader s.m_pos).m_header
        s.m_packets d0 rest with
    | none =>
      exact ⟨_, _, _, rfl, inv_advance s _ hInv hle, rfl, hle, kept_refl _⟩
    | some qd =>
      obtain ⟨q, dd⟩ := qd
      have hI := continuation_ingested K s d0 rest q dd hInv hA hd hc
      have hc0 : 0 ≤ decodedEnd s.m_pReader s.m_pos := le_trans hInv.pos_nonneg hle
      simp only []
      rw [resolve_of_ingested K s.m_pos _ _ s.m_packets hI]
      by_cases hg : (decodedPage K s.m_pReader s.m_pos).m_granule_pos < 0
      · simp only [hg, if_true]
        split
        · exact ⟨_, _, _, rfl, inv_of_ingested _ _ _ _ _ hI hc0, rfl, hle, hI.kept⟩
        · exact ⟨_, _, _, rfl, inv_of_ingested _ _ _ _ _ hI hc0, rfl, hle, hI.kept⟩
      · simp only [hg, if_false]
        cases ha : assignGranuleSpec s.m_pos (decodedPage K s.m_pReader s.m_pos).m_granule_pos
            (OggStream.ReadPage.push q dd).reverse with
        | none =>
          exact ⟨_, _, _, rfl, inv_of_ingested _ _ _ _ _ hI hc0, rfl, hle, hI.kept⟩
        | some l =>
          obtain ⟨pre, tgt, post, e1, e2, e3, _⟩ := assignGranuleSpec_some _ _ _ _ ha
          have hq : OggStream.ReadPage.push q dd = post.reverse ++ [tgt] ++ pre.reverse := by
            have := congrArg List.reverse e1
            simpa using this
          have hl : l.reverse = post.reverse ++
              [({ tgt with granule_pos := (decodedPage K s.m_pReader s.m_pos).m_granule_pos } :
                Packet)] ++ pre.reverse := by
            rw [e2]; simp
          rw [hq] at hI
          obtain ⟨h1, h2⟩ := inv_of_assigned s.m_pReader s.m_pos _
            (decodedPage K s.m_pReader s.m_pos).m_granule_pos _ _ _ tgt hI hc0 (not_lt.mp hg) e3
          refine ⟨_, _, _, rfl, ?_, rfl, hle, ?_⟩
          · simp only [hl]; exact h1
          · simp only [hl]; exact h2
  · rw [ReadPage_of_not_accepts K s page hK hA]
    have hle := Read_pos_mono K page s.m_pReader s.m_pos
    exact ⟨_, _, _, rfl, inv_advance s _ hInv hle, rfl, hle, kept_refl _⟩

theorem GetPacket_step (s : OggStream) (hInv : Inv s) :
    ∃ res out s2, OggStream.GetPacket s = some (res, out, s2) ∧ Inv s2 ∧
      s2.m_pReader = s.m_pReader ∧ s2.m_pos = s.m_pos ∧
      ((res = 0 ∧ out = none ∧ s2 = s) ∨
        (res = 1 ∧ ∃ pkt, out = some pkt ∧ pkt.Complete ∧ s.m_packets = pkt :: s2.m_packets)) := by
  unfold OggStream.GetPacket
  cases hq : s.m_packets with
  | nil => exact ⟨_, _, _, rfl, hInv, rfl, rfl, Or.inl ⟨rfl, rfl, rfl⟩⟩
  | cons pkt t =>
    have hm : pkt ∈ s.m_packets := by rw [hq]; simp
    obtain ⟨d, hd⟩ := getLast?_ne_none_of_ne_nil _ (hInv.nonempty pkt hm)
    simp only [hd]
    by_cases hl : d.len < 0
    · simp only [hl, if_true]
      exact ⟨_, _, _, rfl, hInv, rfl, rfl, Or.inl ⟨rfl, rfl, rfl⟩⟩
    · simp only [hl, if_false]
      have hsub : ∀ p ∈ t, p ∈ s.m_packets := by
        intro p hp; rw [hq]; exact List.mem_cons_of_mem _ hp
      refine ⟨_, _, _, rfl, ⟨hInv.pos_nonneg, fun p hp => hInv.nonempty p (hsub p hp),
        fun p hp => hInv.behind p (hsub p hp), ?_, fun p hp => hInv.granule p (hsub p hp)⟩,
        rfl, rfl, Or.inr ⟨rfl, pkt, rfl, (complete_iff pkt d hd).mpr (by omega), rfl⟩⟩
      intro p hp
      apply hInv.complete p
      rw [hq]
      have hne : t ≠ [] := by
        intro h; subst h; simp at hp
      rw [List.dropLast_cons_of_ne_nil hne]
      exact List.mem_cons_of_mem _ hp

theorem inv_new (r : IOggReader) : Inv (OggStream.new r) :=
  ⟨le_refl _, by simp [OggStream.new], by simp [OggStream.new], by simp [OggStream.new],
    by simp [OggStream.new]⟩

theorem reachable_inv (K : Consts) (hK : K.E_FILE_FORMAT_INVALID < 0) (r : IOggReader)
    (s : OggStream) (h : Reachable K r s) : Inv s ∧ s.m_pReader = r := by
  induction h with
  | fresh => exact ⟨inv_new r, rfl⟩
  | readPage hs hstep ih =>
    obtain ⟨res, s2, page2, h1, h2, h3, _, _⟩ := ReadPage_step K hK _ _ ih.1
    rw [hstep] at h1
    simp only [Option.some.injEq, Prod.mk.injEq] at h1
    obtain ⟨_, rfl, _⟩ := h1
    exact ⟨h2, h3.trans ih.2⟩
  | getPacket hs hstep ih =>
    obtain ⟨res, out, s2, h1, h2, h3, _, _⟩ := GetPacket_step _ ih.1
    rw [hstep] at h1
    simp only [Option.some.injEq, Prod.mk.injEq] at h1
    obtain ⟨_, _, rfl⟩ := h1
    exact ⟨h2, h3.trans ih.2⟩

/-! ## Sample states are reachable -/

theorem lacedState_reachable : Reachable sampleK (memReader lacedHeader) lacedState :=
  @Reachable.readPage sampleK (memReader lacedHeader) (OggStream.new (memReader lacedHeader))
    lacedState blankPage _ _ Reachable.fresh rfl

theorem identState_reachable : Reachable sampleK (memReader identHeader) identState :=
  @Reachable.readPage sampleK (memReader identHeader) (OggStream.new (memReader identHeader))
    identState blankPage _ _ Reachable.fresh rfl

/-! ## Two consecutive pages -/

theorem scan_descriptors (K : Consts) (pp g : Int) (l : List Packet) :
    ∀ res l2, OggStream.ReadPage.scan K pp g l = some (res, l2) →
      l2.map (fun p => p.descriptors) = l.map (fun p => p.descriptors) := by
  induction l with
  | nil =>
    intro res l2 h
    simp only [OggStream.ReadPage.scan, Option.some.injEq, Prod.mk.injEq] at h
    rw [← h.2]
  | cons x t ih =>
    intro res l2 h
    rw [OggStream.ReadPage.scan] at h
    have hskip : (OggStream.ReadPage.scan K pp g t).map (fun r => (r.1, x :: r.2)) = some (res, l2) →
        l2.map (fun p => p.descriptors) = (x :: t).map (fun p => p.descriptors) := by
      intro h
      simp only [Option.map_eq_some', Prod.mk.injEq] at h
      obtain ⟨⟨r3, l3⟩, h3, _, rfl⟩ := h
      simp only [List.map_cons, ih r3 l3 h3]
    cases hq : x.descriptors.getLast? with
    | none => rw [hq] at h; exact hskip h
    | some d =>
      rw [hq] at h
      simp only [] at h
      by_cases h1 : d.len < 0
      · rw [if_pos h1] at h; exact hskip h
      · rw [if_neg h1] at h
        by_cases h2 : d.pos ≤ pp
        · rw [if_pos h2] at h
          simp only [Option.some.injEq, Prod.mk.injEq] at h
          rw [← h.2]
        · rw [if_neg h2] at h
          by_cases h3 : ¬ x.granule_pos < 0
          · rw [if_pos h3] at h; exact absurd h (by simp)
          · rw [if_neg h3] at h
            simp only [Option.some.injEq, Prod.mk.injEq] at h
            rw [← h.2]; rfl

theorem resolve_descriptors (K : Consts) (pp : Int) (s s2 : OggStream) (page page2 : OggPage)
    (res : Int) (h : OggStream.ReadPage.resolve K pp s page = some (res, s2, page2)) :
    s2.m_packets.map (fun p => p.descriptors) = s.m_packets.map (fun p => p.descriptors) ∧
      s2.m_pos = s.m_pos ∧ s2.m_pReader = s.m_pReader := by
  unfold OggStream.ReadPage.resolve at h
  cases hq : s.m_packets.getLast? with
  | none => rw [hq] at h; exact absurd h (by simp)
  | some pkt =>
    rw [hq] at h
    simp only [] at h
    by_cases hg : page.m_granule_pos < 0
    · rw [if_pos hg] at h
      have hs : s2 = s := by
        cases hd : pkt.descriptors.getLast? with
        | none =>
          rw [hd] at h
          simp only [Option.some.injEq, Prod.mk.injEq] at h
          exact h.2.1.symm
        | some d =>
          rw [hd] at h
          simp only [] at h
          split at h <;>
          · simp only [Option.some.injEq, Prod.mk.injEq] at h
            exact h.2.1.symm
      rw [hs]; exact ⟨rfl, rfl, rfl⟩
    · rw [if_neg hg] at h
      cases hsc : OggStream.ReadPage.scan K pp page.m_granule_pos s.m_packets.reverse with
      | none => rw [hsc] at h; exact absurd h (by simp)
      | some r =>
        rw [hsc] at h
        simp only [Option.some.injEq, Prod.mk.injEq] at h
        obtain ⟨_, rfl, _⟩ := h
        have := scan_descriptors K pp page.m_granule_pos _ r.1 r.2 hsc
        refine ⟨?_, rfl, rfl⟩
        simp only []
        have h2 := congrArg List.reverse this
        simpa [List.map_reverse] using h2

theorem ReadPage_accepted (K : Consts) (hK : K.E_FILE_FORMAT_INVALID < 0) (s s2 : OggStream)
    (page page2 : OggPage) (res : Int)
    (h : OggStream.ReadPage K s page = some (res, s2, page2)) (hres : 0 ≤ res) :
    OggPage.Accepts s.m_pReader s.m_pos ∧
    ∃ d0 rest q dd, (decodedPage K s.m_pReader s.m_pos).m_descriptors = d0 :: rest ∧
      OggStream.ReadPage.continuation (decodedPage K s.m_pReader s.m_pos).m_header
        s.m_packets d0 rest = some (q, dd) ∧
      s2.m_packets.map (fun p => p.descriptors)
        = (OggStream.ReadPage.push q dd).map (fun p => p.descriptors) ∧
      s2.m_pos = decodedEnd s.m_pReader s.m_pos ∧ s2.m_pReader = s.m_pReader := by
  by_cases hA : OggPage.Accepts s.m_pReader s.m_pos
  · refine ⟨hA, ?_⟩
    obtain ⟨d0, rest, hd⟩ := List.exists_cons_of_ne_nil
      (decodedPage_descriptors_ne_nil K s.m_pReader s.m_pos hA)
    rw [ReadPage_of_accepts K s page d0 rest hA hd] at h
    cases hc : OggStream.ReadPage.continuation (decodedPage K s.m_pReader s.m_pos).m_header
        s.m_packets d0 rest with
    | none =>
      rw [hc] at h
      simp only [Option.some.injEq, Prod.mk.injEq] at h
      omega
    | some qd =>
      obtain ⟨q, dd⟩ := qd
      rw [hc] at h
      simp only [] at h
      obtain ⟨h1, h2, h3⟩ := resolve_descriptors K _ _ _ _ _ _ h
      exact ⟨d0, rest, q, dd, hd, hc, h1, h2, h3⟩
  · rw [ReadPage_of_not_accepts K s page hK hA] at h
    simp only [Option.some.injEq, Prod.mk.injEq] at h
    rcases Read_of_not_accepts K page s.m_pReader s.m_pos hA with h1 | h1 <;> omega

theorem continuation_shape (hdr : Nat) (old : List Packet) (d0 : Descriptor)
    (rest : List Descriptor) (q : List Packet) (dd : List Descriptor)
    (hc : OggStream.ReadPage.continuation hdr old d0 rest = some (q, dd)) :
    (hdr &&& fContinued = 0 ∧ q = old ∧ dd = d0 :: rest) ∨
    (hdr &&& fContinued ≠ 0 ∧ ∃ init pkt x, old = init ++ [pkt] ∧
      q = init ++ [(⟨x ++ [d0], pkt.granule_pos⟩ : Packet)] ∧ dd = rest ∧
      ∀ d, pkt.descriptors.getLast? = some d →
        d.len < 0 ∧ x = modifyBack (fun d => { d with len := |d.len| }) pkt.descriptors) := by
  unfold OggStream.ReadPage.continuation at hc
  by_cases hf : hdr &&& fContinued ≠ 0
  · rw [if_pos hf] at hc
    right
    refine ⟨hf, ?_⟩
    cases hq : old.getLast? with
    | none => rw [hq] at hc; exact absurd hc (by simp)
    | some pkt =>
      obtain ⟨init, hinit⟩ := List.getLast?_eq_some_iff.mp hq
      rw [hq] at hc
      simp only [] at hc
      cases hd : pkt.descriptors.getLast? with
      | none =>
        rw [hd] at hc
        simp only [Option.some.injEq, Prod.mk.injEq] at hc
        obtain ⟨rfl, rfl⟩ := hc
        refine ⟨init, pkt, pkt.descriptors, hinit, ?_, rfl, ?_⟩
        · rw [hinit, modifyBack_append_singleton]
        · intro d h; rw [hd] at h; exact absurd h (by simp)
      | some d =>
        rw [hd] at hc
        simp only [] at hc
        by_cases hl : d.len ≥ 0
        · rw [if_pos hl] at hc; exact absurd hc (by simp)
        · rw [if_neg hl] at hc
          simp only [Option.some.injEq, Prod.mk.injEq] at hc
          obtain ⟨rfl, rfl⟩ := hc
          refine ⟨init, pkt, modifyBack (fun d => { d with len := |d.len| }) pkt.descriptors,
            hinit, ?_, rfl, ?_⟩
          · rw [hinit, modifyBack_append_singleton]
          · intro e he
            rw [hd] at he
            simp only [Option.some.injEq] at he
            subst he
            exact ⟨by omega, rfl⟩
  · rw [if_neg hf] at hc
    left
    refine ⟨not_not.mp hf, ?_⟩
    cases hq : old.getLast? with
    | none =>
      rw [hq] at hc
      simp only [Option.some.injEq, Prod.mk.injEq] at hc
      exact ⟨hc.1.symm, hc.2.symm⟩
    | some pkt =>
      rw [hq] at hc
      simp only [] at hc
      cases hd : pkt.descriptors.getLast? with
      | none =>
        rw [hd] at hc
        simp only [Option.some.injEq, Prod.mk.injEq] at hc
        exact ⟨hc.1.symm, hc.2.symm⟩
      | some d =>
        rw [hd] at hc
        simp only [] at hc
        by_cases hl : d.len < 0
        · rw [if_pos hl] at hc; exact absurd hc (by simp)
        · rw [if_neg hl] at hc
          simp only [Option.some.injEq, Prod.mk.injEq] at hc
          exact ⟨hc.1.symm, hc.2.symm⟩

theorem continuation_push_last (hdr : Nat) (old : List Packet) (d0 : Descriptor)
    (rest : List Descriptor) (q : List Packet) (dd : List Descriptor)
    (hc : OggStream.ReadPage.continuation hdr old d0 rest = some (q, dd)) :
    ∃ init P dl, OggStream.ReadPage.push q dd = init ++ [P] ∧
      (d0 :: rest).getLast? = some dl ∧ P.descriptors.getLast? = some dl ∧
      ((hdr &&& fContinued = 0 ∨ rest ≠ []) → P.descriptors = [dl]) := by
  rw [push_eq]
  rcases continuation_shape hdr old d0 rest q dd hc with
    ⟨_, rfl, rfl⟩ | ⟨hf, init, pkt, x, rfl, rfl, rfl, _⟩
  · obtain ⟨dl, hdl⟩ := getLast?_ne_none_of_ne_nil (d0 :: rest) (by simp)
    obtain ⟨ys, hys⟩ := List.getLast?_eq_some_iff.mp hdl
    refine ⟨q ++ ys.map (fun d => (⟨[d], -1⟩ : Packet)), ⟨[dl], -1⟩, dl, ?_, hdl, rfl,
      fun _ => rfl⟩
    rw [hys]; simp
  · by_cases hr : dd = []
    · subst hr
      refine ⟨init, (⟨x ++ [d0], pkt.granule_pos⟩ : Packet), d0, by simp, rfl, by simp, ?_⟩
      rintro (h | h)
      · exact absurd h hf
      · exact absurd rfl h
    · obtain ⟨dl, hdl⟩ := getLast?_ne_none_of_ne_nil dd hr
      obtain ⟨ys, hys⟩ := List.getLast?_eq_some_iff.mp hdl
      refine ⟨init ++ [(⟨x ++ [d0], pkt.granule_pos⟩ : Packet)] ++
        ys.map (fun d => (⟨[d], -1⟩ : Packet)), ⟨[dl], -1⟩, dl, ?_, ?_, rfl, fun _ => rfl⟩
      · rw [hys]; simp
      · rw [getLast?_cons_of_ne_nil _ _ hr]; exact hdl

theorem map_descriptors_concat (l init : List Packet) (P : Packet)
    (h : l.map (fun p => p.descriptors) = (init ++ [P]).map (fun p => p.descriptors)) :
    ∃ init2 P2, l = init2 ++ [P2] ∧ init2.length = init.length ∧
      P2.descriptors = P.descriptors := by
  rw [List.map_append] at h
  obtain ⟨l1, l2, rfl, h1, h2⟩ := List.map_eq_append_iff.mp h
  simp only [List.map_cons, List.map_nil] at h2
  obtain ⟨a, l3, rfl, h3, h4⟩ := List.map_eq_cons_iff.mp h2
  have : l3 = [] := by simpa using h4
  subst this
  refine ⟨l1, a, rfl, ?_, h3⟩
  have := congrArg List.length h1
  simpa using this

theorem map_descriptors_split (l init : List Packet) (P : Packet) (tl : List Packet)
    (h : l.map (fun p => p.descriptors) = (init ++ [P] ++ tl).map (fun p => p.descriptors)) :
    ∃ init2 P2 tail, l = init2 ++ [P2] ++ tail ∧ init2.length = init.length ∧
      P2.descriptors = P.descriptors ∧
      tail.map (fun p => p.descriptors) = tl.map (fun p => p.descriptors) := by
  rw [List.map_append] at h
  obtain ⟨l1, l2, rfl, h1, h2⟩ := List.map_eq_append_iff.mp h
  obtain ⟨init2, P2, rfl, h3, h4⟩ := map_descriptors_concat l1 init P h1
  exact ⟨init2, P2, l2, rfl, h3, h4, h2⟩

theorem rawDescriptors_of_table (r : IOggReader) (pos : Int) (vs : List Nat)
    (hA : OggPage.Accepts r pos)
    (hcount : byteAt (r.Read (pos + 26) 1).2 0 = vs.length)
    (htable : ∀ i (hi : i < vs.length),
      0 ≤ (r.Read (pos + 27 + (i : Int)) 1).1 ∧
        byteAt (r.Read (pos + 27 + (i : Int)) 1).2 0 = vs[i]) :
    rawDescriptors r pos = laceDescs 0 (asInts vs) ∧ vs ≠ [] ∧ ∀ v ∈ vs, v ≤ 255 := by
  have hN : segmentCount r pos = vs.length := by
    have h3 := hA.2.2.2
    rw [ReadInt_one] at h3
    unfold segmentCount
    rw [ReadInt_one]
    split at h3
    · simp at h3
    · rename_i hr
      simp only [hr, if_false, Int.toNat_ofNat, hcount]
  refine ⟨?_, ?_, ?_⟩
  · unfold rawDescriptors
    rw [hN, lacingValues_eq_asInts r (pos + 27) vs htable]
  · intro h
    have := segmentCount_pos r pos hA
    rw [hN, h] at this
    simp at this
  · intro v hv
    obtain ⟨i, hi, rfl⟩ := List.getElem_of_mem hv
    rw [← (htable i hi).2]
    have : byteAt (r.Read (pos + 27 + (i : Int)) 1).2 0 < 256 := Nat.mod_lt _ (by norm_num)
    omega

theorem flatten_closed_getLast (gs : List (List Nat)) (hne : gs ≠ [])
    (hc : ∀ g ∈ gs, ClosedRun g) : ∃ u, u < 255 ∧ gs.flatten.getLast? = some u := by
  obtain ⟨h, hh⟩ := getLast?_ne_none_of_ne_nil gs hne
  obtain ⟨ys, rfl⟩ := List.getLast?_eq_some_iff.mp hh
  obtain ⟨k, u, hu, rfl⟩ := hc h (by simp)
  refine ⟨u, hu, ?_⟩
  simp only [List.flatten_append, List.flatten_cons, List.flatten_nil, List.append_nil]
  rw [← List.append_assoc, List.getLast?_concat]

theorem table_last_run (vs : List Nat) (hne : vs ≠ []) (hb : ∀ v ∈ vs, v ≤ 255)
    (hlast : vs.getLast? = some 255) :
    ∃ (pre : List Nat) (k : Nat), vs = pre ++ List.replicate (k + 1) 255 ∧
      (pre = [] ∨ ∃ u, u < 255 ∧ pre.getLast? = some u) ∧
      ∀ l, ((laceDescs 0 (asInts vs)).map (fun d => d.len)).getLast? = some l →
        l = -(255 * ((k + 1 : Nat) : Int)) := by
  obtain ⟨gs, h1, h2, h3, h4, _, h6⟩ := laceDescs_groups vs hne hb 0
  simp only [Nat.cast_zero, mul_zero, List.replicate_zero, List.nil_append] at h1 h4 h6
  have hgs : gs ≠ [] := by
    intro h; subst h; exact hne (by simpa using h1.symm)
  obtain ⟨g, hg⟩ := getLast?_ne_none_of_ne_nil gs hgs
  obtain ⟨k, hk⟩ := (h3 g hg).2 hlast
  obtain ⟨ys, hys⟩ := List.getLast?_eq_some_iff.mp hg
  have hdl : gs.dropLast = ys := by rw [hys]; simp
  refine ⟨ys.flatten, k, ?_, ?_, ?_⟩
  · rw [← h1, hys, ← hk]; simp
  · by_cases hy : ys = []
    · left; rw [hy]; rfl
    · right
      exact flatten_closed_getLast ys hy (fun g hg => h2 g (by rw [hdl]; exact hg))
  · intro l hl
    rw [List.getLast?_map] at hl
    cases hq : (laceDescs 0 (asInts vs)).getLast? with
    | none => rw [hq] at hl; exact absurd hl (by simp)
    | some d =>
      rw [hq] at hl
      simp only [Option.map_some', Option.some.injEq] at hl
      have hneg : d.len < 0 := (h6 d hq).mpr hlast
      have hab := congrArg List.getLast? h4
      rw [List.getLast?_map, List.getLast?_map, hq, hg] at hab
      simp only [Option.map_some', Option.some.injEq, hk, sum_replicate_255] at hab
      rw [← hl]
      omega

theorem table_first_run (vs : List Nat) (hne : vs ≠ []) (hb : ∀ v ∈ vs, v ≤ 255)
    (l0 : Int) (ls : List Int)
    (hd : (laceDescs 0 (asInts vs)).map (fun d => d.len) = l0 :: ls) (h0 : 0 ≤ l0) :
    ∃ (j t : Nat) (post : List Nat), vs = List.replicate j 255 ++ t :: post ∧ t < 255 ∧
      l0 = 255 * (j : Int) + (t : Int) := by
  obtain ⟨gs, h1, h2, h3, h4, _, h6⟩ := laceDescs_groups vs hne hb 0
  simp only [Nat.cast_zero, mul_zero, List.replicate_zero, List.nil_append] at h1 h4 h6
  obtain ⟨e0, es, he, he0, hes⟩ := List.map_eq_cons_iff.mp hd
  rw [he] at h4 h6
  simp only [List.map_cons] at h4
  obtain ⟨g0, gs2, hgs, hg0, hgs2⟩ := List.map_eq_cons_iff.mp h4.symm
  have hclosed : ClosedRun g0 := by
    by_cases hg : gs2 = []
    · have hes2 : es = [] := by
        have := congrArg List.length hgs2
        rw [hg] at this
        simpa using this.symm
      have hnl : vs.getLast? ≠ some 255 := by
        intro hl
        have := (h6 e0 (by rw [hes2]; rfl)).mpr hl
        omega
      exact (h3 g0 (by rw [hgs, hg]; rfl)).1 hnl
    · exact h2 g0 (by rw [hgs, List.dropLast_cons_of_ne_nil hg]; exact List.mem_cons_self _ _)
  obtain ⟨j, t, ht, hjt⟩ := hclosed
  refine ⟨j, t, gs2.flatten, ?_, ht, ?_⟩
  · rw [← h1, hgs, hjt]; simp
  · rw [hjt] at hg0
    simp only [List.sum_append, sum_replicate_255, List.sum_cons, List.sum_nil] at hg0
    rw [← he0] at h0 ⊢
    omega

theorem decodedPage_lens (K : Consts) (r : IOggReader) (pos : Int) :
    (decodedPage K r pos).m_descriptors.map (fun d => d.len)
      = (rawDescriptors r pos).map (fun d => d.len) :=
  assign_map_len _ _

theorem GetPacket_not_incomplete (s : OggStream) (P : Packet) (hP : P.Incomplete) :
    ∀ res s3, OggStream.GetPacket s ≠ some (res, some P, s3) := by
  intro res s3 h
  unfold OggStream.GetPacket at h
  cases hq : s.m_packets with
  | nil => rw [hq] at h; simp at h
  | cons pkt t =>
    rw [hq] at h
    simp only [] at h
    cases hd : pkt.descriptors.getLast? with
    | none => rw [hd] at h; simp at h
    | some d =>
      rw [hd] at h
      simp only [] at h
      by_cases hl : d.len < 0
      · rw [if_pos hl] at h; simp at h
      · rw [if_neg hl] at h
        simp only [Option.some.injEq, Prod.mk.injEq] at h
        obtain ⟨_, hp, _⟩ := h
        subst hp
        exact hl ((incomplete_iff pkt d hd).mp hP)

/-! ## Offsets assigned by the second pass -/

theorem assign_length (ds : List Descriptor) :
    ∀ p : Int, (OggPage.Read.assign ds p).1.length = ds.length := by
  induction ds with
  | nil => intro p; rfl
  | cons d t ih => intro p; simp only [OggPage.Read.assign, List.length_cons, ih]

theorem assign_end (ds : List Descriptor) :
    ∀ p : Int, (OggPage.Read.assign ds p).2 = p + (ds.map (fun d => |d.len|)).sum := by
  induction ds with
  | nil => intro p; simp [OggPage.Read.assign]
  | cons d t ih =>
    intro p
    simp only [OggPage.Read.assign, ih, List.map_cons, List.sum_cons]
    ring

theorem assign_head (ds : List Descriptor) (p : Int) (d : Descriptor) (rest : List Descriptor)
    (h : (OggPage.Read.assign ds p).1 = d :: rest) : d.pos = p := by
  cases ds with
  | nil => simp [OggPage.Read.assign] at h
  | cons e t =>
    simp only [OggPage.Read.assign, List.cons.injEq] at h
    rw [← h.1]

theorem assign_getElem_zero (ds : List Descriptor) (p : Int)
    (h : 0 < (OggPage.Read.assign ds p).1.length) : ((OggPage.Read.assign ds p).1[0]).pos = p := by
  cases ds with
  | nil => simp [OggPage.Read.assign] at h
  | cons e t => rfl

theorem assign_chain (ds : List Descriptor) :
    ∀ (p : Int) (i : Nat) (h : i + 1 < (OggPage.Read.assign ds p).1.length),
      ((OggPage.Read.assign ds p).1[i + 1]).pos =
        ((OggPage.Read.assign ds p).1[i]).pos + |((OggPage.Read.assign ds p).1[i]).len| := by
  induction ds with
  | nil => intro p i h; simp [OggPage.Read.assign] at h
  | cons d t ih =>
    intro p i h
    have hc : (OggPage.Read.assign (d :: t) p).1 =
        ({ d with pos := p } : Descriptor) :: (OggPage.Read.assign t (p + |d.len|)).1 := rfl
    simp only [hc, List.length_cons] at h ⊢
    cases i with
    | zero =>
      simp only [List.getElem_cons_succ, List.getElem_cons_zero]
      exact assign_getElem_zero t _ (by omega)
    | succ j =>
      simp only [List.getElem_cons_succ]
      exact ih (p + |d.len|) j (by omega)

theorem sum_abs_eq_natAbs (ds : List Descriptor) :
    (ds.map (fun d => |d.len|)).sum = (((ds.map (fun d => d.len.natAbs)).sum : Nat) : Int) := by
  induction ds with
  | nil => simp
  | cons d t ih =>
    simp only [List.map_cons, List.sum_cons, ih, Nat.cast_add, Int.natCast_natAbs]

theorem laceDescs_sum (vs : List Nat) (hne : vs ≠ []) (hb : ∀ v ∈ vs, v ≤ 255) :
    ((laceDescs 0 (asInts vs)).map (fun d => |d.len|)).sum = ((vs.sum : Nat) : Int) := by
  obtain ⟨gs, h1, _, _, h4, _, _⟩ := laceDescs_groups vs hne hb 0
  simp only [Nat.cast_zero, mul_zero, List.replicate_zero, List.nil_append] at h1 h4
  rw [sum_abs_eq_natAbs, h4, ← List.sum_flatten, h1]

/-! ## The cursor after `ReadPage` -/

theorem ReadPage_pos (K : Consts) (s s2 : OggStream) (page page2 : OggPage) (res : Int)
    (h : OggStream.ReadPage K s page = some (res, s2, page2)) :
    s2.m_pos = (OggPage.Read K page s.m_pReader s.m_pos).2.2 := by
  unfold OggStream.ReadPage at h
  simp only [] at h
  by_cases h0 : (OggPage.Read K page s.m_pReader s.m_pos).1 < 0
  · rw [if_pos h0] at h
    simp only [Option.some.injEq, Prod.mk.injEq] at h
    rw [← h.2.1]
  · rw [if_neg h0] at h
    cases hd : (OggPage.Read K page s.m_pReader s.m_pos).2.1.m_descriptors with
    | nil => rw [hd] at h; exact absurd h (by simp)
    | cons d0 rest =>
      rw [hd] at h
      simp only [] at h
      cases hc : OggStream.ReadPage.continuation
          (OggPage.Read K page s.m_pReader s.m_pos).2.1.m_header s.m_packets d0 rest with
      | none =>
        rw [hc] at h
        simp only [Option.some.injEq, Prod.mk.injEq] at h
        rw [← h.2.1]
      | some qd =>
        rw [hc] at h
        simp only [] at h
        exact (resolve_descriptors K _ _ _ _ _ _ h).2.1

/-! ## The synthetic header bit -/

theorem lor_land_self (a b : Nat) : (a ||| b) &&& b = b := by
  apply Nat.eq_of_testBit_eq
  intro i
  rw [Nat.testBit_land, Nat.testBit_lor]
  cases Nat.testBit a i <;> cases Nat.testBit b i <;> rfl

theorem fDone_bit_set (K : Consts) (hK : K.Valid) (h : Nat) (hh : h < 256) :
    (h ||| K.fDone) % 256 &&& K.fDone ≠ 0 := by
  have hf : K.fDone < 2 ^ 8 ∧ K.fDone ≠ 0 := by
    rcases hK.2 with e | e | e | e | e <;> rw [e] <;> decide
  have hlt : h ||| K.fDone < 2 ^ 8 := Nat.or_lt_two_pow (by omega) hf.1
  rw [Nat.mod_eq_of_lt (by omega), lor_land_self]
  exact hf.2

theorem asInts_getLast_255 (vs : List Nat) :
    (asInts vs).getLast? = some 255 ↔ vs.getLast? = some 255 := by
  unfold asInts
  rw [List.getLast?_map]
  cases vs.getLast? with
  | none => simp
  | some v =>
    simp only [Option.map_some', Option.some.injEq]
    constructor
    · intro h; exact_mod_cast h
    · intro h; rw [h]; rfl

theorem wireHeader_eq (r : IOggReader) (pos : Int) :
    ((ReadInt r (pos + 5) 1).2 % 256).toNat =
      if (r.Read (pos + 5) 1).1 < 0 then 0 else byteAt (r.Read (pos + 5) 1).2 0 := by
  have hb : byteAt (r.Read (pos + 5) 1).2 0 < 256 := Nat.mod_lt _ (by norm_num)
  rw [ReadInt_one]
  split
  · rfl
  · simp only []
    omega

/-! ## When the continuation flag agrees with the queue -/

theorem continuation_none (hdr : Nat) (old : List Packet) (d0 : Descriptor)
    (rest : List Descriptor)
    (h : OggStream.ReadPage.continuation hdr old d0 rest = none) :
    (hdr &&& fContinued ≠ 0 ∧
      (old = [] ∨ ∃ pkt d, old.getLast? = some pkt ∧
        pkt.descriptors.getLast? = some d ∧ 0 ≤ d.len)) ∨
    (hdr &&& fContinued = 0 ∧
      ∃ pkt d, old.getLast? = some pkt ∧ pkt.descriptors.getLast? = some d ∧ d.len < 0) := by
  unfold OggStream.ReadPage.continuation at h
  by_cases hf : hdr &&& fContinued ≠ 0
  · rw [if_pos hf] at h
    left
    refine ⟨hf, ?_⟩
    cases hq : old.getLast? with
    | none => left; exact List.getLast?_eq_none_iff.mp hq
    | some pkt =>
      right
      rw [hq] at h
      simp only [] at h
      cases hd : pkt.descriptors.getLast? with
      | none => rw [hd] at h; exact absurd h (by simp)
      | some d =>
        rw [hd] at h
        simp only [] at h
        by_cases hl : d.len ≥ 0
        · exact ⟨pkt, d, rfl, hd, hl⟩
        · rw [if_neg hl] at h; exact absurd h (by simp)
  · rw [if_neg hf] at h
    right
    refine ⟨not_not.mp hf, ?_⟩
    cases hq : old.getLast? with
    | none => rw [hq] at h; exact absurd h (by simp)
    | some pkt =>
      rw [hq] at h
      simp only [] at h
      cases hd : pkt.descriptors.getLast? with
      | none => rw [hd] at h; exact absurd h (by simp)
      | some d =>
        rw [hd] at h
        simp only [] at h
        by_cases hl : d.len < 0
        · exact ⟨pkt, d, rfl, hd, hl⟩
        · rw [if_neg hl] at h; exact absurd h (by simp)

theorem push_granules (hdr : Nat) (old : List Packet) (d0 : Descriptor)
    (rest : List Descriptor) (q : List Packet) (dd : List Descriptor)
    (hc : OggStream.ReadPage.continuation hdr old d0 rest = some (q, dd)) :
    (OggStream.ReadPage.push q dd).map (fun p => p.granule_pos) =
      old.map (fun p => p.granule_pos) ++ List.replicate dd.length (-1) := by
  rw [push_eq]
  have hnew : ∀ l : List Descriptor,
      (l.map (fun d => (⟨[d], -1⟩ : Packet))).map (fun p => p.granule_pos)
        = List.replicate l.length (-1) := by
    intro l
    induction l with
    | nil => rfl
    | cons a t ih => simp only [List.map_cons, List.length_cons, List.replicate_succ, ih]
  rcases continuation_shape hdr old d0 rest q dd hc with
    ⟨_, hq, _⟩ | ⟨_, init, pkt, x, hold, hq, _, _⟩
  · rw [List.map_append, hnew, hq]
  · rw [List.map_append, hnew, hq, hold]
    simp

/-! ## The identification page -/

theorem segmentCount_eq_byte (r : IOggReader) (pos : Int) (n : Nat) (hn : 0 < n) :
    segmentCount r pos = n ↔
      (0 ≤ (r.Read (pos + 26) 1).1 ∧ byteAt (r.Read (pos + 26) 1).2 0 = n) := by
  unfold segmentCount
  rw [ReadInt_one]
  by_cases h : (r.Read (pos + 26) 1).1 < 0
  · simp only [h, if_true, Int.toNat_zero]
    constructor
    · intro e; omega
    · intro e; omega
  · simp only [h, if_false, Int.toNat_ofNat]
    constructor
    · intro e; exact ⟨not_lt.mp h, e⟩
    · intro e; exact e.2

theorem lacingValue_eq_byte (r : IOggReader) (p : Int) (v : Nat) (hv : 0 < v) :
    (ReadInt r p 1).2 = (v : Int) ↔ (0 ≤ (r.Read p 1).1 ∧ byteAt (r.Read p 1).2 0 = v) := by
  rw [ReadInt_one]
  by_cases h : (r.Read p 1).1 < 0
  · simp only [h, if_true]
    constructor
    · intro e; omega
    · intro e; omega
  · simp only [h, if_false]
    constructor
    · intro e; exact ⟨not_lt.mp h, by exact_mod_cast e⟩
    · intro e; rw [e.2]

/-- What `OggPage::Read` at offset 0 computes when the segment table is the single
value 30. -/
theorem decode_single_thirty (K : Consts) (r : IOggReader)
    (h26 : 0 ≤ (r.Read 26 1).1 ∧ byteAt (r.Read 26 1).2 0 = 1)
    (h27 : 0 ≤ (r.Read 27 1).1 ∧ byteAt (r.Read 27 1).2 0 = 30) :
    (decodedPage K r 0).m_descriptors = [⟨28, 30⟩] ∧ decodedEnd r 0 = 58 ∧
      (decodedPage K r 0).m_header =
        (((ReadInt r (0 + 5) 1).2 % 256).toNat ||| K.fDone) % 256 := by
  have hN : segmentCount r 0 = 1 := (segmentCount_eq_byte r 0 1 (by decide)).mpr (by simpa using h26)
  have hv : lacingValues r (0 + 27) 1 = [30] := by
    rw [lacingValues_succ]
    have : (ReadInt r (0 + 27) 1).2 = ((30 : Nat) : Int) :=
      (lacingValue_eq_byte r (0 + 27) 30 (by decide)).mpr (by simpa using h27)
    rw [this]; rfl
  have hraw : rawDescriptors r 0 = [⟨-1, 30⟩] := by
    unfold rawDescriptors; rw [hN, hv]; rfl
  refine ⟨?_, ?_, ?_⟩
  · unfold decodedPage
    simp only [hraw, hN]
    rfl
  · unfold decodedEnd
    simp only [hraw, hN]
    rfl
  · unfold decodedPage
    simp only [hN, hv]
    rfl

/-- The first `ReadPage` of a fresh demuxer on a page with continuation flag clear,
granule position 0 and the single descriptor `⟨28, 30⟩`. -/
theorem ReadPage_fresh_single (K : Consts) (r : IOggReader) (page : OggPage)
    (hA : OggPage.Accepts r 0)
    (hd : (decodedPage K r 0).m_descriptors = [⟨28, 30⟩])
    (hcont : (decodedPage K r 0).m_header &&& fContinued = 0)
    (hg : (decodedPage K r 0).m_granule_pos = 0) :
    OggStream.ReadPage K (OggStream.new r) page =
      some (0, ⟨r, decodedEnd r 0, [⟨[⟨28, 30⟩], 0⟩]⟩, drained (decodedPage K r 0)) := by
  have hA2 : OggPage.Accepts (OggStream.new r).m_pReader (OggStream.new r).m_pos := hA
  rw [ReadPage_of_accepts K (OggStream.new r) page ⟨28, 30⟩ [] hA2 hd]
  have hc : OggStream.ReadPage.continuation
      (decodedPage K (OggStream.new r).m_pReader (OggStream.new r).m_pos).m_header
      (OggStream.new r).m_packets ⟨28, 30⟩ [] = some ([], [⟨28, 30⟩]) := by
    unfold OggStream.ReadPage.continuation
    have : (decodedPage K (OggStream.new r).m_pReader (OggStream.new r).m_pos).m_header
        &&& fContinued = 0 := hcont
    simp only [this, ne_eq, not_true_eq_false, if_false]
    rfl
  rw [hc]
  simp only []
  have hg2 : (decodedPage K (OggStream.new r).m_pReader (OggStream.new r).m_pos).m_granule_pos
      = 0 := hg
  unfold OggStream.ReadPage.resolve
  simp only [OggStream.ReadPage.push, List.nil_append, List.getLast?_singleton, hg2,
    lt_irrefl, if_false, List.reverse_cons, List.reverse_nil, OggStream.ReadPage.scan]
  simp [OggStream.new, drained, hg]

/-- A page accepted at offset 0 that ends at 58 and has a single, complete
descriptor has the segment table `[30]`. -/
theorem single_thirty_of_end (K : Consts) (r : IOggReader) (d0 : Descriptor)
    (hA : OggPage.Accepts r 0)
    (hd : (decodedPage K r 0).m_descriptors = [d0]) (h0 : 0 ≤ d0.len)
    (hend : decodedEnd r 0 = 58) :
    segmentCount r 0 = 1 ∧ (ReadInt r 27 1).2 = 30 := by
  obtain ⟨vs, hvs, hlen, hb⟩ := lacingValues_exists_bytes r (0 + 27) (segmentCount r 0)
  have hNpos := segmentCount_pos r 0 hA
  have hne : vs ≠ [] := by
    intro h; rw [h] at hlen; simp at hlen; omega
  have hraw : rawDescriptors r 0 = laceDescs 0 (asInts vs) := by
    unfold rawDescriptors; rw [hvs]
  obtain ⟨gs, h1, _, h3, h4, _, h6⟩ := laceDescs_groups vs hne hb 0
  simp only [Nat.cast_zero, mul_zero, List.replicate_zero, List.nil_append] at h1 h4 h6
  rw [← hraw] at h4 h6
  have hlens := decodedPage_lens K r 0
  rw [hd] at hlens
  simp only [List.map_cons, List.map_nil] at hlens
  obtain ⟨e, es, hre, he, hes⟩ := List.map_eq_cons_iff.mp hlens.symm
  have hes2 : es = [] := by simpa using hes
  subst hes2
  rw [hre] at h4 h6
  simp only [List.map_cons, List.map_nil] at h4
  obtain ⟨g, gs2, hgs, hg, hgs2⟩ := List.map_eq_cons_iff.mp h4.symm
  have hgs3 : gs2 = [] := by simpa using hgs2
  subst hgs3
  subst hgs
  have hvg : vs = g := by simpa using h1.symm
  have hnl : vs.getLast? ≠ some 255 := by
    intro hl
    have := (h6 e rfl).mpr hl
    omega
  obtain ⟨k, t, ht, hkt⟩ := (h3 g rfl).1 hnl
  have hsum : ((rawDescriptors r 0).map (fun d => |d.len|)).sum = ((vs.sum : Nat) : Int) := by
    rw [hraw]; exact laceDescs_sum vs hne hb
  have hvsum : vs.sum = 255 * k + t := by
    rw [hvg, hkt]
    simp only [List.sum_append, sum_replicate_255, List.sum_cons, List.sum_nil, Nat.add_zero]
  have hvlen : vs.length = k + 1 := by
    rw [hvg, hkt]; simp
  unfold decodedEnd at hend
  rw [assign_end, hsum, hvsum, ← hlen, hvlen] at hend
  have hk : k = 0 := by push_cast at hend; omega
  have ht30 : t = 30 := by push_cast at hend; omega
  subst hk ht30
  have hN : segmentCount r 0 = 1 := by rw [← hlen, hvlen]
  refine ⟨hN, ?_⟩
  have hv30 : vs = [30] := by rw [hvg, hkt]; rfl
  rw [hN, hv30, lacingValues_succ] at hvs
  have := congrArg List.head? hvs
  simp only [List.head?_cons, Option.some.injEq, asInts_cons] at this
  have e27 : (0 : Int) + 27 = 27 := by norm_num
  rw [e27] at this
  rw [this]; rfl

theorem GetPacket_delivered (s s2 : OggStream) (res : Int) (pkt : Packet)
    (h : OggStream.GetPacket s = some (res, some pkt, s2)) :
    res = 1 ∧ s.m_packets = pkt :: s2.m_packets ∧ pkt.Complete ∧
      s2 = { s with m_packets := s2.m_packets } := by
  unfold OggStream.GetPacket at h
  cases hq : s.m_packets with
  | nil => rw [hq] at h; simp at h
  | cons p t =>
    rw [hq] at h
    simp only [] at h
    cases hd : p.descriptors.getLast? with
    | none => rw [hd] at h; simp at h
    | some d =>
      rw [hd] at h
      simp only [] at h
      by_cases hl : d.len < 0
      · rw [if_pos hl] at h; simp at h
      · rw [if_neg hl] at h
        simp only [Option.some.injEq, Prod.mk.injEq] at h
        obtain ⟨h1, h2, h3⟩ := h
        subst h2
        rw [← h3]
        exact ⟨h1.symm, rfl, (complete_iff p d hd).mpr (not_lt.mp hl), rfl⟩

/-! ## The phases of `OggStream::Init` -/

theorem check_iff (s : OggStream) (pkt : Packet) (tag : List Nat) :
    OggStream.Init.check s pkt tag = true ↔ PayloadBeginsWith s.m_pReader pkt tag := by
  unfold OggStream.Init.check PayloadBeginsWith
  cases hd : pkt.descriptors with
  | nil => simp
  | cons d rest =>
    simp only []
    constructor
    · intro h
      by_cases h1 : d.len > 0
      · by_cases h2 : d.len.toNat ≥ tag.length
        · by_cases h3 : (s.m_pReader.Read d.pos d.len.toNat).1 ≠ 0
          · simp [h1, h2, h3] at h
          · simp only [h1, h2, h3, not_true_eq_false, if_false, beq_iff_eq] at h
            exact ⟨d, rest, rfl, h1, h2, not_not.mp h3, h⟩
        · simp [h1, h2] at h
      · simp [h1] at h
    · rintro ⟨d2, rest2, he, h1, h2, h3, h4⟩
      simp only [List.cons.injEq] at he
      obtain ⟨rfl, rfl⟩ := he
      have h1' : d.len > 0 := h1
      have h2' : d.len.toNat ≥ tag.length := h2
      simp only [h1', h2', h3, not_true_eq_false, if_false, beq_iff_eq, ne_eq]
      exact h4

/-- The body of `OggStream::Init`, cut after the tests on the first page. -/
theorem Init_eq (K : Consts) (fuel : Nat) (s : OggStream) (page : OggPage) :
    OggStream.Init K fuel s page =
      match OggStream.ReadPage K s page with
      | none => .abort
      | some (result, s, page) =>
        if result < 0 then .done (result, s)
        else if page.m_header &&& fBOS = 0 then .done (K.E_FILE_FORMAT_INVALID, s)
        else if page.m_header &&& fEOS ≠ 0 then .done (K.E_FILE_FORMAT_INVALID, s)
        else if page.m_header &&& K.fDone = 0 then .done (K.E_FILE_FORMAT_INVALID, s)
        else if page.m_granule_pos ≠ 0 then .done (K.E_FILE_FORMAT_INVALID, s)
        else if s.m_pos ≠ 58 then .done (K.E_FILE_FORMAT_INVALID, s)
        else OggStream.Init.fromIdent K fuel s page := rfl

theorem loop1_inl_neg (K : Consts) :
    ∀ (fuel : Nat) (s s2 : OggStream) (page page2 : OggPage) (e : Int),
      OggStream.Init.loop1 K fuel s page = Run.done (Sum.inl e, s2, page2) → e < 0 := by
  intro fuel
  induction fuel with
  | zero => intro s s2 page page2 e h; simp [OggStream.Init.loop1] at h
  | succ n ih =>
    intro s s2 page page2 e h
    rw [OggStream.Init.loop1] at h
    cases hrp : OggStream.ReadPage K s page with
    | none => rw [hrp] at h; simp at h
    | some x =>
      obtain ⟨r1, s1, p1⟩ := x
      rw [hrp] at h
      simp only [] at h
      by_cases h0 : r1 < 0
      · rw [if_pos h0] at h
        simp only [Run.done.injEq, Prod.mk.injEq, Sum.inl.injEq] at h
        omega
      · rw [if_neg h0] at h
        cases hgp : OggStream.GetPacket s1 with
        | none => rw [hgp] at h; simp at h
        | some y =>
          obtain ⟨rg, out, s3⟩ := y
          rw [hgp] at h
          simp only [] at h
          by_cases hr : rg ≥ 1
          · rw [if_pos hr] at h
            cases out with
            | none => simp at h
            | some c => simp at h
          · rw [if_neg hr] at h
            exact ih _ _ _ _ _ h

theorem loop2_inl_neg (K : Consts) :
    ∀ (fuel : Nat) (s s2 : OggStream) (page page2 : OggPage) (e : Int),
      OggStream.Init.loop2 K fuel s page = Run.done (Sum.inl e, s2, page2) → e < 0 := by
  intro fuel
  induction fuel with
  | zero => intro s s2 page page2 e h; simp [OggStream.Init.loop2] at h
  | succ n ih =>
    intro s s2 page page2 e h
    rw [OggStream.Init.loop2] at h
    cases hgp : OggStream.GetPacket s with
    | none => rw [hgp] at h; simp at h
    | some y =>
      obtain ⟨rg, out, s3⟩ := y
      rw [hgp] at h
      simp only [] at h
      by_cases hr : rg < 1
      · rw [if_pos hr] at h
        cases hrp : OggStream.ReadPage K s3 page with
        | none => rw [hrp] at h; simp at h
        | some x =>
          obtain ⟨r1, s1, p1⟩ := x
          rw [hrp] at h
          simp only [] at h
          by_cases h0 : r1 < 0
          · rw [if_pos h0] at h
            simp only [Run.done.injEq, Prod.mk.injEq, Sum.inl.injEq] at h
            omega
          · rw [if_neg h0] at h
            exact ih _ _ _ _ _ h
      · rw [if_neg hr] at h
        cases out with
        | none => simp at h
        | some c => simp at h

theorem fromSetup_success (K : Consts) (fuel : Nat) (s sF : OggStream) (page : OggPage)
    (res : Int) (hK : K.E_FILE_FORMAT_INVALID < 0)
    (h : OggStream.Init.fromSetup K fuel s page = Run.done (res, sF)) (hres : 0 ≤ res) :
    ∃ setup p4, OggStream.Init.loop2 K fuel s page = Run.done (Sum.inr setup, sF, p4) ∧
      OggStream.Init.check sF setup (vorbisTag 5) = true ∧ sF.m_packets = [] ∧ res = 0 := by
  unfold OggStream.Init.fromSetup at h
  cases hl : OggStream.Init.loop2 K fuel s page with
  | abort => rw [hl] at h; simp at h
  | timeout => rw [hl] at h; simp at h
  | done z =>
    obtain ⟨zz, s4, p4⟩ := z
    rw [hl] at h
    cases zz with
    | inl e =>
      simp only [Run.done.injEq, Prod.mk.injEq] at h
      have := loop2_inl_neg K fuel s s4 page p4 e hl
      omega
    | inr setup =>
      simp only [] at h
      by_cases hc : OggStream.Init.check s4 setup (vorbisTag 5) = true
      · by_cases he : s4.m_packets.isEmpty = true
        · simp only [hc, he, not_true_eq_false, if_false, Run.done.injEq, Prod.mk.injEq] at h
          obtain ⟨h1, h2⟩ := h
          subst h2
          exact ⟨setup, p4, rfl, hc, List.isEmpty_iff.mp he, h1.symm⟩
        · simp [hc, he] at h
          omega
      · simp [hc] at h

theorem fromComment_success (K : Consts) (fuel : Nat) (s sF : OggStream) (page : OggPage)
    (res : Int) (hK : K.E_FILE_FORMAT_INVALID < 0)
    (h : OggStream.Init.fromComment K fuel s page = Run.done (res, sF)) (hres : 0 ≤ res) :
    ∃ comment s3 p3 setup p4,
      OggStream.Init.loop1 K fuel s page = Run.done (Sum.inr comment, s3, p3) ∧
      OggStream.Init.check s3 comment (vorbisTag 3) = true ∧
      OggStream.Init.loop2 K fuel s3 p3 = Run.done (Sum.inr setup, sF, p4) ∧
      OggStream.Init.check sF setup (vorbisTag 5) = true ∧ sF.m_packets = [] ∧ res = 0 := by
  unfold OggStream.Init.fromComment at h
  cases hl : OggStream.Init.loop1 K fuel s page with
  | abort => rw [hl] at h; simp at h
  | timeout => rw [hl] at h; simp at h
  | done z =>
    obtain ⟨zz, s3, p3⟩ := z
    rw [hl] at h
    cases zz with
    | inl e =>
      simp only [Run.done.injEq, Prod.mk.injEq] at h
      have := loop1_inl_neg K fuel s s3 page p3 e hl
      omega
    | inr comment =>
      simp only [] at h
      by_cases hc : OggStream.Init.check s3 comment (vorbisTag 3) = true
      · simp only [hc, not_true_eq_false, if_false] at h
        obtain ⟨setup, p4, h1, h2, h3, h4⟩ := fromSetup_success K fuel s3 sF p3 res hK h hres
        exact ⟨comment, s3, p3, setup, p4, rfl, hc, h1, h2, h3, h4⟩
      · simp [hc] at h

theorem fromIdent_success (K : Consts) (fuel : Nat) (s sF : OggStream) (page : OggPage)
    (res : Int) (hK : K.E_FILE_FORMAT_INVALID < 0)
    (h : OggStream.Init.fromIdent K fuel s page = Run.done (res, sF)) (hres : 0 ≤ res) :
    ∃ rg ident s2 comment s3 p3 setup p4,
      OggStream.GetPacket s = some (rg, some ident, s2) ∧
      OggStream.Init.check s2 ident (vorbisTag 1) = true ∧ s2.m_packets = [] ∧
      OggStream.Init.loop1 K fuel s2 page = Run.done (Sum.inr comment, s3, p3) ∧
      OggStream.Init.check s3 comment (vorbisTag 3) = true ∧
      OggStream.Init.loop2 K fuel s3 p3 = Run.done (Sum.inr setup, sF, p4) ∧
      OggStream.Init.check sF setup (vorbisTag 5) = true ∧ sF.m_packets = [] ∧ res = 0 := by
  unfold OggStream.Init.fromIdent at h
  cases hgp : OggStream.GetPacket s with
  | none => rw [hgp] at h; simp at h
  | some y =>
    obtain ⟨rg, out, s2⟩ := y
    rw [hgp] at h
    simp only [] at h
    by_cases hr : rg < 1
    · rw [if_pos hr] at h
      simp only [Run.done.injEq, Prod.mk.injEq] at h
      omega
    · rw [if_neg hr] at h
      cases out with
      | none => simp at h
      | some ident =>
        simp only [] at h
        by_cases hc : OggStream.Init.check s2 ident (vorbisTag 1) = true
        · by_cases he : s2.m_packets.isEmpty = true
          · simp only [hc, he, not_true_eq_false, if_false] at h
            obtain ⟨comment, s3, p3, setup, p4, h1, h2, h3, h4, h5, h6⟩ :=
              fromComment_success K fuel s2 sF page res hK h hres
            exact ⟨rg, ident, s2, comment, s3, p3, setup, p4, rfl, hc, List.isEmpty_iff.mp he,
              h1, h2, h3, h4, h5, h6⟩
          · simp [hc, he] at h
            omega
        · simp [hc] at h

/-- What a successful `OggStream::Init` has done: one page, the identification
packet, the first loop, the comment packet, the second loop, the setup packet. -/
theorem Init_success (K : Consts) (fuel : Nat) (s sF : OggStream) (page : OggPage) (res : Int)
    (hK : K.E_FILE_FORMAT_INVALID < 0)
    (h : OggStream.Init K fuel s page = Run.done (res, sF)) (hres : 0 ≤ res) :
    ∃ r1 s1 p1 rg ident s2 comment s3 p3 setup p4,
      OggStream.ReadPage K s page = some (r1, s1, p1) ∧ 0 ≤ r1 ∧
      OggStream.GetPacket s1 = some (rg, some ident, s2) ∧
      OggStream.Init.check s2 ident (vorbisTag 1) = true ∧ s2.m_packets = [] ∧
      OggStream.Init.loop1 K fuel s2 p1 = Run.done (Sum.inr comment, s3, p3) ∧
      OggStream.Init.check s3 comment (vorbisTag 3) = true ∧
      OggStream.Init.loop2 K fuel s3 p3 = Run.done (Sum.inr setup, sF, p4) ∧
      OggStream.Init.check sF setup (vorbisTag 5) = true ∧ sF.m_packets = [] ∧ res = 0 := by
  have hbad : ∀ t : OggStream, Run.done (K.E_FILE_FORMAT_INVALID, t) ≠ Run.done (res, sF) := by
    intro t h
    simp only [Run.done.injEq, Prod.mk.injEq] at h
    omega
  rw [Init_eq] at h
  cases hrp : OggStream.ReadPage K s page with
  | none => rw [hrp] at h; simp at h
  | some x =>
    obtain ⟨r1, s1, p1⟩ := x
    rw [hrp] at h
    simp only [] at h
    by_cases h0 : r1 < 0
    · rw [if_pos h0] at h
      simp only [Run.done.injEq, Prod.mk.injEq] at h
      omega
    rw [if_neg h0] at h
    split at h
    · exact absurd h (hbad _)
    split at h
    · exact absurd h (hbad _)
    split at h
    · exact absurd h (hbad _)
    split at h
    · exact absurd h (hbad _)
    split at h
    · exact absurd h (hbad _)
    obtain ⟨rg, ident, s2, comment, s3, p3, setup, p4, h1, h2, h3, h4, h5, h6, h7, h8, h9⟩ :=
      fromIdent_success K fuel s1 sF p1 res hK h hres
    exact ⟨r1, s1, p1, rg, ident, s2, comment, s3, p3, setup, p4, rfl, not_lt.mp h0, h1, h2,
      h3, h4, h5, h6, h7, h8, h9⟩

theorem GetPacket_result (s s2 : OggStream) (res : Int) (out : Option Packet)
    (h : OggStream.GetPacket s = some (res, out, s2)) :
    (res = 0 ∧ out = none ∧ s2 = s) ∨ (res = 1 ∧ ∃ pkt, out = some pkt) := by
  unfold OggStream.GetPacket at h
  cases hq : s.m_packets with
  | nil =>
    rw [hq] at h
    simp only [Option.some.injEq, Prod.mk.injEq] at h
    exact Or.inl ⟨h.1.symm, h.2.1.symm, h.2.2.symm⟩
  | cons p t =>
    rw [hq] at h
    simp only [] at h
    cases hd : p.descriptors.getLast? with
    | none => rw [hd] at h; simp at h
    | some d =>
      rw [hd] at h
      simp only [] at h
      by_cases hl : d.len < 0
      · rw [if_pos hl] at h
        simp only [Option.some.injEq, Prod.mk.injEq] at h
        exact Or.inl ⟨h.1.symm, h.2.1.symm, h.2.2.symm⟩
      · rw [if_neg hl] at h
        simp only [Option.some.injEq, Prod.mk.injEq] at h
        exact Or.inr ⟨h.1.symm, p, h.2.1.symm⟩

theorem loop1_delivers (K : Consts) :
    ∀ (fuel : Nat) (s s3 : OggStream) (page p3 : OggPage) (pkt : Packet),
      OggStream.Init.loop1 K fuel s page = Run.done (Sum.inr pkt, s3, p3) →
      ∃ sm, PagesRead K s sm ∧ OggStream.GetPacket sm = some (1, some pkt, s3) := by
  intro fuel
  induction fuel with
  | zero => intro s s3 page p3 pkt h; simp [OggStream.Init.loop1] at h
  | succ n ih =>
    intro s s3 page p3 pkt h
    rw [OggStream.Init.loop1] at h
    cases hrp : OggStream.ReadPage K s page with
    | none => rw [hrp] at h; simp at h
    | some x =>
      obtain ⟨r1, s1, p1⟩ := x
      rw [hrp] at h
      simp only [] at h
      by_cases h0 : r1 < 0
      · rw [if_pos h0] at h; simp at h
      · rw [if_neg h0] at h
        cases hgp : OggStream.GetPacket s1 with
        | none => rw [hgp] at h; simp at h
        | some y =>
          obtain ⟨rg, out, s4⟩ := y
          rw [hgp] at h
          simp only [] at h
          rcases GetPacket_result s1 s4 rg out hgp with ⟨e1, e2, e3⟩ | ⟨e1, q, e2⟩
          · subst e1 e2 e3
            rw [if_neg (by decide)] at h
            obtain ⟨sm, h1, h2⟩ := ih _ _ _ _ _ h
            exact ⟨sm, PagesRead.page s s4 sm page p1 r1 hrp (not_lt.mp h0) h1, h2⟩
          · subst e1 e2
            rw [if_pos (by decide)] at h
            simp only [Run.done.injEq, Prod.mk.injEq, Sum.inr.injEq] at h
            obtain ⟨h1, h2, -⟩ := h
            subst h1 h2
            exact ⟨s1, PagesRead.page s s1 s1 page p1 r1 hrp (not_lt.mp h0)
              (PagesRead.none s1), hgp⟩

theorem loop2_delivers (K : Consts) :
    ∀ (fuel : Nat) (s s3 : OggStream) (page p3 : OggPage) (pkt : Packet),
      OggStream.Init.loop2 K fuel s page = Run.done (Sum.inr pkt, s3, p3) →
      ∃ sm, PagesRead K s sm ∧ OggStream.GetPacket sm = some (1, some pkt, s3) := by
  intro fuel
  induction fuel with
  | zero => intro s s3 page p3 pkt h; simp [OggStream.Init.loop2] at h
  | succ n ih =>
    intro s s3 page p3 pkt h
    rw [OggStream.Init.loop2] at h
    cases hgp : OggStream.GetPacket s with
    | none => rw [hgp] at h; simp at h
    | some y =>
      obtain ⟨rg, out, s4⟩ := y
      rw [hgp] at h
      simp only [] at h
      rcases GetPacket_result s s4 rg out hgp with ⟨e1, e2, e3⟩ | ⟨e1, q, e2⟩
      · subst e1 e2 e3
        rw [if_pos (by decide)] at h
        cases hrp : OggStream.ReadPage K s4 page with
        | none => rw [hrp] at h; simp at h
        | some x =>
          obtain ⟨r1, s1, p1⟩ := x
          rw [hrp] at h
          simp only [] at h
          by_cases h0 : r1 < 0
          · rw [if_pos h0] at h; simp at h
          · rw [if_neg h0] at h
            obtain ⟨sm, h1, h2⟩ := ih _ _ _ _ _ h
            exact ⟨sm, PagesRead.page s4 s1 sm page p1 r1 hrp (not_lt.mp h0) h1, h2⟩
      · subst e1 e2
        rw [if_neg (by decide)] at h
        simp only [Run.done.injEq, Prod.mk.injEq, Sum.inr.injEq] at h
        obtain ⟨h1, h2, -⟩ := h
        subst h1 h2
        exact ⟨s, PagesRead.none s, hgp⟩

theorem Create_stream (K : Consts) (fuel : Nat) (r : IOggReader) (page : OggPage) (res : Int)
    (out : Option OggStream)
    (h : OggStream.Create K fuel (some r) page = Run.done (res, out))
    (hs : 0 ≤ res ∨ out ≠ none) :
    ∃ result sF, 0 ≤ result ∧ res = 0 ∧ out = some sF ∧
      OggStream.Init K fuel (OggStream.new r) page = Run.done (result, sF) := by
  unfold OggStream.Create at h
  simp only [] at h
  cases hI : OggStream.Init K fuel (OggStream.new r) page with
  | abort => rw [hI] at h; simp at h
  | timeout => rw [hI] at h; simp at h
  | done z =>
    obtain ⟨result, sF⟩ := z
    rw [hI] at h
    simp only [] at h
    by_cases hr : result ≥ 0
    · rw [if_pos hr] at h
      simp only [Run.done.injEq, Prod.mk.injEq] at h
      exact ⟨result, sF, hr, h.1.symm, h.2.symm, rfl⟩
    · rw [if_neg hr] at h
      simp only [Run.done.injEq, Prod.mk.injEq] at h
      obtain ⟨h1, h2⟩ := h
      subst h1 h2
      rcases hs with hs | hs
      · omega
      · exact absurd rfl hs

/-! ## Byte ranges in stream order -/

theorem assign_in_order (ds : List Descriptor) :
    ∀ p : Int, (∀ d ∈ (OggPage.Read.assign ds p).1,
        p ≤ d.pos ∧ d.pos + |d.len| ≤ (OggPage.Read.assign ds p).2) ∧
      (OggPage.Read.assign ds p).1.Pairwise (fun d e => d.pos + |d.len| ≤ e.pos) := by
  induction ds with
  | nil => intro p; simp [OggPage.Read.assign]
  | cons e t ih =>
    intro p
    obtain ⟨h1, h2⟩ := ih (p + |e.len|)
    have hb := (assign_bounds t (p + |e.len|)).1
    have ha : 0 ≤ |e.len| := abs_nonneg _
    have hc : OggPage.Read.assign (e :: t) p =
        (({ e with pos := p } : Descriptor) :: (OggPage.Read.assign t (p + |e.len|)).1,
          (OggPage.Read.assign t (p + |e.len|)).2) := rfl
    rw [hc]
    refine ⟨?_, ?_⟩
    · intro d hd
      rcases List.mem_cons.mp hd with rfl | hd
      · exact ⟨le_refl _, hb⟩
      · have := h1 d hd
        exact ⟨by omega, this.2⟩
    · refine List.pairwise_cons.mpr ⟨?_, h2⟩
      intro d hd
      exact (h1 d hd).1

theorem assign_last (ds : List Descriptor) :
    ∀ (p : Int) (d : Descriptor), (OggPage.Read.assign ds p).1.getLast? = some d →
      d.pos + |d.len| = (OggPage.Read.assign ds p).2 := by
  induction ds with
  | nil => intro p d h; simp [OggPage.Read.assign] at h
  | cons e t ih =>
    intro p d h
    have hc : OggPage.Read.assign (e :: t) p =
        (({ e with pos := p } : Descriptor) :: (OggPage.Read.assign t (p + |e.len|)).1,
          (OggPage.Read.assign t (p + |e.len|)).2) := rfl
    rw [hc] at h ⊢
    cases ht : (OggPage.Read.assign t (p + |e.len|)).1 with
    | nil =>
      rw [ht] at h
      simp only [List.getLast?_singleton, Option.some.injEq] at h
      subst h
      have hl := assign_length t (p + |e.len|)
      rw [ht] at hl
      have : t = [] := List.length_eq_zero.mp hl.symm
      subst this
      rfl
    | cons a b =>
      rw [ht] at h
      rw [List.getLast?_cons_cons] at h
      rw [← ht] at h
      exact ih _ _ h

/-- The byte ranges of the descriptors of an accepted page lie beyond the start of
the page, end at or before its end, and follow each other. -/
theorem decodedPage_in_order (K : Consts) (r : IOggReader) (pos : Int) :
    (∀ d ∈ (decodedPage K r pos).m_descriptors,
        pos ≤ d.pos ∧ d.pos + |d.len| ≤ decodedEnd r pos) ∧
      (decodedPage K r pos).m_descriptors.Pairwise (fun d e => d.pos + |d.len| ≤ e.pos) := by
  obtain ⟨h1, h2⟩ := assign_in_order (rawDescriptors r pos) (pos + 27 + (segmentCount r pos : Int))
  refine ⟨?_, h2⟩
  intro d hd
  have := h1 d hd
  unfold decodedEnd
  exact ⟨by omega, this.2⟩

theorem decodedPage_last (K : Consts) (r : IOggReader) (pos : Int) (d : Descriptor)
    (h : (decodedPage K r pos).m_descriptors.getLast? = some d) :
    d.pos + |d.len| = decodedEnd r pos :=
  assign_last _ _ _ h

theorem modifyBack_abs_mem (l : List Descriptor) :
    ∀ c ∈ modifyBack (fun d => ({ d with len := |d.len| } : Descriptor)) l,
      ∃ e ∈ l, e.pos = c.pos ∧ |e.len| = |c.len| := by
  intro c hc
  rcases List.eq_nil_or_concat l with rfl | ⟨l2, a, rfl⟩
  · simp [modifyBack] at hc
  · rw [List.concat_eq_append] at hc ⊢
    rw [modifyBack_append_singleton] at hc
    rcases List.mem_append.mp hc with h | h
    · exact ⟨c, List.mem_append_left _ h, rfl, rfl⟩
    · rw [List.mem_singleton] at h
      subst h
      exact ⟨a, List.mem_append_right _ (List.mem_singleton.mpr rfl), rfl, (abs_abs _).symm⟩

theorem modifyBack_abs_getLast (l : List Descriptor) (d : Descriptor)
    (h : (modifyBack (fun d => ({ d with len := |d.len| } : Descriptor)) l).getLast? = some d) :
    ∃ e, l.getLast? = some e ∧ e.pos = d.pos ∧ |e.len| = |d.len| := by
  rcases List.eq_nil_or_concat l with rfl | ⟨l2, a, rfl⟩
  · simp [modifyBack] at h
  · rw [List.concat_eq_append] at h ⊢
    rw [modifyBack_append_singleton] at h
    simp only [List.getLast?_append, List.getLast?_singleton, Option.or,
      Option.some.injEq] at h
    subst h
    exact ⟨a, by simp, rfl, (abs_abs _).symm⟩

/-- The continued case of lines 554-589: the last queued packet receives the first
descriptor of the page, and its byte ranges are otherwise those it had. -/
theorem continuation_ranges (hdr : Nat) (old : List Packet) (d0 : Descriptor)
    (rest : List Descriptor) (q : List Packet) (dd : List Descriptor)
    (hc : OggStream.ReadPage.continuation hdr old d0 rest = some (q, dd))
    (hf : hdr &&& fContinued ≠ 0) :
    ∃ init pkt x, old = init ++ [pkt] ∧
      q = init ++ [(⟨x ++ [d0], pkt.granule_pos⟩ : Packet)] ∧ dd = rest ∧
      ∀ c ∈ x, ∃ e ∈ pkt.descriptors, e.pos = c.pos ∧ |e.len| = |c.len| := by
  unfold OggStream.ReadPage.continuation at hc
  rw [if_pos hf] at hc
  cases hq : old.getLast? with
  | none => rw [hq] at hc; exact absurd hc (by simp)
  | some pkt =>
    obtain ⟨init, hinit⟩ := List.getLast?_eq_some_iff.mp hq
    rw [hq] at hc
    simp only [] at hc
    cases hd : pkt.descriptors.getLast? with
    | none =>
      rw [hd] at hc
      simp only [Option.some.injEq, Prod.mk.injEq] at hc
      obtain ⟨rfl, rfl⟩ := hc
      refine ⟨init, pkt, pkt.descriptors, hinit, ?_, rfl, ?_⟩
      · rw [hinit, modifyBack_append_singleton]
      · intro c hc; exact ⟨c, hc, rfl, rfl⟩
    | some d =>
      rw [hd] at hc
      simp only [] at hc
      by_cases hl : d.len ≥ 0
      · rw [if_pos hl] at hc; exact absurd hc (by simp)
      · rw [if_neg hl] at hc
        simp only [Option.some.injEq, Prod.mk.injEq] at hc
        obtain ⟨rfl, rfl⟩ := hc
        refine ⟨init, pkt, modifyBack (fun d => { d with len := |d.len| }) pkt.descriptors,
          hinit, ?_, rfl, ?_⟩
        · rw [hinit, modifyBack_append_singleton]
        · exact modifyBack_abs_mem pkt.descriptors

theorem inOrder_fresh (p E : Int) (L : List (List Descriptor)) (D : List Descriptor)
    (hpE : p ≤ E) (hL : InOrder p L)
    (hD1 : ∀ d ∈ D, p ≤ d.pos ∧ d.pos + |d.len| ≤ E)
    (hD2 : D.Pairwise (fun d e => d.pos + |d.len| ≤ e.pos)) :
    InOrder E (L ++ D.map (fun d => [d])) := by
  obtain ⟨hb, hs⟩ := hL
  refine ⟨?_, ?_⟩
  · intro x hx d hd
    rcases List.mem_append.mp hx with h | h
    · have := hb x h d hd; omega
    · obtain ⟨e, he, rfl⟩ := List.mem_map.mp h
      rw [List.mem_singleton] at hd
      subst hd
      exact (hD1 d he).2
  · refine List.pairwise_append.mpr ⟨hs, ?_, ?_⟩
    · refine List.pairwise_map.mpr (hD2.imp ?_)
      intro a b hab d hd e he
      rw [List.mem_singleton] at hd he
      subst hd he
      exact hab
    · intro a ha b hbm d hd e he
      obtain ⟨e2, he2, rfl⟩ := List.mem_map.mp hbm
      rw [List.mem_singleton] at he
      subst he
      have := hb a ha d hd
      have := (hD1 e he2).1
      omega

theorem inOrder_continued (p E : Int) (L : List (List Descriptor)) (y x : List Descriptor)
    (d0 : Descriptor) (rest : List Descriptor) (hL : InOrder p (L ++ [y]))
    (hx : ∀ c ∈ x, ∃ e ∈ y, e.pos = c.pos ∧ |e.len| = |c.len|)
    (hD1 : ∀ d ∈ d0 :: rest, p ≤ d.pos ∧ d.pos + |d.len| ≤ E)
    (hD2 : (d0 :: rest).Pairwise (fun d e => d.pos + |d.len| ≤ e.pos)) :
    InOrder E (L ++ [x ++ [d0]] ++ rest.map (fun d => [d])) := by
  obtain ⟨hb, hs⟩ := hL
  obtain ⟨hs1, -, hs3⟩ := List.pairwise_append.mp hs
  obtain ⟨hd0, hrest⟩ := List.pairwise_cons.mp hD2
  have h0 := hD1 d0 (List.mem_cons_self _ _)
  have ha0 : 0 ≤ |d0.len| := abs_nonneg _
  have hpE : p ≤ E := by omega
  have hyb : ∀ c ∈ x, c.pos + |c.len| ≤ p := by
    intro c hc
    obtain ⟨e, he, h1, h2⟩ := hx c hc
    have := hb y (List.mem_append_right _ (List.mem_singleton.mpr rfl)) e he
    omega
  have hmid : InOrder p (L ++ [x]) := by
    refine ⟨?_, ?_⟩
    · intro a ha d hd
      rcases List.mem_append.mp ha with h | h
      · exact hb a (List.mem_append_left _ h) d hd
      · rw [List.mem_singleton] at h
        subst h
        exact hyb d hd
    · refine List.pairwise_append.mpr ⟨hs1, List.pairwise_singleton _ _, ?_⟩
      intro a ha b hbm d hd e he
      rw [List.mem_singleton] at hbm
      subst hbm
      obtain ⟨e2, he2, h1, h2⟩ := hx e he
      have := hs3 a ha y (List.mem_singleton.mpr rfl) d hd e2 he2
      omega
  obtain ⟨hb2, hs2⟩ := hmid
  obtain ⟨hs21, -, hs23⟩ := List.pairwise_append.mp hs2
  refine ⟨?_, ?_⟩
  · intro a ha d hd
    rcases List.mem_append.mp ha with h | h
    · rcases List.mem_append.mp h with h | h
      · have := hb2 a (List.mem_append_left _ h) d hd; omega
      · rw [List.mem_singleton] at h
        subst h
        rcases List.mem_append.mp hd with h | h
        · have := hyb d h; omega
        · rw [List.mem_singleton] at h
          subst h
          exact h0.2
    · obtain ⟨e, he, rfl⟩ := List.mem_map.mp h
      rw [List.mem_singleton] at hd
      subst hd
      exact (hD1 d (List.mem_cons_of_mem _ he)).2
  · refine List.pairwise_append.mpr ⟨?_, ?_, ?_⟩
    · refine List.pairwise_append.mpr ⟨hs21, List.pairwise_singleton _ _, ?_⟩
      intro a ha b hbm d hd e he
      rw [List.mem_singleton] at hbm
      subst hbm
      rcases List.mem_append.mp he with h | h
      · exact hs23 a ha x (List.mem_singleton.mpr rfl) d hd e h
      · rw [List.mem_singleton] at h
        subst h
        have := hb2 a (List.mem_append_left _ ha) d hd
        omega
    · refine List.pairwise_map.mpr (hrest.imp ?_)
      intro a b hab d hd e he
      rw [List.mem_singleton] at hd he
      subst hd he
      exact hab
    · intro a ha b hbm d hd e he
      obtain ⟨e2, he2, rfl⟩ := List.mem_map.mp hbm
      rw [List.mem_singleton] at he
      subst he
      have he3 := (hD1 e (List.mem_cons_of_mem _ he2)).1
      rcases List.mem_append.mp ha with h | h
      · have := hb2 a (List.mem_append_left _ h) d hd; omega
      · rw [List.mem_singleton] at h
        subst h
        rcases List.mem_append.mp hd with h | h
        · have := hyb d h; omega
        · rw [List.mem_singleton] at h
          subst h
          exact hd0 e he2

/-- A successful `ReadPage` keeps the byte ranges in order: those of the packets
taken earlier (`pre`), then those of the queue. -/
theorem ReadPage_in_order (K : Consts) (hK : K.E_FILE_FORMAT_INVALID < 0) (s s2 : OggStream)
    (page page2 : OggPage) (res : Int) (pre : List (List Descriptor))
    (h : OggStream.ReadPage K s page = some (res, s2, page2)) (hres : 0 ≤ res)
    (hO : InOrder s.m_pos (pre ++ s.m_packets.map (fun p => p.descriptors))) :
    InOrder s2.m_pos (pre ++ s2.m_packets.map (fun p => p.descriptors)) := by
  obtain ⟨hA, d0, rest, q, dd, hd, hc, hdesc, hpos, -⟩ := ReadPage_accepted K hK s s2 page page2
    res h hres
  obtain ⟨hD1, hD2⟩ := decodedPage_in_order K s.m_pReader s.m_pos
  rw [hd] at hD1 hD2
  have hend := decodedEnd_gt s.m_pReader s.m_pos hA
  rw [hdesc, hpos, push_eq, List.map_append, List.map_map]
  have hsingle : ((fun p => p.descriptors) ∘ fun d => (⟨[d], -1⟩ : Packet)) =
      fun (d : Descriptor) => [d] := rfl
  rw [hsingle]
  rcases continuation_shape _ _ _ _ _ _ hc with ⟨-, rfl, rfl⟩ | ⟨hf, -⟩
  · rw [← List.append_assoc]
    exact inOrder_fresh s.m_pos _ _ _ (by omega) hO hD1 hD2
  · obtain ⟨init, pkt, x, hold, rfl, rfl, hx⟩ := continuation_ranges _ _ _ _ _ _ hc hf
    rw [hold, List.map_append, ← List.append_assoc] at hO
    rw [List.map_append, ← List.append_assoc, ← List.append_assoc]
    exact inOrder_continued s.m_pos _ _ _ _ _ _ hO hx hD1 hD2

theorem PagesRead_in_order (K : Consts) (hK : K.E_FILE_FORMAT_INVALID < 0)
    (pre : List (List Descriptor)) (s t : OggStream) (h : PagesRead K s t)
    (hO : InOrder s.m_pos (pre ++ s.m_packets.map (fun p => p.descriptors))) :
    InOrder t.m_pos (pre ++ t.m_packets.map (fun p => p.descriptors)) := by
  induction h with
  | none s => exact hO
  | page s s2 t page page2 res hrp hres _ ih =>
    exact ih (ReadPage_in_order K hK s s2 page page2 res pre hrp hres hO)

theorem GetPacket_in_order (s s2 : OggStream) (res : Int) (pkt : Packet)
    (pre : List (List Descriptor))
    (h : OggStream.GetPacket s = some (res, some pkt, s2))
    (hO : InOrder s.m_pos (pre ++ s.m_packets.map (fun p => p.descriptors))) :
    InOrder s2.m_pos ((pre ++ [pkt.descriptors]) ++ s2.m_packets.map (fun p => p.descriptors)) := by
  obtain ⟨-, hq, -, hs⟩ := GetPacket_delivered s s2 res pkt h
  have hp : s2.m_pos = s.m_pos := by rw [hs]
  rw [hq, List.map_cons] at hO
  rw [hp, List.append_assoc]
  exact hO

theorem ReadPage_ends_at_cursor (K : Consts) (hK : K.E_FILE_FORMAT_INVALID < 0)
    (s s2 : OggStream) (page page2 : OggPage) (res : Int)
    (h : OggStream.ReadPage K s page = some (res, s2, page2)) (hres : 0 ≤ res) :
    EndsAtCursor s2 := by
  obtain ⟨hA, d0, rest, q, dd, hd, hc, hdesc, hpos, -⟩ := ReadPage_accepted K hK s s2 page page2
    res h hres
  obtain ⟨init, P, dl, hpush, hlast, hPl, -⟩ := continuation_push_last _ _ _ _ _ _ hc
  rw [hpush] at hdesc
  obtain ⟨init2, P2, hs2, -, hP2⟩ := map_descriptors_concat _ _ _ hdesc
  intro pkt hpkt d hdl
  rw [hs2] at hpkt
  simp only [List.getLast?_append, List.getLast?_singleton, Option.or, Option.some.injEq] at hpkt
  subst hpkt
  rw [hP2, hPl] at hdl
  simp only [Option.some.injEq] at hdl
  subst hdl
  rw [← hd] at hlast
  rw [hpos]
  exact decodedPage_last K s.m_pReader s.m_pos dl hlast

theorem PagesRead_ends_at_cursor (K : Consts) (hK : K.E_FILE_FORMAT_INVALID < 0)
    (s t : OggStream) (h : PagesRead K s t) (hE : EndsAtCursor s) : EndsAtCursor t := by
  induction h with
  | none s => exact hE
  | page s s2 t page page2 res hrp hres _ ih =>
    exact ih (ReadPage_ends_at_cursor K hK s s2 page page2 res hrp hres)

theorem GetPacket_ends_at_cursor (s s2 : OggStream) (res : Int) (pkt : Packet)
    (h : OggStream.GetPacket s = some (res, some pkt, s2)) (hE : EndsAtCursor s) :
    EndsAtCursor s2 := by
  obtain ⟨-, hq, -, hs⟩ := GetPacket_delivered s s2 res pkt h
  have hp : s2.m_pos = s.m_pos := by rw [hs]
  intro P hP d hd
  rw [hp]
  refine hE P ?_ d hd
  rw [hq]
  have hne : s2.m_packets ≠ [] := by
    intro h0; rw [h0] at hP; simp at hP
  rw [getLast?_cons_of_ne_nil _ _ hne]
  exact hP

theorem PagesRead_reader (K : Consts) (hK : K.E_FILE_FORMAT_INVALID < 0)
    (s t : OggStream) (h : PagesRead K s t) : t.m_pReader = s.m_pReader := by
  induction h with
  | none s => rfl
  | page s s2 t page page2 res hrp hres _ ih =>
    obtain ⟨-, -, -, -, -, -, -, -, -, hr⟩ := ReadPage_accepted K hK s s2 page page2 res hrp hres
    rw [ih, hr]

theorem GetPacket_reader (s s2 : OggStream) (res : Int) (pkt : Packet)
    (h : OggStream.GetPacket s = some (res, some pkt, s2)) :
    s2.m_pReader = s.m_pReader ∧ s2.m_pos = s.m_pos := by
  obtain ⟨-, -, -, hs⟩ := GetPacket_delivered s s2 res pkt h
  constructor <;> rw [hs]

/-- The run of a successful `OggStream::Init` on a freshly constructed stream: one
page, the identification packet, pages, the comment packet, pages, the setup
packet. -/
theorem Init_run (K : Consts) (hK : K.E_FILE_FORMAT_INVALID < 0) (fuel : Nat)
    (r : IOggReader) (page : OggPage) (res : Int) (sF : OggStream)
    (h : OggStream.Init K fuel (OggStream.new r) page = Run.done (res, sF)) (hres : 0 ≤ res) :
    ∃ r1 s1 p1 ident s2 sa comment s3 sb setup,
      OggStream.ReadPage K (OggStream.new r) page = some (r1, s1, p1) ∧ 0 ≤ r1 ∧
      OggStream.GetPacket s1 = some (1, some ident, s2) ∧
      OggStream.Init.check s2 ident (vorbisTag 1) = true ∧ s2.m_packets = [] ∧
      PagesRead K s2 sa ∧ OggStream.GetPacket sa = some (1, some comment, s3) ∧
      OggStream.Init.check s3 comment (vorbisTag 3) = true ∧
      PagesRead K s3 sb ∧ OggStream.GetPacket sb = some (1, some setup, sF) ∧
      OggStream.Init.check sF setup (vorbisTag 5) = true ∧ sF.m_packets = [] ∧ res = 0 := by
  obtain ⟨r1, s1, p1, rg, ident, s2, comment, s3, p3, setup, p4, h1, h2, h3, h4, h5, h6, h7,
    h8, h9, h10, h11⟩ := Init_success K fuel _ sF page res hK h hres
  obtain ⟨sa, ha1, ha2⟩ := loop1_delivers K fuel _ _ _ _ _ h6
  obtain ⟨sb, hb1, hb2⟩ := loop2_delivers K fuel _ _ _ _ _ h8
  have hrg := (GetPacket_delivered _ _ _ _ h3).1
  subst hrg
  exact ⟨r1, s1, p1, ident, s2, sa, comment, s3, sb, setup, h1, h2, h3, h4, h5, ha1, ha2, h7,
    hb1, hb2, h9, h10, h11⟩

/-! ## Termination over a finite byte source -/

theorem memReader_endsAt (data : List Nat) : (memReader data).EndsAt data.length := by
  intro pos n hp hn
  have : ¬ (0 ≤ pos ∧ pos + (n : Int) ≤ (data.length : Int)) := by
    rintro ⟨-, h⟩; omega
  simp only [memReader, this, if_false]
  decide

/-- The loops over the segment table never fail and leave `pos` behind exactly
`n` lacing values. -/
theorem lacing_consumes (K : Consts) (r : IOggReader) :
    ∀ (n : Nat) (pos : Int) (hdr : Nat) (ds : List Descriptor),
      (OggPage.Read.lacing K r n pos hdr ds).1 = 0 ∧
        (OggPage.Read.lacing K r n pos hdr ds).2.1 = pos + (n : Int) := by
  intro n
  induction n with
  | zero => intro pos hdr ds; simp [OggPage.Read.lacing]
  | succ n ih =>
    intro pos hdr ds
    rw [OggPage.Read.lacing]
    simp only [ReadInt_fst_not_neg, if_false]
    by_cases hn : n = 0
    · subst hn
      by_cases hv : (ReadInt r pos 1).2 = 255 <;> simp [hv]
    · simp only [hn, if_false]
      by_cases hv : (ReadInt r pos 1).2 ≠ 255
      · rw [if_pos hv]
        obtain ⟨h1, h2⟩ := ih (pos + 1) hdr
          (modifyBack (fun d => { d with len := d.len + (ReadInt r pos 1).2 }) ds ++ [⟨-1, 0⟩])
        exact ⟨h1, by rw [h2]; push_cast; ring⟩
      · rw [if_neg hv]
        obtain ⟨h1, h2⟩ := ih (pos + 1) hdr
          (modifyBack (fun d => { d with len := d.len + (ReadInt r pos 1).2 }) ds)
        exact ⟨h1, by rw [h2]; push_cast; ring⟩

theorem ReadPage_before_end (K : Consts) (hK : K.E_FILE_FORMAT_INVALID < 0) (L : Int)
    (s s2 : OggStream) (page page2 : OggPage) (res : Int) (hfin : s.m_pReader.EndsAt L)
    (h : OggStream.ReadPage K s page = some (res, s2, page2)) (hres : 0 ≤ res) :
    s.m_pos < L ∧ s.m_pos + 28 ≤ s2.m_pos ∧ s2.m_pReader = s.m_pReader := by
  obtain ⟨hA, -, -, -, -, -, -, -, hpos, hr⟩ := ReadPage_accepted K hK s s2 page page2 res h hres
  have hend := decodedEnd_gt s.m_pReader s.m_pos hA
  refine ⟨?_, by omega, hr⟩
  by_contra hL
  have := hfin s.m_pos 4 (not_lt.mp hL) (by decide)
  have := hA.2.1
  omega

theorem ReadPage_past_end (K : Consts) (hK : K.E_FILE_FORMAT_INVALID < 0) (L : Int)
    (s : OggStream) (page : OggPage) (hfin : s.m_pReader.EndsAt L) (hL : L ≤ s.m_pos) :
    ∃ res s2 page2, OggStream.ReadPage K s page = some (res, s2, page2) ∧ res < 0 := by
  have hA : ¬ OggPage.Accepts s.m_pReader s.m_pos := by
    intro hA
    have := hfin s.m_pos 4 hL (by decide)
    have := hA.2.1
    omega
  refine ⟨_, _, _, ReadPage_of_not_accepts K s page hK hA, ?_⟩
  rcases Read_of_not_accepts K page s.m_pReader s.m_pos hA with h | h <;> omega

theorem PagesRead_pos (K : Consts) (hK : K.E_FILE_FORMAT_INVALID < 0)
    (s t : OggStream) (h : PagesRead K s t) : s.m_pos ≤ t.m_pos := by
  induction h with
  | none s => exact le_refl _
  | page s s2 t page page2 res hrp hres _ ih =>
    obtain ⟨hA, -, -, -, -, -, -, -, hpos, -⟩ := ReadPage_accepted K hK s s2 page page2 res hrp hres
    have := decodedEnd_gt s.m_pReader s.m_pos hA
    omega

/-- With enough iterations for the bytes that remain, the first loop of
`OggStream::Init` ends. -/
theorem loop1_ends (K : Consts) (hK : K.E_FILE_FORMAT_INVALID < 0) (L : Int) :
    ∀ (fuel : Nat) (s : OggStream) (page : OggPage), s.m_pReader.EndsAt L →
      (L - s.m_pos).toNat + 28 ≤ 28 * fuel →
      OggStream.Init.loop1 K fuel s page ≠ Run.timeout := by
  intro fuel
  induction fuel with
  | zero => intro s page _ hb; omega
  | succ n ih =>
    intro s page hfin hb
    rw [OggStream.Init.loop1]
    cases hrp : OggStream.ReadPage K s page with
    | none => simp
    | some x =>
      obtain ⟨r1, s1, p1⟩ := x
      simp only []
      by_cases h0 : r1 < 0
      · rw [if_pos h0]; simp
      · rw [if_neg h0]
        obtain ⟨hlt, hadv, hr⟩ := ReadPage_before_end K hK L s s1 page p1 r1 hfin hrp
          (not_lt.mp h0)
        cases hgp : OggStream.GetPacket s1 with
        | none => simp
        | some y =>
          obtain ⟨rg, out, s4⟩ := y
          simp only []
          rcases GetPacket_result s1 s4 rg out hgp with ⟨e1, e2, e3⟩ | ⟨e1, q, e2⟩
          · subst e1 e2 e3
            rw [if_neg (by decide)]
            exact ih s4 p1 (by rw [hr]; exact hfin) (by omega)
          · subst e1 e2
            rw [if_pos (by decide)]
            simp

theorem loop2_ends (K : Consts) (hK : K.E_FILE_FORMAT_INVALID < 0) (L : Int) :
    ∀ (fuel : Nat) (s : OggStream) (page : OggPage), s.m_pReader.EndsAt L →
      (L - s.m_pos).toNat + 28 ≤ 28 * fuel →
      OggStream.Init.loop2 K fuel s page ≠ Run.timeout := by
  intro fuel
  induction fuel with
  | zero => intro s page _ hb; omega
  | succ n ih =>
    intro s page hfin hb
    rw [OggStream.Init.loop2]
    cases hgp : OggStream.GetPacket s with
    | none => simp
    | some y =>
      obtain ⟨rg, out, s4⟩ := y
      simp only []
      rcases GetPacket_result s s4 rg out hgp with ⟨e1, e2, e3⟩ | ⟨e1, q, e2⟩
      · subst e1 e2 e3
        rw [if_pos (by decide)]
        cases hrp : OggStream.ReadPage K s4 page with
        | none => simp
        | some x =>
          obtain ⟨r1, s1, p1⟩ := x
          simp only []
          by_cases h0 : r1 < 0
          · rw [if_pos h0]; simp
          · rw [if_neg h0]
            obtain ⟨hlt, hadv, hr⟩ := ReadPage_before_end K hK L s4 s1 page p1 r1 hfin hrp
              (not_lt.mp h0)
            exact ih s1 p1 (by rw [hr]; exact hfin) (by omega)
      · subst e1 e2
        rw [if_neg (by decide)]
        simp

/-- A run of the first loop that ends does not depend on the iterations left over. -/
theorem loop1_stable (K : Consts) :
    ∀ (fuel : Nat) (s : OggStream) (page : OggPage) (k : Nat),
      OggStream.Init.loop1 K fuel s page ≠ Run.timeout →
      OggStream.Init.loop1 K (fuel + k) s page = OggStream.Init.loop1 K fuel s page := by
  intro fuel
  induction fuel with
  | zero => intro s page k h; exact absurd rfl h
  | succ n ih =>
    intro s page k h
    have e : n + 1 + k = (n + k) + 1 := by omega
    rw [e]
    rw [OggStream.Init.loop1] at h ⊢
    rw [OggStream.Init.loop1]
    cases hrp : OggStream.ReadPage K s page with
    | none => rfl
    | some x =>
      obtain ⟨r1, s1, p1⟩ := x
      rw [hrp] at h
      simp only [] at h ⊢
      by_cases h0 : r1 < 0
      · rw [if_pos h0, if_pos h0]
      · rw [if_neg h0] at h
        rw [if_neg h0, if_neg h0]
        cases hgp : OggStream.GetPacket s1 with
        | none => rfl
        | some y =>
          obtain ⟨rg, out, s4⟩ := y
          rw [hgp] at h
          simp only [] at h ⊢
          by_cases hr : rg ≥ 1
          · rw [if_pos hr, if_pos hr]
          · rw [if_neg hr] at h
            rw [if_neg hr, if_neg hr]
            exact ih s4 p1 k h

theorem loop2_stable (K : Consts) :
    ∀ (fuel : Nat) (s : OggStream) (page : OggPage) (k : Nat),
      OggStream.Init.loop2 K fuel s page ≠ Run.timeout →
      OggStream.Init.loop2 K (fuel + k) s page = OggStream.Init.loop2 K fuel s page := by
  intro fuel
  induction fuel with
  | zero => intro s page k h; exact absurd rfl h
  | succ n ih =>
    intro s page k h
    have e : n + 1 + k = (n + k) + 1 := by omega
    rw [e]
    rw [OggStream.Init.loop2] at h ⊢
    rw [OggStream.Init.loop2]
    cases hgp : OggStream.GetPacket s with
    | none => rfl
    | some y =>
      obtain ⟨rg, out, s4⟩ := y
      rw [hgp] at h
      simp only [] at h ⊢
      by_cases hr : rg < 1
      · rw [if_pos hr] at h
        rw [if_pos hr, if_pos hr]
        cases hrp : OggStream.ReadPage K s4 page with
        | none => rfl
        | some x =>
          obtain ⟨r1, s1, p1⟩ := x
          rw [hrp] at h
          simp only [] at h ⊢
          by_cases h0 : r1 < 0
          · rw [if_pos h0, if_pos h0]
          · rw [if_neg h0] at h
            rw [if_neg h0, if_neg h0]
            exact ih s1 p1 k h
      · rw [if_neg hr, if_neg hr]

theorem fromSetup_ends (K : Consts) (hK : K.E_FILE_FORMAT_INVALID < 0) (L : Int) (fuel : Nat)
    (s : OggStream) (page : OggPage) (hfin : s.m_pReader.EndsAt L)
    (hb : (L - s.m_pos).toNat + 28 ≤ 28 * fuel) :
    OggStream.Init.fromSetup K fuel s page ≠ Run.timeout ∧
      ∀ k, OggStream.Init.fromSetup K (fuel + k) s page = OggStream.Init.fromSetup K fuel s page := by
  have h1 := loop2_ends K hK L fuel s page hfin hb
  refine ⟨?_, ?_⟩
  · unfold OggStream.Init.fromSetup
    cases hl : OggStream.Init.loop2 K fuel s page with
    | abort => simp
    | timeout => exact absurd hl h1
    | done z =>
      obtain ⟨zz, s4, p4⟩ := z
      cases zz with
      | inl e => simp
      | inr setup =>
        simp only []
        split
        · simp
        · split <;> simp
  · intro k
    unfold OggStream.Init.fromSetup
    rw [loop2_stable K fuel s page k h1]

theorem loop1_result_state (K : Consts) (hK : K.E_FILE_FORMAT_INVALID < 0) (fuel : Nat)
    (s s3 : OggStream) (page p3 : OggPage) (pkt : Packet)
    (h : OggStream.Init.loop1 K fuel s page = Run.done (Sum.inr pkt, s3, p3)) :
    s3.m_pReader = s.m_pReader ∧ s.m_pos ≤ s3.m_pos := by
  obtain ⟨sm, h1, h2⟩ := loop1_delivers K fuel s s3 page p3 pkt h
  obtain ⟨e1, e2⟩ := GetPacket_reader sm s3 1 pkt h2
  have := PagesRead_reader K hK s sm h1
  have := PagesRead_pos K hK s sm h1
  exact ⟨by rw [e1, PagesRead_reader K hK s sm h1], by omega⟩

theorem fromComment_ends (K : Consts) (hK : K.E_FILE_FORMAT_INVALID < 0) (L : Int) (fuel : Nat)
    (s : OggStream) (page : OggPage) (hfin : s.m_pReader.EndsAt L)
    (hb : (L - s.m_pos).toNat + 28 ≤ 28 * fuel) :
    OggStream.Init.fromComment K fuel s page ≠ Run.timeout ∧
      ∀ k, OggStream.Init.fromComment K (fuel + k) s page
        = OggStream.Init.fromComment K fuel s page := by
  have h1 := loop1_ends K hK L fuel s page hfin hb
  have hst := loop1_stable K fuel s page
  cases hl : OggStream.Init.loop1 K fuel s page with
  | abort =>
    refine ⟨?_, fun k => ?_⟩
    · unfold OggStream.Init.fromComment; rw [hl]; simp
    · unfold OggStream.Init.fromComment; rw [hst k h1, hl]
  | timeout => exact absurd hl h1
  | done z =>
    obtain ⟨zz, s3, p3⟩ := z
    cases zz with
    | inl e =>
      refine ⟨?_, fun k => ?_⟩
      · unfold OggStream.Init.fromComment; rw [hl]; simp
      · unfold OggStream.Init.fromComment; rw [hst k h1, hl]
    | inr comment =>
      obtain ⟨e1, e2⟩ := loop1_result_state K hK fuel s s3 page p3 comment hl
      obtain ⟨g1, g2⟩ := fromSetup_ends K hK L fuel s3 p3 (by rw [e1]; exact hfin) (by omega)
      refine ⟨?_, fun k => ?_⟩
      · unfold OggStream.Init.fromComment
        rw [hl]
        simp only []
        split
        · simp
        · exact g1
      · unfold OggStream.Init.fromComment
        rw [hst k h1, hl]
        simp only []
        rw [g2 k]

theorem fromIdent_ends (K : Consts) (hK : K.E_FILE_FORMAT_INVALID < 0) (L : Int) (fuel : Nat)
    (s : OggStream) (page : OggPage) (hfin : s.m_pReader.EndsAt L)
    (hb : (L - s.m_pos).toNat + 28 ≤ 28 * fuel) :
    OggStream.Init.fromIdent K fuel s page ≠ Run.timeout ∧
      ∀ k, OggStream.Init.fromIdent K (fuel + k) s page
        = OggStream.Init.fromIdent K fuel s page := by
  cases hgp : OggStream.GetPacket s with
  | none =>
    refine ⟨?_, fun k => ?_⟩ <;> unfold OggStream.Init.fromIdent <;> rw [hgp]
    simp
  | some y =>
    obtain ⟨rg, out, s2⟩ := y
    rcases GetPacket_result s s2 rg out hgp with ⟨e1, e2, e3⟩ | ⟨e1, q, e2⟩
    · subst e1 e2 e3
      refine ⟨?_, fun k => ?_⟩ <;> unfold OggStream.Init.fromIdent <;> rw [hgp]
      simp
    · subst e1 e2
      obtain ⟨e1, e2⟩ := GetPacket_reader s s2 1 q hgp
      obtain ⟨g1, g2⟩ := fromComment_ends K hK L fuel s2 page (by rw [e1]; exact hfin)
        (by rw [e2]; exact hb)
      refine ⟨?_, fun k => ?_⟩
      · unfold OggStream.Init.fromIdent
        rw [hgp]
        simp only []
        rw [if_neg (by decide)]
        split
        · simp
        · split
          · simp
          · exact g1
      · unfold OggStream.Init.fromIdent
        rw [hgp]
        simp only []
        rw [g2 k]

/-- With enough iterations for the bytes that remain, `OggStream::Init` ends, and
with the same outcome whatever the iterations left over. -/
theorem Init_ends (K : Consts) (hK : K.E_FILE_FORMAT_INVALID < 0) (L : Int) (fuel : Nat)
    (s : OggStream) (page : OggPage) (hfin : s.m_pReader.EndsAt L)
    (hb : (L - s.m_pos).toNat + 28 ≤ 28 * fuel) :
    OggStream.Init K fuel s page ≠ Run.timeout ∧
      ∀ k, OggStream.Init K (fuel + k) s page = OggStream.Init K fuel s page := by
  cases hrp : OggStream.ReadPage K s page with
  | none =>
    refine ⟨?_, fun k => ?_⟩
    · rw [Init_eq, hrp]; simp
    · rw [Init_eq, Init_eq, hrp]
  | some x =>
    obtain ⟨r1, s1, p1⟩ := x
    by_cases h0 : r1 < 0
    · refine ⟨?_, fun k => ?_⟩
      · rw [Init_eq, hrp]; simp only []; rw [if_pos h0]; simp
      · rw [Init_eq, Init_eq, hrp]; simp only []; rw [if_pos h0, if_pos h0]
    · obtain ⟨hlt, hadv, hr⟩ := ReadPage_before_end K hK L s s1 page p1 r1 hfin hrp
        (not_lt.mp h0)
      obtain ⟨g1, g2⟩ := fromIdent_ends K hK L fuel s1 p1 (by rw [hr]; exact hfin) (by omega)
      refine ⟨?_, fun k => ?_⟩
      · rw [Init_eq, hrp]
        simp only []
        rw [if_neg h0]
        split
        · simp
        split
        · simp
        split
        · simp
        split
        · simp
        split
        · simp
        exact g1
      · rw [Init_eq, Init_eq, hrp]
        simp only []
        rw [g2 k]

/-! ## The build with `NDEBUG` -/

theorem fromSetup_abort_or (K : Consts) (fuel : Nat) (s : OggStream) (page : OggPage) :
    OggStream.Init.fromSetup K fuel s page = Run.abort ∨
      OggStream.Init.fromSetup K fuel s page =
        match OggStream.Init.loop2 K fuel s page with
        | .abort => .abort
        | .timeout => .timeout
        | .done (.inl result, s, _) => .done (result, s)
        | .done (.inr _, s, _) =>
          if ¬ s.m_packets.isEmpty then .done (K.E_FILE_FORMAT_INVALID, s)
          else .done (0, s) := by
  unfold OggStream.Init.fromSetup
  cases OggStream.Init.loop2 K fuel s page with
  | abort => left; rfl
  | timeout => right; rfl
  | done z =>
    obtain ⟨zz, s4, p4⟩ := z
    cases zz with
    | inl e => right; rfl
    | inr setup =>
      simp only []
      split
      · left; rfl
      · right; rfl

theorem fromComment_abort_or (K : Consts) (fuel : Nat) (s : OggStream) (page : OggPage) :
    OggStream.Init.fromComment K fuel s page = Run.abort ∨
      OggStream.Init.fromComment K fuel s page =
        match OggStream.Init.loop1 K fuel s page with
        | .abort => .abort
        | .timeout => .timeout
        | .done (.inl result, s, _) => .done (result, s)
        | .done (.inr _, s, page) =>
          match OggStream.Init.loop2 K fuel s page with
          | .abort => .abort
          | .timeout => .timeout
          | .done (.inl result, s, _) => .done (result, s)
          | .done (.inr _, s, _) =>
            if ¬ s.m_packets.isEmpty then .done (K.E_FILE_FORMAT_INVALID, s)
            else .done (0, s) := by
  unfold OggStream.Init.fromComment
  cases OggStream.Init.loop1 K fuel s page with
  | abort => left; rfl
  | timeout => right; rfl
  | done z =>
    obtain ⟨zz, s3, p3⟩ := z
    cases zz with
    | inl e => right; rfl
    | inr comment =>
      simp only []
      split
      · left; rfl
      · exact fromSetup_abort_or K fuel s3 p3

theorem fromIdent_abort_or (K : Consts) (fuel : Nat) (s : OggStream) (page : OggPage) :
    OggStream.Init.fromIdent K fuel s page = Run.abort ∨
      OggStream.Init.fromIdent K fuel s page =
        match OggStream.GetPacket s with
        | none => .abort
        | some (r, out, s) =>
          if r < 1 then .done (K.E_FILE_FORMAT_INVALID, s)
          else
            match out with
            | none => .abort
            | some _ =>
              if ¬ s.m_packets.isEmpty then .done (K.E_FILE_FORMAT_INVALID, s)
              else
                match OggStream.Init.loop1 K fuel s page with
                | .abort => .abort
                | .timeout => .timeout
                | .done (.inl result, s, _) => .done (result, s)
                | .done (.inr _, s, page) =>
                  match OggStream.Init.loop2 K fuel s page with
                  | .abort => .abort
                  | .timeout => .timeout
                  | .done (.inl result, s, _) => .done (result, s)
                  | .done (.inr _, s, _) =>
                    if ¬ s.m_packets.isEmpty then .done (K.E_FILE_FORMAT_INVALID, s)
                    else .done (0, s) := by
  unfold OggStream.Init.fromIdent
  cases OggStream.GetPacket s with
  | none => left; rfl
  | some y =>
    obtain ⟨rg, out, s2⟩ := y
    simp only []
    split
    · right; rfl
    cases out with
    | none => left; rfl
    | some ident =>
      simp only []
      split
      · left; rfl
      split
      · right; rfl
      · exact fromComment_abort_or K fuel s2 page

/-- The build with `assert` and the build with `NDEBUG` agree unless an assertion
fails. -/
theorem Init_abort_or_release (K : Consts) (fuel : Nat) (s : OggStream) (page : OggPage) :
    OggStream.Init K fuel s page = Run.abort ∨
      OggStream.Init K fuel s page = OggStream.InitRelease K fuel s page := by
  rw [Init_eq]
  unfold OggStream.InitRelease
  cases OggStream.ReadPage K s page with
  | none => left; rfl
  | some x =>
    obtain ⟨r1, s1, p1⟩ := x
    show (if r1 < 0 then _ else _) = _ ∨ (if r1 < 0 then _ else _) = (if r1 < 0 then _ else _)
    split
    · right; rfl
    split
    · right; rfl
    split
    · right; rfl
    split
    · right; rfl
    split
    · right; rfl
    split
    · right; rfl
    exact fromIdent_abort_or K fuel s1 p1

/-- The result of `ReadPage` on an accepted page is 0 or `E_FILE_FORMAT_INVALID`. -/
theorem ReadPage_result (K : Consts) (s s2 : OggStream) (page page2 : OggPage) (res : Int)
    (hInv : Inv s) (hA : OggPage.Accepts s.m_pReader s.m_pos)
    (h : OggStream.ReadPage K s page = some (res, s2, page2)) :
    res = 0 ∨ res = K.E_FILE_FORMAT_INVALID := by
  obtain ⟨d0, rest, hd⟩ := List.exists_cons_of_ne_nil
    (decodedPage_descriptors_ne_nil K s.m_pReader s.m_pos hA)
  rw [ReadPage_of_accepts K s page d0 rest hA hd] at h
  cases hc : OggStream.ReadPage.continuation (decodedPage K s.m_pReader s.m_pos).m_header
      s.m_packets d0 rest with
  | none =>
    rw [hc] at h
    simp only [Option.some.injEq, Prod.mk.injEq] at h
    exact Or.inr h.1.symm
  | some qd =>
    obtain ⟨q, dd⟩ := qd
    rw [hc] at h
    simp only [] at h
    have hI := continuation_ingested K s d0 rest q dd hInv hA hd hc
    rw [resolve_of_ingested K s.m_pos
      { s with m_pos := decodedEnd s.m_pReader s.m_pos,
               m_packets := OggStream.ReadPage.push q dd } _ s.m_packets hI] at h
    split at h
    · split at h
      · simp only [Option.some.injEq, Prod.mk.injEq] at h
        exact Or.inr h.1.symm
      · simp only [Option.some.injEq, Prod.mk.injEq] at h
        exact Or.inl h.1.symm
    · split at h
      · simp only [Option.some.injEq, Prod.mk.injEq] at h
        exact Or.inl h.1.symm
      · simp only [Option.some.injEq, Prod.mk.injEq] at h
        exact Or.inr h.1.symm

/-- In the build with `assert`: whenever `OggStream::Create` returns with a
non-negative result or with a stream, the three packets that the bootstrap took
have a payload that begins with 0x01, 0x03 and 0x05 followed by "vorbis".  (In
that build a payload that begins otherwise ends the run in the failing assertion;
see `OggStream.CreateRelease` for the build with `NDEBUG`.) -/
theorem Create_with_asserts_has_tags (K : Consts) (hK : K.E_FILE_FORMAT_INVALID < 0)
    (fuel : Nat) (r : IOggReader) (page : OggPage) (res : Int) (out : Option OggStream)
    (h : OggStream.Create K fuel (some r) page = Run.done (res, out))
    (hs : 0 ≤ res ∨ out ≠ none) :
    ∃ r1 s1 p1 ident s2 sa comment s3 sb setup sF,
      res = 0 ∧ out = some sF ∧
      OggStream.ReadPage K (OggStream.new r) page = some (r1, s1, p1) ∧ 0 ≤ r1 ∧
      OggStream.GetPacket s1 = some (1, some ident, s2) ∧
      PagesRead K s2 sa ∧ OggStream.GetPacket sa = some (1, some comment, s3) ∧
      PagesRead K s3 sb ∧ OggStream.GetPacket sb = some (1, some setup, sF) ∧
      PayloadBeginsWith r ident (vorbisTag 1) ∧ PayloadBeginsWith r comment (vorbisTag 3) ∧
      PayloadBeginsWith r setup (vorbisTag 5) := by
  obtain ⟨result, sF, hr, hres, hout, hI⟩ := Create_stream K fuel r page res out h hs
  obtain ⟨r1, s1, p1, ident, s2, sa, comment, s3, sb, setup, h1, h2, h3, h4, -, h6, h7, h8, h9,
    h10, h11, -, -⟩ := Init_run K hK fuel r page result sF hI hr
  obtain ⟨-, -, -, -, -, -, -, -, -, e1⟩ := ReadPage_accepted K hK _ s1 page p1 r1 h1 h2
  have e1 : s1.m_pReader = r := e1
  have e2 : s2.m_pReader = r := by rw [(GetPacket_reader _ _ _ _ h3).1, e1]
  have ea : sa.m_pReader = r := by rw [PagesRead_reader K hK _ _ h6, e2]
  have e3 : s3.m_pReader = r := by rw [(GetPacket_reader _ _ _ _ h7).1, ea]
  have eb : sb.m_pReader = r := by rw [PagesRead_reader K hK _ _ h9, e3]
  have eF : sF.m_pReader = r := by rw [(GetPacket_reader _ _ _ _ h10).1, eb]
  refine ⟨r1, s1, p1, ident, s2, sa, comment, s3, sb, setup, sF, hres, hout, h1, h2, h3, h6, h7,
    h9, h10, ?_, ?_, ?_⟩
  · rw [← e2]; exact (check_iff s2 ident _).mp h4
  · rw [← e3]; exact (check_iff s3 comment _).mp h8
  · rw [← eF]; exact (check_iff sF setup _).mp h11

/-! ## The checks on the identification page -/

/-- For a source whose first page decodes at offset 0 with BOS set, EOS clear,
continuation clear and granule position 0, the checks of `OggStream::Init` up to the
take of the identification packet with an empty queue behind it (lines 430-453 and
474) pass exactly when the segment table is the single lacing value 30.  In that
case the page ends at offset 58, the identification packet is the one descriptor
at offset 28 of length 30, and the block at lines 457-472 compares the first 7 of
the 30 bytes read at offset 28 with `"\x01vorbis"`. -/
theorem ident_page_checks (K : Consts) (r : IOggReader) (page : OggPage)
    (hK : K.Valid)
    (hdec : 0 ≤ (OggPage.Read K page r 0).1)
    (hbos : (OggPage.Read K page r 0).2.1.m_header &&& fBOS ≠ 0)
    (heos : (OggPage.Read K page r 0).2.1.m_header &&& fEOS = 0)
    (hcont : (OggPage.Read K page r 0).2.1.m_header &&& fContinued = 0)
    (hg : (OggPage.Read K page r 0).2.1.m_granule_pos = 0) :
    ((∃ r1 s1 p1 res ident s2,
        OggStream.ReadPage K (OggStream.new r) page = some (r1, s1, p1) ∧ 0 ≤ r1 ∧
        p1.m_header &&& fBOS ≠ 0 ∧ p1.m_header &&& fEOS = 0 ∧ p1.m_header &&& K.fDone ≠ 0 ∧
        p1.m_granule_pos = 0 ∧ s1.m_pos = 58 ∧
        OggStream.GetPacket s1 = some (res, some ident, s2) ∧ 1 ≤ res ∧ s2.m_packets = []) ↔
      ((0 ≤ (r.Read 26 1).1 ∧ byteAt (r.Read 26 1).2 0 = 1) ∧
        (0 ≤ (r.Read 27 1).1 ∧ byteAt (r.Read 27 1).2 0 = 30))) ∧
    (((0 ≤ (r.Read 26 1).1 ∧ byteAt (r.Read 26 1).2 0 = 1) ∧
        (0 ≤ (r.Read 27 1).1 ∧ byteAt (r.Read 27 1).2 0 = 30)) →
      (OggPage.Read K page r 0).2.2 = 58 ∧
      OggStream.ReadPage K (OggStream.new r) page =
        some (0, ⟨r, 58, [⟨[⟨28, 30⟩], 0⟩]⟩, drained (OggPage.Read K page r 0).2.1) ∧
      OggStream.GetPacket ⟨r, 58, [⟨[⟨28, 30⟩], 0⟩]⟩ =
        some (1, some ⟨[⟨28, 30⟩], 0⟩, ⟨r, 58, []⟩) ∧
      (OggStream.Init.check ⟨r, 58, []⟩ ⟨[⟨28, 30⟩], 0⟩ (vorbisTag 1) = true ↔
        ((r.Read 28 30).1 = 0 ∧ ((r.Read 28 30).2.take 7).map (· % 256) = vorbisTag 1))) := by
  have hA := accepts_of_nonneg K page r 0 hK.1 hdec
  rw [Read_of_accepts K page r 0 hA] at hbos heos hcont hg ⊢
  simp only [] at hbos heos hcont hg ⊢
  have hfwd : ((0 ≤ (r.Read 26 1).1 ∧ byteAt (r.Read 26 1).2 0 = 1) ∧
        (0 ≤ (r.Read 27 1).1 ∧ byteAt (r.Read 27 1).2 0 = 30)) →
      decodedEnd r 0 = 58 ∧
      OggStream.ReadPage K (OggStream.new r) page =
        some (0, ⟨r, 58, [⟨[⟨28, 30⟩], 0⟩]⟩, drained (decodedPage K r 0)) ∧
      (decodedPage K r 0).m_header &&& K.fDone ≠ 0 := by
    rintro ⟨h26, h27⟩
    obtain ⟨hd, hend, hhdr⟩ := decode_single_thirty K r h26 h27
    refine ⟨hend, ?_, ?_⟩
    · rw [ReadPage_fresh_single K r page hA hd hcont hg, hend]
    · rw [hhdr]
      apply fDone_bit_set K hK
      have := ReadInt_one_range r (0 + 5)
      omega
  have hget : OggStream.GetPacket ⟨r, 58, [⟨[⟨28, 30⟩], 0⟩]⟩ =
      some (1, some ⟨[⟨28, 30⟩], 0⟩, ⟨r, 58, []⟩) := rfl
  refine ⟨⟨?_, ?_⟩, ?_⟩
  · rintro ⟨r1, s1, p1, res, ident, s2, hrp, hr1, -, -, -, -, hpos, hgp, -, hempty⟩
    obtain ⟨-, d0, rest, q, dd, hD, hc, hm, he, -⟩ :=
      ReadPage_accepted K hK.1 (OggStream.new r) s1 page p1 r1 hrp hr1
    have hD2 : (decodedPage K r 0).m_descriptors = d0 :: rest := hD
    have hc2 : OggStream.ReadPage.continuation (decodedPage K r 0).m_header [] d0 rest
        = some (q, dd) := hc
    have he2 : s1.m_pos = decodedEnd r 0 := he
    rcases continuation_shape _ _ _ _ _ _ hc2 with ⟨-, hq, hdd⟩ | ⟨hf, -⟩
    · obtain ⟨-, hs1, hcomp, -⟩ := GetPacket_delivered s1 s2 res ident hgp
      rw [hempty] at hs1
      rw [hs1, push_eq, hq, hdd] at hm
      simp only [List.map_cons, List.map_nil, List.nil_append, List.cons.injEq, List.map_map]
        at hm
      obtain ⟨hid, hrest⟩ := hm
      have hrest2 : rest = [] := by
        cases rest with
        | nil => rfl
        | cons a t => simp at hrest
      subst hrest2
      have h0 : 0 ≤ d0.len := (complete_iff ident d0 (by rw [hid]; rfl)).mp hcomp
      obtain ⟨hN, hv⟩ := single_thirty_of_end K r d0 hA hD2 h0 (by rw [← he2, hpos])
      have e26 := (segmentCount_eq_byte r 0 1 (by decide)).mp hN
      have e27 := (lacingValue_eq_byte r 27 30 (by decide)).mp (by rw [hv]; rfl)
      simp only [zero_add, Nat.cast_one] at e26
      exact ⟨e26, e27⟩
    · exact absurd hcont hf
  · intro ht
    obtain ⟨hend, hrp, hdone⟩ := hfwd ht
    exact ⟨0, _, _, 1, _, _, hrp, le_refl _, hbos, heos, hdone, hg, rfl, hget, le_refl _, rfl⟩
  · intro ht
    obtain ⟨hend, hrp, -⟩ := hfwd ht
    refine ⟨hend, hrp, hget, ?_⟩
    simp only [OggStream.Init.check, vorbisTag, List.length_cons, List.length_nil,
      beq_iff_eq]
    have e30 : Int.toNat 30 = 30 := rfl
    rw [e30]
    norm_num

/-! ## The flag `fDone` and the flags byte on the wire -/

/-- In an accepted page whose segment table `vs` is read without error, the flag
`fDone` of the decoded header is set whenever the final lacing value is not 255;
when the header-flags byte on the wire has the `fDone` bit clear, the flag is set if
and only if the final lacing value is not 255; and when the header-flags byte is
read and has the `fDone` bit set, the flag is set whatever the final lacing value
is. -/
theorem done_flag_of_table (K : Consts) (page : OggPage) (r : IOggReader)
    (pos : Int) (vs : List Nat)
    (hK : K.Valid)
    (hacc : 0 ≤ (OggPage.Read K page r pos).1)
    (hcount : byteAt (r.Read (pos + 26) 1).2 0 = vs.length)
    (htable : ∀ i (hi : i < vs.length),
      0 ≤ (r.Read (pos + 27 + (i : Int)) 1).1 ∧
        byteAt (r.Read (pos + 27 + (i : Int)) 1).2 0 = vs[i]) :
    (vs.getLast? ≠ some 255 → (OggPage.Read K page r pos).2.1.m_header &&& K.fDone ≠ 0) ∧
    (byteAt (r.Read (pos + 5) 1).2 0 &&& K.fDone = 0 →
      ((OggPage.Read K page r pos).2.1.m_header &&& K.fDone ≠ 0 ↔ vs.getLast? ≠ some 255)) ∧
    (0 ≤ (r.Read (pos + 5) 1).1 → byteAt (r.Read (pos + 5) 1).2 0 &&& K.fDone ≠ 0 →
      (OggPage.Read K page r pos).2.1.m_header &&& K.fDone ≠ 0) := by
  have hA := accepts_of_nonneg K page r pos hK.1 hacc
  have hN : segmentCount r pos = vs.length := by
    have h3 := hA.2.2.2
    rw [ReadInt_one] at h3
    unfold segmentCount
    rw [ReadInt_one]
    split at h3
    · simp at h3
    · rename_i hr
      simp only [hr, if_false, Int.toNat_ofNat, hcount]
  have hb : byteAt (r.Read (pos + 5) 1).2 0 < 256 := Nat.mod_lt _ (by norm_num)
  have hlt : ((ReadInt r (pos + 5) 1).2 % 256).toNat < 256 := by
    rw [wireHeader_eq]; split <;> omega
  have hhdr : (decodedPage K r pos).m_header =
      if vs.getLast? = some 255 then ((ReadInt r (pos + 5) 1).2 % 256).toNat
      else (((ReadInt r (pos + 5) 1).2 % 256).toNat ||| K.fDone) % 256 := by
    unfold decodedPage
    simp only [hN, lacingValues_eq_asInts r (pos + 27) vs htable, asInts_getLast_255]
  rw [Read_of_accepts K page r pos hA]
  simp only [hhdr]
  refine ⟨?_, ?_, ?_⟩
  · intro hl
    rw [if_neg hl]
    exact fDone_bit_set K hK _ hlt
  · intro hw
    by_cases hl : vs.getLast? = some 255
    · rw [if_pos hl, wireHeader_eq]
      split
      · simp [hl]
      · simp [hl, hw]
    · rw [if_neg hl]
      simp only [ne_eq, hl, not_false_eq_true, iff_true]
      exact fDone_bit_set K hK _ hlt
  · intro hr hw
    by_cases hl : vs.getLast? = some 255
    · rw [if_pos hl, wireHeader_eq, if_neg (not_lt.mpr hr)]
      exact hw
    · rw [if_neg hl]
      exact fDone_bit_set K hK _ hlt

/-! ## C1 -/

/-- C1 (code bug): on `granuleOnePage` the decoder accepts the page, but the granule
position it stores is `0x0101010101010101` although bytes 6..13 encode 1, and the
serial number it stores is `0x02020202` although bytes 14..17 encode 258:
`ReadInt` reads the byte at `pos` in every iteration instead of the byte at
`pos + i`. -/
theorem C1_multibyte_fields_repeat_first_byte (K : Consts) (page : OggPage) :
    (OggPage.Read K page (memReader granuleOnePage) 0).1 = 0 ∧
    (OggPage.Read K page (memReader granuleOnePage) 0).2.1.m_granule_pos
      = 72340172838076673 ∧
    toInt64 (leValue (slice granuleOnePage 6 8)) = 1 ∧
    (OggPage.Read K page (memReader granuleOnePage) 0).2.1.m_serial_num = 33686018 ∧
    leValue (slice granuleOnePage 14 4) = 258 ∧
    (OggPage.Read K page (memReader granuleOnePage) 0).2.1.m_sequence_num = 50529027 ∧
    leValue (slice granuleOnePage 18 4) = 3 := by
  refine ⟨rfl, rfl, by decide, rfl, by decide, rfl, by decide⟩

/-! ## C2 -/

/-- C2: when `OggPage::Read` accepts a page whose segment table `vs` is read without
error, the table splits, in order, into runs `gs` (each a run of 255s closed by a
value below 255, except that the last one is an unclosed run of 255s when the final
value is 255) such that the i-th descriptor has absolute length the sum of the i-th
run; every descriptor but the last has non-negative length, and the last one is
negative exactly when the final lacing value is 255. -/
theorem C2_descriptors_split_table_at_values_below_255 (K : Consts) (page : OggPage)
    (r : IOggReader) (pos : Int) (vs : List Nat)
    (hK : K.E_FILE_FORMAT_INVALID < 0)
    (hacc : 0 ≤ (OggPage.Read K page r pos).1)
    (hcount : byteAt (r.Read (pos + 26) 1).2 0 = vs.length)
    (htable : ∀ i (hi : i < vs.length),
      0 ≤ (r.Read (pos + 27 + (i : Int)) 1).1 ∧
        byteAt (r.Read (pos + 27 + (i : Int)) 1).2 0 = vs[i]) :
    ∃ gs : List (List Nat),
      gs.flatten = vs ∧
      (∀ g ∈ gs.dropLast, ClosedRun g) ∧
      (∀ g, gs.getLast? = some g →
        (vs.getLast? ≠ some 255 → ClosedRun g) ∧ (vs.getLast? = some 255 → OpenRun g)) ∧
      (OggPage.Read K page r pos).2.1.m_descriptors.map (fun d => d.len.natAbs)
        = gs.map List.sum ∧
      (∀ d ∈ (OggPage.Read K page r pos).2.1.m_descriptors.dropLast, 0 ≤ d.len) ∧
      (∀ d, (OggPage.Read K page r pos).2.1.m_descriptors.getLast? = some d →
        (d.len < 0 ↔ vs.getLast? = some 255)) := by
  have hA := accepts_of_nonneg K page r pos hK hacc
  have hN : segmentCount r pos = vs.length := by
    have h3 := hA.2.2.2
    rw [ReadInt_one] at h3
    unfold segmentCount
    rw [ReadInt_one]
    split at h3
    · simp at h3
    · rename_i hr
      simp only [hr, if_false, Int.toNat_ofNat, hcount]
  have hne : vs ≠ [] := by
    intro h
    have h3 := hA.2.2.2
    have : (ReadInt r (pos + 26) 1).2.toNat = 0 := by
      have := hN; unfold segmentCount at this; rw [this, h]; rfl
    omega
  have hb : ∀ v ∈ vs, v ≤ 255 := by
    intro v hv
    obtain ⟨i, hi, rfl⟩ := List.getElem_of_mem hv
    rw [← (htable i hi).2]
    have : byteAt (r.Read (pos + 27 + (i : Int)) 1).2 0 < 256 := Nat.mod_lt _ (by norm_num)
    omega
  have hraw : rawDescriptors r pos = laceDescs (255 * ((0 : Nat) : Int)) (asInts vs) := by
    unfold rawDescriptors
    rw [hN, lacingValues_eq_asInts r (pos + 27) vs htable]
    simp
  obtain ⟨gs, h1, h2, h3, h4, h5, h6⟩ := laceDescs_groups vs hne hb 0
  rw [← hraw] at h4 h5 h6
  rw [Read_of_accepts K page r pos hA]
  have hlen := assign_map_len (rawDescriptors r pos) (pos + 27 + (segmentCount r pos : Int))
  refine ⟨gs, by simpa using h1, h2, h3, ?_, ?_, ?_⟩
  · have : (decodedPage K r pos).m_descriptors.map (fun d => d.len.natAbs)
        = ((decodedPage K r pos).m_descriptors.map (fun d => d.len)).map Int.natAbs := by
      simp
    show (decodedPage K r pos).m_descriptors.map (fun d => d.len.natAbs) = _
    rw [this]
    unfold decodedPage
    simp only [hlen]
    rw [← h4]; simp
  · intro d hd
    have hm : d.len ∈ ((decodedPage K r pos).m_descriptors.map (fun d => d.len)).dropLast := by
      rw [← List.map_dropLast]; exact List.mem_map_of_mem _ hd
    unfold decodedPage at hm
    simp only [hlen] at hm
    rw [← List.map_dropLast] at hm
    obtain ⟨e, he, hee⟩ := List.mem_map.mp hm
    rw [← hee]; exact h5 e he
  · intro d hd
    have hm : ((decodedPage K r pos).m_descriptors.map (fun d => d.len)).getLast? = some d.len := by
      rw [List.getLast?_map]
      show Option.map _ ((decodedPage K r pos).m_descriptors.getLast?) = _
      rw [show (decodedPage K r pos).m_descriptors.getLast? = some d from hd]; rfl
    unfold decodedPage at hm
    simp only [hlen] at hm
    rw [List.getLast?_map] at hm
    cases hq : (rawDescriptors r pos).getLast? with
    | none => rw [hq] at hm; simp at hm
    | some e =>
      rw [hq] at hm
      simp only [Option.map_some', Option.some.injEq] at hm
      rw [← hm]; exact h6 e hq

/-- Witness of C2 on `lacedHeader`, whose table is `[255, 255, 3, 0, 255]`. -/
theorem C2_descriptors_split_table_witness :
    (OggPage.Read sampleK blankPage (memReader lacedHeader) 0).2.1.m_descriptors
        = [⟨32, 513⟩, ⟨545, 0⟩, ⟨545, -255⟩] ∧
    ∃ gs : List (List Nat),
      gs.flatten = lacedTable ∧
      (∀ g ∈ gs.dropLast, ClosedRun g) ∧
      (∀ g, gs.getLast? = some g →
        (lacedTable.getLast? ≠ some 255 → ClosedRun g) ∧
          (lacedTable.getLast? = some 255 → OpenRun g)) ∧
      (OggPage.Read sampleK blankPage (memReader lacedHeader) 0).2.1.m_descriptors.map
        (fun d => d.len.natAbs) = gs.map List.sum ∧
      (∀ d ∈ (OggPage.Read sampleK blankPage (memReader lacedHeader) 0).2.1.m_descriptors.dropLast,
        0 ≤ d.len) ∧
      (∀ d, (OggPage.Read sampleK blankPage (memReader lacedHeader) 0).2.1.m_descriptors.getLast?
          = some d → (d.len < 0 ↔ lacedTable.getLast? = some 255)) :=
  ⟨by decide,
    C2_descriptors_split_table_at_values_below_255 sampleK blankPage (memReader lacedHeader) 0
      lacedTable (by decide) (by decide) (by decide) (by decide)⟩

/-! ## C3 -/

/-- C3: when the page decodes and its continuation flag disagrees with the pending
queue (flag set while the queue is empty or its last packet ends in a complete
descriptor; flag clear while the last packet ends in an incomplete descriptor),
`OggStream::ReadPage` returns `E_FILE_FORMAT_INVALID`; the queue is left as it
was and the cursor is past the page. -/
theorem C3_continuation_mismatch_is_format_invalid (K : Consts) (s : OggStream) (page : OggPage)
    (hK : K.E_FILE_FORMAT_INVALID < 0)
    (hdec : 0 ≤ (OggPage.Read K page s.m_pReader s.m_pos).1)
    (hmis :
      ((OggPage.Read K page s.m_pReader s.m_pos).2.1.m_header &&& fContinued ≠ 0 ∧
        (s.m_packets = [] ∨ ∃ pkt d, s.m_packets.getLast? = some pkt ∧
          pkt.descriptors.getLast? = some d ∧ 0 ≤ d.len)) ∨
      ((OggPage.Read K page s.m_pReader s.m_pos).2.1.m_header &&& fContinued = 0 ∧
        ∃ pkt d, s.m_packets.getLast? = some pkt ∧
          pkt.descriptors.getLast? = some d ∧ d.len < 0)) :
    OggStream.ReadPage K s page =
      some (K.E_FILE_FORMAT_INVALID,
        { s with m_pos := (OggPage.Read K page s.m_pReader s.m_pos).2.2 },
        (OggPage.Read K page s.m_pReader s.m_pos).2.1) := by
  have hA := accepts_of_nonneg K page s.m_pReader s.m_pos hK hdec
  rw [Read_of_accepts K page s.m_pReader s.m_pos hA] at hmis ⊢
  obtain ⟨d0, rest, hd⟩ := List.exists_cons_of_ne_nil
    (decodedPage_descriptors_ne_nil K s.m_pReader s.m_pos hA)
  rw [ReadPage_of_accepts K s page d0 rest hA hd]
  have hc : OggStream.ReadPage.continuation (decodedPage K s.m_pReader s.m_pos).m_header
      s.m_packets d0 rest = none := by
    unfold OggStream.ReadPage.continuation
    rcases hmis with ⟨hf, hq | ⟨pkt, d, h1, h2, h3⟩⟩ | ⟨hf, pkt, d, h1, h2, h3⟩
    · simp only [hf, hq, ne_eq, not_false_eq_true, if_true, List.getLast?_nil]
    · simp only [hf, h1, h2, ne_eq, not_false_eq_true, if_true, ge_iff_le, h3]
    · simp only [hf, h1, h2, ne_eq, not_true_eq_false, if_false, h3, if_true]
  rw [hc]

/-- Witness of C3: a page with the continuation flag set, read into an empty queue. -/
theorem C3_continuation_mismatch_witness :
    (OggPage.Read sampleK blankPage (memReader continuedHeader) 0).2.1.m_header &&& fContinued ≠ 0 ∧
    OggStream.ReadPage sampleK (OggStream.new (memReader continuedHeader)) blankPage =
      some (sampleK.E_FILE_FORMAT_INVALID,
        { OggStream.new (memReader continuedHeader) with
          m_pos := (OggPage.Read sampleK blankPage (memReader continuedHeader) 0).2.2 },
        (OggPage.Read sampleK blankPage (memReader continuedHeader) 0).2.1) :=
  ⟨by decide,
    C3_continuation_mismatch_is_format_invalid sampleK (OggStream.new (memReader continuedHeader))
      blankPage (by decide) (by decide) (Or.inl ⟨by decide, Or.inl rfl⟩)⟩

/-! ## C4 -/

/-- C4: in a reachable state, when the page decodes with granule position `g >= 0`
and passes the continuation check (lines 554-589 leave the queue `q` and the page
descriptors `dd`), `OggStream::ReadPage` does what the granule rule of the spec
says on the queue `push q dd` it has built: the first packet from the newest whose
last descriptor is complete and lies beyond the start of the page gets `g`, nothing
else changes, and the call returns 0; when there is no such packet the call returns
`E_FILE_FORMAT_INVALID`. -/
theorem C4_granule_goes_to_first_packet_finished_on_page (K : Consts) (r : IOggReader)
    (s : OggStream) (page : OggPage) (d0 : Descriptor) (rest : List Descriptor)
    (q : List Packet) (dd : List Descriptor)
    (hK : K.E_FILE_FORMAT_INVALID < 0)
    (hR : Reachable K r s)
    (hdec : 0 ≤ (OggPage.Read K page s.m_pReader s.m_pos).1)
    (hg : 0 ≤ (OggPage.Read K page s.m_pReader s.m_pos).2.1.m_granule_pos)
    (hd : (OggPage.Read K page s.m_pReader s.m_pos).2.1.m_descriptors = d0 :: rest)
    (hc : OggStream.ReadPage.continuation
      (OggPage.Read K page s.m_pReader s.m_pos).2.1.m_header s.m_packets d0 rest = some (q, dd)) :
    OggStream.ReadPage K s page =
      match assignGranuleSpec s.m_pos (OggPage.Read K page s.m_pReader s.m_pos).2.1.m_granule_pos
          (OggStream.ReadPage.push q dd).reverse with
      | some l =>
        some (0,
          { s with m_pos := (OggPage.Read K page s.m_pReader s.m_pos).2.2,
                   m_packets := l.reverse },
          { (OggPage.Read K page s.m_pReader s.m_pos).2.1 with m_descriptors := [] })
      | none =>
        some (K.E_FILE_FORMAT_INVALID,
          { s with m_pos := (OggPage.Read K page s.m_pReader s.m_pos).2.2,
                   m_packets := OggStream.ReadPage.push q dd },
          { (OggPage.Read K page s.m_pReader s.m_pos).2.1 with m_descriptors := [] }) := by
  have hInv := (reachable_inv K hK r s hR).1
  have hA := accepts_of_nonneg K page s.m_pReader s.m_pos hK hdec
  rw [Read_of_accepts K page s.m_pReader s.m_pos hA] at hg hd hc ⊢
  simp only [] at hg hd hc ⊢
  have hI := continuation_ingested K s d0 rest q dd hInv hA hd hc
  rw [ReadPage_of_accepts K s page d0 rest hA hd, hc]
  simp only []
  rw [resolve_of_ingested K s.m_pos _ _ s.m_packets hI]
  simp only [not_lt.mpr hg, if_false]

/-- Witness of C4: the first page of a stream, granule position 0, one complete
descriptor; its packet receives the granule position. -/
theorem C4_granule_witness :
    (OggStream.ReadPage sampleK (OggStream.new (memReader identHeader)) blankPage).map
      (fun x => (x.1, x.2.1.m_pos, x.2.1.m_packets)) = some (0, 58, [⟨[⟨28, 30⟩], 0⟩]) := by
  rw [C4_granule_goes_to_first_packet_finished_on_page sampleK (memReader identHeader)
    (OggStream.new (memReader identHeader)) blankPage ⟨28, 30⟩ [] [] [⟨28, 30⟩]
    (by decide) Reachable.fresh (by decide) (by decide) (by decide) (by decide)]
  rfl

/-! ## C5 -/

/-- C5 (amended): two consecutive pages accepted by `ReadPage`, the first with final
lacing value 255, the second with the continuation flag set and a complete first
descriptor `d0`.  After the first page the last packet `P` of the queue is
incomplete and `GetPacket` does not deliver it.  After the second page the packet at
the same place is complete, its descriptors are those of `P` with the last length
made positive followed by `d0`, and the packets behind it come from the remaining
descriptors of the second page only.  When the packet began on the first page (its
continuation flag is clear or it has two or more descriptors), the sum of the
packet's descriptor lengths is the sum of the trailing run of 255s of the first
table plus the sum of the first run of the second table. -/
theorem C5_packet_continued_on_next_page (K : Consts) (s s1 s2 : OggStream)
    (pg pgb pg1 pg2 : OggPage) (r1 r2 : Int) (vs1 vs2 : List Nat)
    (d0 : Descriptor) (rest : List Descriptor)
    (hK : K.E_FILE_FORMAT_INVALID < 0)
    (h1 : OggStream.ReadPage K s pg = some (r1, s1, pg1)) (hr1 : 0 ≤ r1)
    (h2 : OggStream.ReadPage K s1 pgb = some (r2, s2, pg2)) (hr2 : 0 ≤ r2)
    (hcount1 : byteAt (s.m_pReader.Read (s.m_pos + 26) 1).2 0 = vs1.length)
    (htable1 : ∀ i (hi : i < vs1.length),
      0 ≤ (s.m_pReader.Read (s.m_pos + 27 + (i : Int)) 1).1 ∧
        byteAt (s.m_pReader.Read (s.m_pos + 27 + (i : Int)) 1).2 0 = vs1[i])
    (hlast1 : vs1.getLast? = some 255)
    (hcount2 : byteAt (s1.m_pReader.Read (s1.m_pos + 26) 1).2 0 = vs2.length)
    (htable2 : ∀ i (hi : i < vs2.length),
      0 ≤ (s1.m_pReader.Read (s1.m_pos + 27 + (i : Int)) 1).1 ∧
        byteAt (s1.m_pReader.Read (s1.m_pos + 27 + (i : Int)) 1).2 0 = vs2[i])
    (hflag2 : (OggPage.Read K pgb s1.m_pReader s1.m_pos).2.1.m_header &&& fContinued ≠ 0)
    (hd2 : (OggPage.Read K pgb s1.m_pReader s1.m_pos).2.1.m_descriptors = d0 :: rest)
    (hfirst2 : 0 ≤ d0.len) :
    ∃ init P, s1.m_packets = init ++ [P] ∧ P.Incomplete ∧
      (∀ res s3, OggStream.GetPacket s1 ≠ some (res, some P, s3)) ∧
      ∃ init2 P2 tail, s2.m_packets = init2 ++ [P2] ++ tail ∧ init2.length = init.length ∧
        P2.Complete ∧
        P2.descriptors = modifyBack (fun d => { d with len := |d.len| }) P.descriptors ++ [d0] ∧
        tail.map (fun p => p.descriptors) = rest.map (fun d => [d]) ∧
        ((OggPage.Read K pg s.m_pReader s.m_pos).2.1.m_header &&& fContinued = 0 ∨
            2 ≤ (OggPage.Read K pg s.m_pReader s.m_pos).2.1.m_descriptors.length →
          ∃ (pre1 : List Nat) (k j t : Nat) (post2 : List Nat),
            vs1 = pre1 ++ List.replicate (k + 1) 255 ∧
            (pre1 = [] ∨ ∃ u, u < 255 ∧ pre1.getLast? = some u) ∧
            vs2 = List.replicate j 255 ++ t :: post2 ∧ t < 255 ∧
            (P2.descriptors.map (fun d => d.len)).sum
              = 255 * ((k + 1 : Nat) : Int) + (255 * (j : Int) + (t : Int))) := by
  -- the first page
  obtain ⟨hA1, d01, rest1, q1, dd1, hD1, hc1, hm1, -, -⟩ :=
    ReadPage_accepted K hK s s1 pg pg1 r1 h1 hr1
  obtain ⟨ini, P0, dl, hpush, hdl, hPl, hPsingle⟩ := continuation_push_last _ _ _ _ _ _ hc1
  rw [hpush] at hm1
  obtain ⟨init, P, hs1, -, hPd⟩ := map_descriptors_concat s1.m_packets ini P0 hm1
  obtain ⟨hraw1, hne1, hb1⟩ := rawDescriptors_of_table s.m_pReader s.m_pos vs1 hA1 hcount1 htable1
  obtain ⟨pre1, k, hvs1, hpre1, hk⟩ := table_last_run vs1 hne1 hb1 hlast1
  have hdlen : dl.len = -(255 * ((k + 1 : Nat) : Int)) := by
    apply hk
    rw [← hraw1, ← decodedPage_lens K, hD1, List.getLast?_map, hdl]
    rfl
  have hPlast : P.descriptors.getLast? = some dl := by rw [hPd]; exact hPl
  have hPinc : P.Incomplete := (incomplete_iff P dl hPlast).mpr (by rw [hdlen]; omega)
  refine ⟨init, P, hs1, hPinc, GetPacket_not_incomplete s1 P hPinc, ?_⟩
  -- the second page
  obtain ⟨hA2, d02, rest2, q2, dd2, hD2, hc2, hm2, -, -⟩ :=
    ReadPage_accepted K hK s1 s2 pgb pg2 r2 h2 hr2
  rw [Read_of_accepts K pgb s1.m_pReader s1.m_pos hA2] at hflag2 hd2
  simp only [] at hflag2 hd2
  rw [hd2] at hD2
  simp only [List.cons.injEq] at hD2
  obtain ⟨hd02, hrest2⟩ := hD2
  rw [← hd02, ← hrest2] at hc2
  rcases continuation_shape _ _ _ _ _ _ hc2 with ⟨hf, -, -⟩ | ⟨_, init3, pkt, x, hold, hq2, hdd2, hx⟩
  · exact absurd hf hflag2
  rw [hs1] at hold
  obtain ⟨hi3, hp3⟩ := List.append_inj' hold rfl
  simp only [List.cons.injEq, and_true] at hp3
  subst hi3 hp3
  obtain ⟨-, hxe⟩ := hx dl hPlast
  subst hq2 hxe
  rw [hdd2, push_eq] at hm2
  obtain ⟨init2, P2, tail, hs2, hl2, hP2d, htail⟩ := map_descriptors_split _ _ _ _ hm2
  simp only [] at hP2d
  have hP2last : P2.descriptors.getLast? = some d0 := by
    rw [hP2d, List.getLast?_concat]
  refine ⟨init2, P2, tail, hs2, hl2, (complete_iff P2 d0 hP2last).mpr hfirst2, hP2d, ?_, ?_⟩
  · rw [htail, List.map_map]; rfl
  · intro hbeg
    rw [Read_of_accepts K pg s.m_pReader s.m_pos hA1] at hbeg
    simp only [] at hbeg
    have hsingle : P.descriptors = [dl] := by
      rw [hPd]
      apply hPsingle
      rcases hbeg with h | h
      · exact Or.inl h
      · right
        rw [hD1] at h
        intro hr
        rw [hr] at h
        simp at h
    obtain ⟨hraw2, hne2, hb2⟩ :=
      rawDescriptors_of_table s1.m_pReader s1.m_pos vs2 hA2 hcount2 htable2
    have hl0 : (laceDescs 0 (asInts vs2)).map (fun d => d.len)
        = d0.len :: rest.map (fun d => d.len) := by
      rw [← hraw2, ← decodedPage_lens K, hd2]; rfl
    obtain ⟨j, t, post2, hvs2, ht, hjt⟩ := table_first_run vs2 hne2 hb2 _ _ hl0 hfirst2
    refine ⟨pre1, k, j, t, post2, hvs1, hpre1, hvs2, ht, ?_⟩
    rw [hP2d, hsingle]
    simp only [modifyBack, List.cons_append, List.nil_append, List.map_cons, List.map_nil,
      List.sum_cons, List.sum_nil, hdlen, hjt]
    rw [abs_neg, abs_of_nonneg (by positivity)]
    ring

set_option maxRecDepth 100000 in
/-- C5 (counterexample): `threePages` holds one packet on three pages.  Its second
and third page are consecutive and both accepted by `ReadPage`; the second ends
with lacing value 255, the third has the continuation flag set and a complete first
descriptor.  After the third page the packet has descriptor lengths 255, 255, 7,
whose sum 517 is not the sum 255 + 7 of the lacing values of these two pages. -/
theorem C5_counterexample_packet_began_earlier :
    OggStream.ReadPage sampleK (OggStream.new (memReader threePages)) blankPage =
      some (0, afterFirstOfThree,
        drained (OggPage.Read sampleK blankPage (memReader threePages) 0).2.1) ∧
    OggStream.ReadPage sampleK afterFirstOfThree blankPage =
      some (0, afterSecondOfThree,
        drained (OggPage.Read sampleK blankPage (memReader threePages) 283).2.1) ∧
    OggStream.ReadPage sampleK afterSecondOfThree blankPage =
      some (0, afterThirdOfThree,
        drained (OggPage.Read sampleK blankPage (memReader threePages) 566).2.1) ∧
    slice threePages (283 + 26) 2 = [1, 255] ∧
    slice threePages (566 + 26) 2 = [1, 7] ∧
    (OggPage.Read sampleK blankPage (memReader threePages) 566).2.1.m_header &&& fContinued ≠ 0 ∧
    (OggPage.Read sampleK blankPage (memReader threePages) 566).2.1.m_descriptors = [⟨594, 7⟩] ∧
    afterThirdOfThree.m_packets.map (fun p => (p.descriptors.map fun d => d.len).sum) = [517] ∧
    (517 : Int) ≠ 255 + 7 := by
  refine ⟨rfl, rfl, rfl, by decide, by decide, by decide, by decide, by decide, by decide⟩

set_option maxRecDepth 100000 in
/-- Witness of C5 on `twoPages`: the packet begins on the first page (table `[255]`)
and ends on the second (table `[7]`); its descriptor lengths 255 and 7 add up to
262. -/
theorem C5_packet_continued_on_next_page_witness :
    (afterSecondOfTwo.m_packets.map fun p => p.descriptors.map fun d => d.len) = [[255, 7]] ∧
    ∃ init P, afterFirstOfTwo.m_packets = init ++ [P] ∧ P.Incomplete ∧
      (∀ res s3, OggStream.GetPacket afterFirstOfTwo ≠ some (res, some P, s3)) ∧
      ∃ init2 P2 tail, afterSecondOfTwo.m_packets = init2 ++ [P2] ++ tail ∧
        init2.length = init.length ∧ P2.Complete ∧
        P2.descriptors =
          modifyBack (fun d => { d with len := |d.len| }) P.descriptors ++ [⟨311, 7⟩] ∧
        tail.map (fun p => p.descriptors) = ([] : List Descriptor).map (fun d => [d]) ∧
        ((OggPage.Read sampleK blankPage (OggStream.new (memReader twoPages)).m_pReader
              (OggStream.new (memReader twoPages)).m_pos).2.1.m_header &&& fContinued = 0 ∨
            2 ≤ (OggPage.Read sampleK blankPage (OggStream.new (memReader twoPages)).m_pReader
              (OggStream.new (memReader twoPages)).m_pos).2.1.m_descriptors.length →
          ∃ (pre1 : List Nat) (k j t : Nat) (post2 : List Nat),
            [255] = pre1 ++ List.replicate (k + 1) 255 ∧
            (pre1 = [] ∨ ∃ u, u < 255 ∧ pre1.getLast? = some u) ∧
            [7] = List.replicate j 255 ++ t :: post2 ∧ t < 255 ∧
            (P2.descriptors.map (fun d => d.len)).sum
              = 255 * ((k + 1 : Nat) : Int) + (255 * (j : Int) + (t : Int))) :=
  ⟨rfl,
    C5_packet_continued_on_next_page sampleK (OggStream.new (memReader twoPages))
      afterFirstOfTwo afterSecondOfTwo blankPage blankPage
      (drained (OggPage.Read sampleK blankPage (memReader twoPages) 0).2.1)
      (drained (OggPage.Read sampleK blankPage (memReader twoPages) 283).2.1)
      0 0 [255] [7] ⟨311, 7⟩ [] (by decide) rfl (by decide) rfl (by decide)
      (by decide) (by decide) (by decide) (by decide) (by decide) (by decide) (by decide)
      (by decide)⟩

/-! ## C6 -/

/-- C6: in every state reachable from a freshly constructed demuxer by calls of
`ReadPage` (whatever they return) and `GetPacket`, every packet of the pending queue
other than the last one is complete. -/
theorem C6_only_last_packet_incomplete (K : Consts) (r : IOggReader) (s : OggStream)
    (hK : K.E_FILE_FORMAT_INVALID < 0) (hR : Reachable K r s) :
    ∀ pkt ∈ s.m_packets.dropLast, pkt.Complete :=
  (reachable_inv K hK r s hR).1.complete

/-- Witness of C6: the state after a page with segment table `[255, 255, 3, 0, 255]`;
the queue holds two complete packets and an incomplete last one. -/
theorem C6_only_last_packet_incomplete_witness :
    (∃ pkt, lacedState.m_packets.getLast? = some pkt ∧ pkt.Incomplete) ∧
    ∀ pkt ∈ lacedState.m_packets.dropLast, pkt.Complete :=
  ⟨⟨_, rfl, by decide⟩,
    C6_only_last_packet_incomplete sampleK (memReader lacedHeader) lacedState (by decide)
      lacedState_reachable⟩

/-! ## C7 -/

/-- C7: in every reachable state each queued packet has granule position -1 or a
non-negative one; `ReadPage` returns (no `assert` fails, in particular not
`assert(pkt.granule_pos < 0)`) and leaves every queued packet whose granule position
is non-negative exactly as it was, at the same place in the queue; and `GetPacket`
returns and only removes the front packet or nothing. -/
theorem C7_assigned_granule_never_changes (K : Consts) (r : IOggReader) (s : OggStream)
    (hK : K.E_FILE_FORMAT_INVALID < 0) (hR : Reachable K r s) :
    (∀ pkt ∈ s.m_packets, pkt.granule_pos = -1 ∨ 0 ≤ pkt.granule_pos) ∧
    (∀ page, ∃ res s2 page2, OggStream.ReadPage K s page = some (res, s2, page2) ∧
      ∀ i (hi : i < s.m_packets.length), 0 ≤ (s.m_packets[i]).granule_pos →
        s2.m_packets[i]? = some s.m_packets[i]) ∧
    (∃ res out s2, OggStream.GetPacket s = some (res, out, s2) ∧
      (s2.m_packets = s.m_packets ∨ ∃ pkt, s.m_packets = pkt :: s2.m_packets)) := by
  have hInv := (reachable_inv K hK r s hR).1
  refine ⟨?_, ?_, ?_⟩
  · intro pkt hp
    rcases hInv.granule pkt hp with h | h
    · exact Or.inl h
    · exact Or.inr h.1
  · intro page
    obtain ⟨res, s2, page2, h1, _, _, _, h5⟩ := ReadPage_step K hK s page hInv
    exact ⟨res, s2, page2, h1, h5⟩
  · obtain ⟨res, out, s2, h1, _, _, _, h5⟩ := GetPacket_step s hInv
    refine ⟨res, out, s2, h1, ?_⟩
    rcases h5 with ⟨_, _, h⟩ | ⟨_, pkt, _, _, h⟩
    · exact Or.inl (by rw [h])
    · exact Or.inr ⟨pkt, h⟩

/-- Witness of C7: the state after the first page of a stream, whose packet has
granule position 0. -/
theorem C7_assigned_granule_never_changes_witness :
    (identState.m_packets.map fun p => p.granule_pos) = [0] ∧
    ((∀ pkt ∈ identState.m_packets, pkt.granule_pos = -1 ∨ 0 ≤ pkt.granule_pos) ∧
    (∀ page, ∃ res s2 page2, OggStream.ReadPage sampleK identState page = some (res, s2, page2) ∧
      ∀ i (hi : i < identState.m_packets.length), 0 ≤ (identState.m_packets[i]).granule_pos →
        s2.m_packets[i]? = some identState.m_packets[i]) ∧
    (∃ res out s2, OggStream.GetPacket identState = some (res, out, s2) ∧
      (s2.m_packets = identState.m_packets ∨
        ∃ pkt, identState.m_packets = pkt :: s2.m_packets))) :=
  ⟨rfl, C7_assigned_granule_never_changes sampleK (memReader identHeader) identState (by decide)
    identState_reachable⟩

/-! ## C8 -/

/-- C8: `GetPacket` returns 0, delivers nothing and leaves the stream (queue and
cursor) as it is when the queue is empty or its front packet is incomplete, so that
a second call does the same; when the front packet is complete it returns 1,
delivers the front packet, and the queue becomes its tail. -/
theorem C8_get_packet (s : OggStream) :
    (s.m_packets = [] ∨ (∃ pkt t, s.m_packets = pkt :: t ∧ pkt.Incomplete) →
      OggStream.GetPacket s = some (0, none, s)) ∧
    (∀ pkt t, s.m_packets = pkt :: t → pkt.Complete →
      OggStream.GetPacket s = some (1, some pkt, { s with m_packets := t })) := by
  constructor
  · rintro (h | ⟨pkt, t, h, hi⟩)
    · unfold OggStream.GetPacket; rw [h]
    · unfold OggStream.GetPacket; rw [h]
      unfold Packet.Incomplete at hi
      cases hq : pkt.descriptors.getLast? with
      | none => rw [hq] at hi; exact absurd hi (by simp)
      | some d =>
        rw [hq] at hi
        have hi2 : d.len < 0 := hi
        simp only [hq, hi2, if_true]
  · intro pkt t h hc
    unfold OggStream.GetPacket; rw [h]
    unfold Packet.Complete at hc
    cases hq : pkt.descriptors.getLast? with
    | none => rw [hq] at hc; exact absurd hc (by simp)
    | some d =>
      rw [hq] at hc
      have hc2 : ¬ d.len < 0 := not_lt.mpr hc
      simp only [hq, hc2, if_false]

/-- Witness of C8: on the queue of `lacedState` the first call delivers the complete
front packet; on a queue holding only an incomplete packet nothing is delivered. -/
theorem C8_get_packet_witness :
    OggStream.GetPacket lacedState =
      some (1, some ⟨[⟨32, 513⟩], -1⟩,
        { lacedState with m_packets := [⟨[⟨545, 0⟩], -1⟩, ⟨[⟨545, -255⟩], -1⟩] }) ∧
    OggStream.GetPacket { lacedState with m_packets := [⟨[⟨545, -255⟩], -1⟩] } =
      some (0, none, { lacedState with m_packets := [⟨[⟨545, -255⟩], -1⟩] }) :=
  ⟨(C8_get_packet lacedState).2 _ _ rfl (by decide),
    (C8_get_packet { lacedState with m_packets := [⟨[⟨545, -255⟩], -1⟩] }).1
      (Or.inr ⟨_, _, rfl, by decide⟩)⟩

/-! ## C9 -/

/-- C9 (code bug): when the source ends right after the capture pattern every later
read fails, yet `OggPage::Read` reports `E_FILE_FORMAT_INVALID`; when the source
ends right after the segment count the read of the lacing value fails, yet
`OggPage::Read` returns 0 with a descriptor of length 0. -/
theorem C9_read_failure_not_reported (K : Consts) (page : OggPage) :
    (captureOnly.length = 4 ∧ ((memReader captureOnly).Read 4 1).1 < 0 ∧
      (OggPage.Read K page (memReader captureOnly) 0).1 = K.E_FILE_FORMAT_INVALID) ∧
    (((memReader missingLacing).Read 27 1).1 < 0 ∧
      (OggPage.Read K page (memReader missingLacing) 0).1 = 0 ∧
      (OggPage.Read K page (memReader missingLacing) 0).2.1.m_descriptors = [⟨28, 0⟩]) := by
  refine ⟨⟨rfl, by decide, rfl⟩, by decide, rfl, rfl⟩

/-! ## C10 -/

/-- C10: `OggStream::Init` returns a non-negative result only if its first
`ReadPage` succeeded and left a page with BOS set, EOS clear, `fDone` set and
granule position 0, and the cursor at 58; and when the first `ReadPage` succeeds
but one of these fails, `Init` returns `E_FILE_FORMAT_INVALID` with the stream
exactly as that `ReadPage` left it, so that no packet has been taken. -/
theorem C10_bootstrap_first_page_checks (K : Consts) (fuel : Nat) (s : OggStream)
    (page : OggPage) (hK : K.E_FILE_FORMAT_INVALID < 0) :
    (∀ res s2, OggStream.Init K fuel s page = Run.done (res, s2) → 0 ≤ res →
      ∃ r1 s1 p1, OggStream.ReadPage K s page = some (r1, s1, p1) ∧ 0 ≤ r1 ∧
        p1.m_header &&& fBOS ≠ 0 ∧ p1.m_header &&& fEOS = 0 ∧ p1.m_header &&& K.fDone ≠ 0 ∧
        p1.m_granule_pos = 0 ∧ s1.m_pos = 58) ∧
    (∀ r1 s1 p1, OggStream.ReadPage K s page = some (r1, s1, p1) → 0 ≤ r1 →
      (p1.m_header &&& fBOS = 0 ∨ p1.m_header &&& fEOS ≠ 0 ∨ p1.m_header &&& K.fDone = 0 ∨
        p1.m_granule_pos ≠ 0 ∨ s1.m_pos ≠ 58) →
      OggStream.Init K fuel s page = Run.done (K.E_FILE_FORMAT_INVALID, s1)) := by
  constructor
  · intro res s2 hI hres
    unfold OggStream.Init at hI
    cases hrp : OggStream.ReadPage K s page with
    | none => rw [hrp] at hI; exact absurd hI (by simp)
    | some x =>
      obtain ⟨r1, s1, p1⟩ := x
      rw [hrp] at hI
      simp only [] at hI
      have hbad : ∀ t : OggStream, Run.done (K.E_FILE_FORMAT_INVALID, t) ≠ Run.done (res, s2) := by
        intro t h
        simp only [Run.done.injEq, Prod.mk.injEq] at h
        omega
      by_cases h0 : r1 < 0
      · rw [if_pos h0] at hI
        simp only [Run.done.injEq, Prod.mk.injEq] at hI
        omega
      rw [if_neg h0] at hI
      by_cases h1 : p1.m_header &&& fBOS = 0
      · rw [if_pos h1] at hI; exact absurd hI (hbad _)
      rw [if_neg h1] at hI
      by_cases h2 : p1.m_header &&& fEOS ≠ 0
      · rw [if_pos h2] at hI; exact absurd hI (hbad _)
      rw [if_neg h2] at hI
      by_cases h3 : p1.m_header &&& K.fDone = 0
      · rw [if_pos h3] at hI; exact absurd hI (hbad _)
      rw [if_neg h3] at hI
      by_cases h4 : p1.m_granule_pos ≠ 0
      · rw [if_pos h4] at hI; exact absurd hI (hbad _)
      rw [if_neg h4] at hI
      by_cases h5 : s1.m_pos ≠ 58
      · rw [if_pos h5] at hI; exact absurd hI (hbad _)
      exact ⟨r1, s1, p1, rfl, not_lt.mp h0, h1, not_not.mp h2, h3, not_not.mp h4,
        not_not.mp h5⟩
  · intro r1 s1 p1 hrp hr1 hbad
    unfold OggStream.Init
    rw [hrp]
    simp only []
    rw [if_neg (not_lt.mpr hr1)]
    by_cases h1 : p1.m_header &&& fBOS = 0
    · rw [if_pos h1]
    rw [if_neg h1]
    by_cases h2 : p1.m_header &&& fEOS ≠ 0
    · rw [if_pos h2]
    rw [if_neg h2]
    by_cases h3 : p1.m_header &&& K.fDone = 0
    · rw [if_pos h3]
    rw [if_neg h3]
    by_cases h4 : p1.m_granule_pos ≠ 0
    · rw [if_pos h4]
    rw [if_neg h4]
    by_cases h5 : s1.m_pos ≠ 58
    · rw [if_pos h5]
    rcases hbad with h | h | h | h | h
    · exact absurd h h1
    · exact absurd h h2
    · exact absurd h h3
    · exact absurd h h4
    · exact absurd h h5

/-- Witness of C10: a 58-byte first page without the BOS flag is accepted by
`ReadPage`, and `Init` returns `E_FILE_FORMAT_INVALID` with the identification
packet still in the queue. -/
theorem C10_bootstrap_first_page_checks_witness :
    noBosState.m_packets = [⟨[⟨28, 30⟩], 0⟩] ∧
    OggStream.Init sampleK 3 (OggStream.new (memReader noBosHeader)) blankPage =
      Run.done (sampleK.E_FILE_FORMAT_INVALID, noBosState) :=
  ⟨rfl, (C10_bootstrap_first_page_checks sampleK 3 (OggStream.new (memReader noBosHeader))
    blankPage (by decide)).2 0 noBosState
      { (OggPage.Read sampleK blankPage (memReader noBosHeader) 0).2.1 with m_descriptors := [] }
      rfl (by decide) (Or.inl (by decide))⟩

/-! ## C11 -/

/-- C11 (code bug): the tag checks of `OggStream::Init` are `assert`s without an
error return.  `taglessHeaders` is two well-formed pages whose three packets are
all zero, `taglessComment` and `taglessSetup` have only the second and only the
third packet without its tag.  On each of them the build with `assert` ends in the
failing assertion instead of returning an error, and the build with `NDEBUG` returns
0 with a stream whose cursor is at 103 and whose queue is empty. -/
theorem C11_tag_checks_are_asserts_only :
    (slice taglessHeaders 28 7 = [0, 0, 0, 0, 0, 0, 0] ∧
      OggStream.Init.check ⟨memReader taglessHeaders, 58, []⟩ ⟨[⟨28, 30⟩], 0⟩ (vorbisTag 1) = false ∧
      OggStream.Create sampleK 5 (some (memReader taglessHeaders)) blankPage = Run.abort ∧
      OggStream.CreateRelease sampleK 5 (some (memReader taglessHeaders)) blankPage =
        Run.done (0, some ⟨memReader taglessHeaders, 103, []⟩)) ∧
    (slice taglessComment 28 7 = vorbisTag 1 ∧ slice taglessComment 87 7 = [0, 0, 0, 0, 0, 0, 0] ∧
      slice taglessComment 95 7 = vorbisTag 5 ∧
      OggStream.Create sampleK 5 (some (memReader taglessComment)) blankPage = Run.abort ∧
      OggStream.CreateRelease sampleK 5 (some (memReader taglessComment)) blankPage =
        Run.done (0, some ⟨memReader taglessComment, 103, []⟩)) ∧
    (slice taglessSetup 28 7 = vorbisTag 1 ∧ slice taglessSetup 87 7 = vorbisTag 3 ∧
      slice taglessSetup 95 7 = [0, 0, 0, 0, 0, 0, 0] ∧
      OggStream.Create sampleK 5 (some (memReader taglessSetup)) blankPage = Run.abort ∧
      OggStream.CreateRelease sampleK 5 (some (memReader taglessSetup)) blankPage =
        Run.done (0, some ⟨memReader taglessSetup, 103, []⟩)) :=
  ⟨⟨rfl, rfl, rfl, rfl⟩, ⟨rfl, rfl, rfl, rfl, rfl⟩, ⟨rfl, rfl, rfl, rfl, rfl⟩⟩

/-! ## C12 -/

/-- C12: when `OggStream::Init` on a freshly constructed stream returns a
non-negative result, the result is 0 and the run consisted of one page, a
`GetPacket` that delivered the identification packet, pages, a `GetPacket` that
delivered the comment packet, pages, and a `GetPacket` that delivered the setup
packet: three packets taken, each complete, their byte ranges in stream order, the
queue empty on return, and the last byte range of the setup packet ends at the
cursor, the end of the last page read. -/
theorem C12_bootstrap_takes_three_packets (K : Consts) (hK : K.E_FILE_FORMAT_INVALID < 0)
    (fuel : Nat) (r : IOggReader) (page : OggPage) (res : Int) (sF : OggStream)
    (h : OggStream.Init K fuel (OggStream.new r) page = Run.done (res, sF)) (hres : 0 ≤ res) :
    ∃ r1 s1 p1 ident s2 sa comment s3 sb setup,
      res = 0 ∧
      OggStream.ReadPage K (OggStream.new r) page = some (r1, s1, p1) ∧ 0 ≤ r1 ∧
      OggStream.GetPacket s1 = some (1, some ident, s2) ∧
      PagesRead K s2 sa ∧ OggStream.GetPacket sa = some (1, some comment, s3) ∧
      PagesRead K s3 sb ∧ OggStream.GetPacket sb = some (1, some setup, sF) ∧
      ident.Complete ∧ comment.Complete ∧ setup.Complete ∧
      ident.Before comment ∧ comment.Before setup ∧ ident.Before setup ∧
      sF.m_packets = [] ∧
      ∃ d, setup.descriptors.getLast? = some d ∧ d.pos + d.len = sF.m_pos := by
  obtain ⟨r1, s1, p1, ident, s2, sa, comment, s3, sb, setup, h1, h2, h3, -, -, h6, h7, -, h9,
    h10, -, h12, h13⟩ := Init_run K hK fuel r page res sF h hres
  have c1 := (GetPacket_delivered _ _ _ _ h3).2.2.1
  have c2 := (GetPacket_delivered _ _ _ _ h7).2.2.1
  have c3 := (GetPacket_delivered _ _ _ _ h10).2.2.1
  -- the byte ranges stay in order
  have o0 : InOrder (OggStream.new r).m_pos
      ([] ++ (OggStream.new r).m_packets.map (fun p => p.descriptors)) :=
    ⟨by intro x hx; simp [OggStream.new] at hx, by simp [OggStream.new]⟩
  have o1 := ReadPage_in_order K hK _ _ _ _ _ _ h1 h2 o0
  have o2 := GetPacket_in_order _ _ _ _ _ h3 o1
  have oa := PagesRead_in_order K hK _ _ _ h6 o2
  have o3 := GetPacket_in_order _ _ _ _ _ h7 oa
  have ob := PagesRead_in_order K hK _ _ _ h9 o3
  have oF := GetPacket_in_order _ _ _ _ _ h10 ob
  rw [h12] at oF
  simp only [List.nil_append, List.map_nil, List.append_nil, List.cons_append] at oF
  obtain ⟨-, hp⟩ := oF
  simp only [List.pairwise_cons, List.mem_cons, List.mem_singleton, List.not_mem_nil,
    forall_eq_or_imp, forall_eq, IsEmpty.forall_iff, implies_true, List.Pairwise.nil,
    and_true] at hp
  obtain ⟨⟨b1, b2⟩, b3⟩ := hp
  -- the last byte range ends at the cursor
  have t0 : EndsAtCursor (OggStream.new r) := by
    intro pkt hpkt; simp [OggStream.new] at hpkt
  have t1 := ReadPage_ends_at_cursor K hK _ _ _ _ _ h1 h2
  have t2 := GetPacket_ends_at_cursor _ _ _ _ h3 t1
  have ta := PagesRead_ends_at_cursor K hK _ _ h6 t2
  have t3 := GetPacket_ends_at_cursor _ _ _ _ h7 ta
  have tb := PagesRead_ends_at_cursor K hK _ _ h9 t3
  have hq := (GetPacket_delivered _ _ _ _ h10).2.1
  rw [h12] at hq
  have hpos := (GetPacket_reader _ _ _ _ h10).2
  have hlast : ∃ d, setup.descriptors.getLast? = some d ∧ d.pos + d.len = sF.m_pos := by
    unfold Packet.Complete at c3
    cases hd : setup.descriptors.getLast? with
    | none => rw [hd] at c3; exact absurd c3 id
    | some d =>
      rw [hd] at c3
      have := tb setup (by rw [hq]; rfl) d hd
      rw [abs_of_nonneg c3] at this
      exact ⟨d, rfl, by rw [hpos]; exact this⟩
  exact ⟨r1, s1, p1, ident, s2, sa, comment, s3, sb, setup, h13, h1, h2, h3, h6, h7, h9, h10,
    c1, c2, c3, b1, b3, b2, h12, hlast⟩

/-- Witness of C12 on `threeHeaders`: the bootstrap returns 0 with the cursor at 103
and an empty queue. -/
theorem C12_bootstrap_takes_three_packets_witness :
    OggStream.Init sampleK 5 (OggStream.new (memReader threeHeaders)) blankPage =
      Run.done (0, ⟨memReader threeHeaders, 103, []⟩) ∧
    ∃ r1 s1 p1 ident s2 sa comment s3 sb setup,
      (0 : Int) = 0 ∧
      OggStream.ReadPage sampleK (OggStream.new (memReader threeHeaders)) blankPage
        = some (r1, s1, p1) ∧ 0 ≤ r1 ∧
      OggStream.GetPacket s1 = some (1, some ident, s2) ∧
      PagesRead sampleK s2 sa ∧ OggStream.GetPacket sa = some (1, some comment, s3) ∧
      PagesRead sampleK s3 sb ∧
      OggStream.GetPacket sb = some (1, some setup, ⟨memReader threeHeaders, 103, []⟩) ∧
      ident.Complete ∧ comment.Complete ∧ setup.Complete ∧
      ident.Before comment ∧ comment.Before setup ∧ ident.Before setup ∧
      (⟨memReader threeHeaders, 103, []⟩ : OggStream).m_packets = [] ∧
      ∃ d, setup.descriptors.getLast? = some d ∧
        d.pos + d.len = (⟨memReader threeHeaders, 103, []⟩ : OggStream).m_pos :=
  ⟨rfl, C12_bootstrap_takes_three_packets sampleK (by decide) 5 (memReader threeHeaders)
    blankPage 0 ⟨memReader threeHeaders, 103, []⟩ rfl (le_refl _)⟩

/-! ## C13 -/

/-- C13: when the four bytes at `pos >= 0` are read and are not `OggS`,
`OggPage::Read` returns `E_FILE_FORMAT_INVALID` and leaves `pos` as it was; the
outcome is determined by that one read, so no other read of the source is made: a
reader that answers this read alike gives the same outcome. -/
theorem C13_bad_capture_pattern (K : Consts) (page : OggPage) (r : IOggReader) (pos : Int)
    (h0 : 0 ≤ pos) (h1 : 0 ≤ (r.Read pos 4).1)
    (h2 : ((r.Read pos 4).2.take 4).map (· % 256) ≠ OggS) :
    OggPage.Read K page r pos =
      (K.E_FILE_FORMAT_INVALID,
        { page with m_capture_pattern := ((r.Read pos 4).2.take 4).map (· % 256) }, pos) ∧
    ∀ r2 : IOggReader, r2.Read pos 4 = r.Read pos 4 →
      OggPage.Read K page r2 pos = OggPage.Read K page r pos := by
  have key : ∀ r3 : IOggReader, r3.Read pos 4 = r.Read pos 4 →
      OggPage.Read K page r3 pos =
        (K.E_FILE_FORMAT_INVALID,
          { page with m_capture_pattern := ((r.Read pos 4).2.take 4).map (· % 256) }, pos) := by
    intro r3 h3
    unfold OggPage.Read
    simp only [h3, not_lt.mpr h0, not_lt.mpr h1, h2, ne_eq, not_false_eq_true, if_true, if_false]
  refine ⟨key r rfl, fun r2 h => ?_⟩
  rw [key r2 h, key r rfl]

/-- Witness of C13: a source that begins with `RIFF`. -/
theorem C13_bad_capture_pattern_witness :
    OggPage.Read sampleK blankPage (memReader notOgg) 0 =
      (sampleK.E_FILE_FORMAT_INVALID,
        { blankPage with
          m_capture_pattern := (((memReader notOgg).Read 0 4).2.take 4).map (· % 256) }, 0) ∧
    ∀ r2 : IOggReader, r2.Read 0 4 = (memReader notOgg).Read 0 4 →
      OggPage.Read sampleK blankPage r2 0 = OggPage.Read sampleK blankPage (memReader notOgg) 0 :=
  C13_bad_capture_pattern sampleK blankPage (memReader notOgg) 0 (by decide) (by decide)
    (by decide)

/-! ## C14 -/

/-- C14: when the page at `pos` starts with `OggS` and its segment-count byte (offset
26) is 0, `OggPage::Read` returns `E_FILE_FORMAT_INVALID` from line 129, before the
descriptor list of the page object is touched: the call produces no descriptor.
The cursor is left on the segment count. -/
theorem C14_zero_segment_count (K : Consts) (page : OggPage) (r : IOggReader) (pos : Int)
    (h0 : 0 ≤ pos) (h1 : 0 ≤ (r.Read pos 4).1)
    (h2 : ((r.Read pos 4).2.take 4).map (· % 256) = OggS)
    (h3 : byteAt (r.Read (pos + 26) 1).2 0 = 0) :
    (OggPage.Read K page r pos).1 = K.E_FILE_FORMAT_INVALID ∧
    (OggPage.Read K page r pos).2.1.m_descriptors = page.m_descriptors ∧
    (OggPage.Read K page r pos).2.2 = pos + 26 := by
  have hz : (ReadInt r (pos + 26) 1).2 ≤ 0 := by
    rw [ReadInt_one]
    split
    · exact le_refl _
    · simp only [h3]; exact le_refl _
  have e : pos + 4 + 1 + 1 + 8 + 4 + 4 + 4 = pos + 26 := by ring
  unfold OggPage.Read
  simp only [not_lt.mpr h0, not_lt.mpr h1, h2, ReadInt_fst_not_neg, if_false, ne_eq,
    not_true_eq_false, e, hz, if_true, and_self]

/-- Witness of C14: a header with segment count 0, decoded into a blank page
object. -/
theorem C14_zero_segment_count_witness :
    (OggPage.Read sampleK blankPage (memReader zeroSegmentsHeader) 0).1
      = sampleK.E_FILE_FORMAT_INVALID ∧
    (OggPage.Read sampleK blankPage (memReader zeroSegmentsHeader) 0).2.1.m_descriptors
      = blankPage.m_descriptors ∧
    (OggPage.Read sampleK blankPage (memReader zeroSegmentsHeader) 0).2.2 = 0 + 26 :=
  C14_zero_segment_count sampleK blankPage (memReader zeroSegmentsHeader) 0 (by decide)
    (by decide) (by decide) (by decide)

/-! ## C15 -/

/-- C15: in an accepted page at `pos` whose segment table `vs` is read without error,
the first descriptor lies at `pos + 27 + N`, every later descriptor begins where the
one before it ends (its offset plus the absolute value of its length), and the
cursor is left at `pos + 27 + N` plus the sum of the lacing values. -/
theorem C15_descriptor_offsets_and_cursor (K : Consts) (page : OggPage) (r : IOggReader)
    (pos : Int) (vs : List Nat)
    (hK : K.E_FILE_FORMAT_INVALID < 0)
    (hacc : 0 ≤ (OggPage.Read K page r pos).1)
    (hcount : byteAt (r.Read (pos + 26) 1).2 0 = vs.length)
    (htable : ∀ i (hi : i < vs.length),
      0 ≤ (r.Read (pos + 27 + (i : Int)) 1).1 ∧
        byteAt (r.Read (pos + 27 + (i : Int)) 1).2 0 = vs[i]) :
    (∃ d rest, (OggPage.Read K page r pos).2.1.m_descriptors = d :: rest ∧
      d.pos = pos + 27 + (vs.length : Int)) ∧
    (∀ (i : Nat) (h : i + 1 < (OggPage.Read K page r pos).2.1.m_descriptors.length),
      ((OggPage.Read K page r pos).2.1.m_descriptors[i + 1]).pos =
        ((OggPage.Read K page r pos).2.1.m_descriptors[i]).pos +
          |((OggPage.Read K page r pos).2.1.m_descriptors[i]).len|) ∧
    (OggPage.Read K page r pos).2.2 = pos + 27 + (vs.length : Int) + ((vs.sum : Nat) : Int) := by
  have hA := accepts_of_nonneg K page r pos hK hacc
  obtain ⟨hraw, hne, hb⟩ := rawDescriptors_of_table r pos vs hA hcount htable
  have hN : segmentCount r pos = vs.length := by
    have h3 := hA.2.2.2
    rw [ReadInt_one] at h3
    unfold segmentCount
    rw [ReadInt_one]
    split at h3
    · simp at h3
    · rename_i hr
      simp only [hr, if_false, Int.toNat_ofNat, hcount]
  rw [Read_of_accepts K page r pos hA]
  refine ⟨?_, ?_, ?_⟩
  · obtain ⟨d, rest, hd⟩ := List.exists_cons_of_ne_nil (decodedPage_descriptors_ne_nil K r pos hA)
    refine ⟨d, rest, hd, ?_⟩
    have := assign_head _ _ d rest hd
    rw [this, hN]
  · intro i h
    exact assign_chain (rawDescriptors r pos) _ i h
  · show decodedEnd r pos = _
    unfold decodedEnd
    rw [assign_end, hraw, laceDescs_sum vs hne hb, hN]

/-- Witness of C15 on `lacedHeader`: descriptors at 32, 545, 545 with lengths 513, 0,
-255, cursor at 800. -/
theorem C15_descriptor_offsets_and_cursor_witness :
    (∃ d rest, (OggPage.Read sampleK blankPage (memReader lacedHeader) 0).2.1.m_descriptors
        = d :: rest ∧ d.pos = 0 + 27 + (lacedTable.length : Int)) ∧
    (∀ (i : Nat)
      (h : i + 1 < (OggPage.Read sampleK blankPage (memReader lacedHeader) 0).2.1.m_descriptors.length),
      ((OggPage.Read sampleK blankPage (memReader lacedHeader) 0).2.1.m_descriptors[i + 1]).pos =
        ((OggPage.Read sampleK blankPage (memReader lacedHeader) 0).2.1.m_descriptors[i]).pos +
          |((OggPage.Read sampleK blankPage (memReader lacedHeader) 0).2.1.m_descriptors[i]).len|) ∧
    (OggPage.Read sampleK blankPage (memReader lacedHeader) 0).2.2
      = 0 + 27 + (lacedTable.length : Int) + ((lacedTable.sum : Nat) : Int) :=
  C15_descriptor_offsets_and_cursor sampleK blankPage (memReader lacedHeader) 0 lacedTable
    (by decide) (by decide) (by decide) (by decide)

/-! ## C16 -/

/-- C16: in any state, when the page decodes with granule position -1, its last
descriptor is incomplete and its continuation flag agrees with the queue (neither
of the two mismatches of lines 554-589), `ReadPage` returns 0, every packet that
was in the queue keeps its granule position, and each of the `n` packets added
behind them has granule position -1. -/
theorem C16_page_without_granule (K : Consts) (s : OggStream) (page : OggPage)
    (hK : K.E_FILE_FORMAT_INVALID < 0)
    (hdec : 0 ≤ (OggPage.Read K page s.m_pReader s.m_pos).1)
    (hg : (OggPage.Read K page s.m_pReader s.m_pos).2.1.m_granule_pos = -1)
    (hlast : ∃ d, (OggPage.Read K page s.m_pReader s.m_pos).2.1.m_descriptors.getLast? = some d ∧
      d.len < 0)
    (hagree : ¬ (((OggPage.Read K page s.m_pReader s.m_pos).2.1.m_header &&& fContinued ≠ 0 ∧
        (s.m_packets = [] ∨ ∃ pkt d, s.m_packets.getLast? = some pkt ∧
          pkt.descriptors.getLast? = some d ∧ 0 ≤ d.len)) ∨
      ((OggPage.Read K page s.m_pReader s.m_pos).2.1.m_header &&& fContinued = 0 ∧
        ∃ pkt d, s.m_packets.getLast? = some pkt ∧
          pkt.descriptors.getLast? = some d ∧ d.len < 0))) :
    ∃ s2 page2 n, OggStream.ReadPage K s page = some (0, s2, page2) ∧
      s2.m_packets.map (fun p => p.granule_pos) =
        s.m_packets.map (fun p => p.granule_pos) ++ List.replicate n (-1) := by
  have hA := accepts_of_nonneg K page s.m_pReader s.m_pos hK hdec
  rw [Read_of_accepts K page s.m_pReader s.m_pos hA] at hg hlast hagree
  simp only [] at hg hlast hagree
  obtain ⟨d0, rest, hd⟩ := List.exists_cons_of_ne_nil
    (decodedPage_descriptors_ne_nil K s.m_pReader s.m_pos hA)
  rw [ReadPage_of_accepts K s page d0 rest hA hd]
  cases hc : OggStream.ReadPage.continuation (decodedPage K s.m_pReader s.m_pos).m_header
      s.m_packets d0 rest with
  | none => exact absurd (continuation_none _ _ _ _ hc) hagree
  | some qd =>
    obtain ⟨q, dd⟩ := qd
    obtain ⟨ini, P0, dl, hpush, hdl, hPl, -⟩ := continuation_push_last _ _ _ _ _ _ hc
    obtain ⟨d, hd1, hd2⟩ := hlast
    rw [hd, hdl] at hd1
    simp only [Option.some.injEq] at hd1
    subst hd1
    have hgl : (OggStream.ReadPage.push q dd).getLast? = some P0 := by
      rw [hpush]; exact List.getLast?_concat _
    refine ⟨{ s with m_pos := decodedEnd s.m_pReader s.m_pos,
                     m_packets := OggStream.ReadPage.push q dd },
      { decodedPage K s.m_pReader s.m_pos with m_descriptors := [] }, dd.length, ?_,
      push_granules _ _ _ _ _ _ hc⟩
    simp only []
    unfold OggStream.ReadPage.resolve
    simp only [hgl, hg, hPl, not_le.mpr hd2, ge_iff_le, if_false]
    simp

set_option maxRecDepth 100000 in
/-- Witness of C16: the second page of `threePages` (continued, granule position -1,
segment table `[255]`) read in the state after the first page. -/
theorem C16_page_without_granule_witness :
    ∃ s2 page2 n, OggStream.ReadPage sampleK afterFirstOfThree blankPage = some (0, s2, page2) ∧
      s2.m_packets.map (fun p => p.granule_pos) =
        afterFirstOfThree.m_packets.map (fun p => p.granule_pos) ++ List.replicate n (-1) :=
  C16_page_without_granule sampleK afterFirstOfThree blankPage (by decide) (by decide)
    (by decide) ⟨⟨311, -255⟩, by decide, by decide⟩
    (by
      rintro (⟨-, h | ⟨pkt, d, h1, h2, h3⟩⟩ | ⟨hf, -⟩)
      · exact absurd h (by decide)
      · have e1 : pkt = ⟨[⟨28, -255⟩], -1⟩ := by
          have : afterFirstOfThree.m_packets.getLast? = some ⟨[⟨28, -255⟩], -1⟩ := rfl
          rw [this] at h1
          exact (Option.some.inj h1).symm
        subst e1
        have e2 : d = ⟨28, -255⟩ := (Option.some.inj h2).symm
        subst e2
        exact absurd h3 (by decide)
      · exact absurd hf (by decide))

/-! ## C17 -/

/-- C17: for a source whose first page decodes at offset 0 with BOS set, EOS clear,
continuation clear and granule position 0, the checks of `OggStream::Init` up to the
take of the identification packet with an empty queue behind it (lines 430-453 and
474) pass exactly when the segment table is the single lacing value 30.  In that
case the page ends at offset 58, the identification packet is the one descriptor
at offset 28 of length 30, the block at lines 457-472 compares the first 7 of
the 30 bytes read at offset 28 with `"\x01vorbis"`, and `OggStream::Init` goes on
with line 477 in the state with the cursor at 58 and an empty queue (when the
assertions of that block hold).  When the segment table is anything else,
`OggStream::Init` never reaches line 477: it returns `E_FILE_FORMAT_INVALID`, or
the identification packet fails an assertion of the block at lines 457-472. -/
theorem C17_ident_page_is_one_segment_of_30 (K : Consts) (r : IOggReader) (page : OggPage)
    (hK : K.Valid)
    (hdec : 0 ≤ (OggPage.Read K page r 0).1)
    (hbos : (OggPage.Read K page r 0).2.1.m_header &&& fBOS ≠ 0)
    (heos : (OggPage.Read K page r 0).2.1.m_header &&& fEOS = 0)
    (hcont : (OggPage.Read K page r 0).2.1.m_header &&& fContinued = 0)
    (hg : (OggPage.Read K page r 0).2.1.m_granule_pos = 0) :
    ((∃ r1 s1 p1 res ident s2,
        OggStream.ReadPage K (OggStream.new r) page = some (r1, s1, p1) ∧ 0 ≤ r1 ∧
        p1.m_header &&& fBOS ≠ 0 ∧ p1.m_header &&& fEOS = 0 ∧ p1.m_header &&& K.fDone ≠ 0 ∧
        p1.m_granule_pos = 0 ∧ s1.m_pos = 58 ∧
        OggStream.GetPacket s1 = some (res, some ident, s2) ∧ 1 ≤ res ∧ s2.m_packets = []) ↔
      ((0 ≤ (r.Read 26 1).1 ∧ byteAt (r.Read 26 1).2 0 = 1) ∧
        (0 ≤ (r.Read 27 1).1 ∧ byteAt (r.Read 27 1).2 0 = 30))) ∧
    (((0 ≤ (r.Read 26 1).1 ∧ byteAt (r.Read 26 1).2 0 = 1) ∧
        (0 ≤ (r.Read 27 1).1 ∧ byteAt (r.Read 27 1).2 0 = 30)) →
      (OggPage.Read K page r 0).2.2 = 58 ∧
      OggStream.ReadPage K (OggStream.new r) page =
        some (0, ⟨r, 58, [⟨[⟨28, 30⟩], 0⟩]⟩, drained (OggPage.Read K page r 0).2.1) ∧
      OggStream.GetPacket ⟨r, 58, [⟨[⟨28, 30⟩], 0⟩]⟩ =
        some (1, some ⟨[⟨28, 30⟩], 0⟩, ⟨r, 58, []⟩) ∧
      (OggStream.Init.check ⟨r, 58, []⟩ ⟨[⟨28, 30⟩], 0⟩ (vorbisTag 1) = true ↔
        ((r.Read 28 30).1 = 0 ∧ ((r.Read 28 30).2.take 7).map (· % 256) = vorbisTag 1))) ∧
    (((0 ≤ (r.Read 26 1).1 ∧ byteAt (r.Read 26 1).2 0 = 1) ∧
        (0 ≤ (r.Read 27 1).1 ∧ byteAt (r.Read 27 1).2 0 = 30)) →
      ∀ fuel, OggStream.Init K fuel (OggStream.new r) page =
        if OggStream.Init.check ⟨r, 58, []⟩ ⟨[⟨28, 30⟩], 0⟩ (vorbisTag 1) = true then
          OggStream.Init.fromComment K fuel ⟨r, 58, []⟩ (drained (OggPage.Read K page r 0).2.1)
        else Run.abort) ∧
    (¬ ((0 ≤ (r.Read 26 1).1 ∧ byteAt (r.Read 26 1).2 0 = 1) ∧
        (0 ≤ (r.Read 27 1).1 ∧ byteAt (r.Read 27 1).2 0 = 30)) →
      ∀ fuel,
        (∃ s, OggStream.Init K fuel (OggStream.new r) page
          = Run.done (K.E_FILE_FORMAT_INVALID, s)) ∨
        (OggStream.Init K fuel (OggStream.new r) page = Run.abort ∧
          ∃ r1 s1 p1 res ident s2,
            OggStream.ReadPage K (OggStream.new r) page = some (r1, s1, p1) ∧
            OggStream.GetPacket s1 = some (res, some ident, s2) ∧
            OggStream.Init.check s2 ident (vorbisTag 1) = false)) := by
  obtain ⟨h1, h2⟩ := ident_page_checks K r page hK hdec hbos heos hcont hg
  refine ⟨h1, h2, ?_, ?_⟩
  · intro ht fuel
    obtain ⟨-, hrp, hget, -⟩ := h2 ht
    obtain ⟨r1, s1, p1, res, ident, s2, hrp2, -, b1, b2, b3, b4, b5, -, -, -⟩ := h1.mpr ht
    rw [hrp] at hrp2
    simp only [Option.some.injEq, Prod.mk.injEq] at hrp2
    obtain ⟨-, e1, e2⟩ := hrp2
    subst e1 e2
    rw [Init_eq, hrp]
    simp only []
    rw [if_neg (by decide), if_neg (by simpa using b1),
      if_neg (by simpa using b2), if_neg b3, if_neg (by simpa using b4),
      if_neg (by simp)]
    unfold OggStream.Init.fromIdent
    rw [hget]
    simp only []
    rw [if_neg (by decide)]
    by_cases hc : OggStream.Init.check ⟨r, 58, []⟩ ⟨[⟨28, 30⟩], 0⟩ (vorbisTag 1) = true
    · rw [if_pos hc, if_neg (by simp [hc]), if_neg (by simp)]
    · rw [if_neg hc, if_pos (by simp [hc])]
  · intro hnt fuel
    have hnp := fun hp => hnt (h1.mp hp)
    have hA : OggPage.Accepts (OggStream.new r).m_pReader (OggStream.new r).m_pos :=
      accepts_of_nonneg K page r 0 hK.1 hdec
    obtain ⟨r1, s1, p1, hrp, hInv1, -, -, -⟩ := ReadPage_step K hK.1 (OggStream.new r) page
      (inv_new r)
    have hres := ReadPage_result K (OggStream.new r) s1 page p1 r1 (inv_new r) hA hrp
    rw [Init_eq, hrp]
    simp only []
    by_cases h0 : r1 < 0
    · rw [if_pos h0]
      rcases hres with e | e
      · omega
      · left; exact ⟨s1, by rw [e]⟩
    rw [if_neg h0]
    split
    · left; exact ⟨s1, rfl⟩
    rename_i c1
    split
    · left; exact ⟨s1, rfl⟩
    rename_i c2
    split
    · left; exact ⟨s1, rfl⟩
    rename_i c3
    split
    · left; exact ⟨s1, rfl⟩
    rename_i c4
    split
    · left; exact ⟨s1, rfl⟩
    rename_i c5
    unfold OggStream.Init.fromIdent
    obtain ⟨rg, out, s2, hgp, -, -, -, hcase⟩ := GetPacket_step s1 hInv1
    rw [hgp]
    simp only []
    rcases hcase with ⟨e1, e2, e3⟩ | ⟨e1, ident, e2, -, -⟩
    · subst e1
      rw [if_pos (by decide)]
      left; exact ⟨s2, rfl⟩
    · subst e1 e2
      rw [if_neg (by decide)]
      simp only []
      by_cases hc : OggStream.Init.check s2 ident (vorbisTag 1) = true
      · rw [if_neg (by simp [hc])]
        by_cases he : s2.m_packets.isEmpty = true
        · exact absurd ⟨r1, s1, p1, 1, ident, s2, hrp, not_lt.mp h0, c1, not_not.mp c2, c3,
            not_not.mp c4, not_not.mp c5, hgp, le_refl _, List.isEmpty_iff.mp he⟩ hnp
        · rw [if_pos (by simp [he])]
          left; exact ⟨s2, rfl⟩
      · rw [if_pos (by simp [hc])]
        right
        exact ⟨rfl, r1, s1, p1, 1, ident, s2, rfl, hgp, by simpa using hc⟩

/-- Witness of C17 on `identPage`, a 58-byte page with the segment table `[30]` whose
packet begins with the tag, and on `shortIdentHeader`, whose segment table is
`[29]`. -/
theorem C17_ident_page_is_one_segment_of_30_witness :
    OggStream.Init.check ⟨memReader identPage, 58, []⟩ ⟨[⟨28, 30⟩], 0⟩ (vorbisTag 1) = true ∧
    ((OggPage.Read sampleK blankPage (memReader identPage) 0).2.2 = 58 ∧
      OggStream.ReadPage sampleK (OggStream.new (memReader identPage)) blankPage =
        some (0, ⟨memReader identPage, 58, [⟨[⟨28, 30⟩], 0⟩]⟩,
          drained (OggPage.Read sampleK blankPage (memReader identPage) 0).2.1) ∧
      OggStream.GetPacket ⟨memReader identPage, 58, [⟨[⟨28, 30⟩], 0⟩]⟩ =
        some (1, some ⟨[⟨28, 30⟩], 0⟩, ⟨memReader identPage, 58, []⟩) ∧
      (OggStream.Init.check ⟨memReader identPage, 58, []⟩ ⟨[⟨28, 30⟩], 0⟩ (vorbisTag 1) = true ↔
        (((memReader identPage).Read 28 30).1 = 0 ∧
          (((memReader identPage).Read 28 30).2.take 7).map (· % 256) = vorbisTag 1))) ∧
    (OggStream.Init sampleK 5 (OggStream.new (memReader identPage)) blankPage =
      if OggStream.Init.check ⟨memReader identPage, 58, []⟩ ⟨[⟨28, 30⟩], 0⟩ (vorbisTag 1) = true
      then
        OggStream.Init.fromComment sampleK 5 ⟨memReader identPage, 58, []⟩
          (drained (OggPage.Read sampleK blankPage (memReader identPage) 0).2.1)
      else Run.abort) ∧
    ((∃ s, OggStream.Init sampleK 5 (OggStream.new (memReader shortIdentHeader)) blankPage
        = Run.done (sampleK.E_FILE_FORMAT_INVALID, s)) ∨
      (OggStream.Init sampleK 5 (OggStream.new (memReader shortIdentHeader)) blankPage
          = Run.abort ∧
        ∃ r1 s1 p1 res ident s2,
          OggStream.ReadPage sampleK (OggStream.new (memReader shortIdentHeader)) blankPage
            = some (r1, s1, p1) ∧
          OggStream.GetPacket s1 = some (res, some ident, s2) ∧
          OggStream.Init.check s2 ident (vorbisTag 1) = false)) ∧
    OggStream.Init sampleK 5 (OggStream.new (memReader shortIdentHeader)) blankPage =
      Run.done (sampleK.E_FILE_FORMAT_INVALID,
        ⟨memReader shortIdentHeader, 57, [⟨[⟨28, 29⟩], 0⟩]⟩) :=
  ⟨by decide,
    (C17_ident_page_is_one_segment_of_30 sampleK (memReader identPage) blankPage (by decide)
      (by decide) (by decide) (by decide) (by decide) (by decide)).2.1
      ⟨⟨by decide, by decide⟩, ⟨by decide, by decide⟩⟩,
    (C17_ident_page_is_one_segment_of_30 sampleK (memReader identPage) blankPage (by decide)
      (by decide) (by decide) (by decide) (by decide) (by decide)).2.2.1
      ⟨⟨by decide, by decide⟩, ⟨by decide, by decide⟩⟩ 5,
    (C17_ident_page_is_one_segment_of_30 sampleK (memReader shortIdentHeader) blankPage
      (by decide) (by decide) (by decide) (by decide) (by decide) (by decide)).2.2.2
      (by decide) 5,
    rfl⟩

/-! ## C18 -/

/-- C18: whatever `ReadPage` returns, the cursor after it is not smaller than
before, and it is larger by at least 28 when the call succeeds; `GetPacket` leaves
the cursor as it is. -/
theorem C18_cursor_never_decreases (K : Consts) (s : OggStream) (page : OggPage)
    (hK : K.E_FILE_FORMAT_INVALID < 0) :
    (∀ res s2 page2, OggStream.ReadPage K s page = some (res, s2, page2) →
      s.m_pos ≤ s2.m_pos ∧ (0 ≤ res → s.m_pos + 28 ≤ s2.m_pos)) ∧
    (∀ res out s2, OggStream.GetPacket s = some (res, out, s2) → s2.m_pos = s.m_pos) := by
  constructor
  · intro res s2 page2 h
    have hp := ReadPage_pos K s s2 page page2 res h
    refine ⟨by rw [hp]; exact Read_pos_mono K page s.m_pReader s.m_pos, fun hres => ?_⟩
    obtain ⟨hA, -, -, -, -, -, -, -, he, -⟩ := ReadPage_accepted K hK s s2 page page2 res h hres
    rw [he]
    exact decodedEnd_gt s.m_pReader s.m_pos hA
  · intro res out s2 h
    unfold OggStream.GetPacket at h
    cases hq : s.m_packets with
    | nil =>
      rw [hq] at h
      simp only [Option.some.injEq, Prod.mk.injEq] at h
      rw [← h.2.2]
    | cons pkt t =>
      rw [hq] at h
      simp only [] at h
      cases hd : pkt.descriptors.getLast? with
      | none => rw [hd] at h; exact absurd h (by simp)
      | some d =>
        rw [hd] at h
        simp only [] at h
        split at h <;>
        · simp only [Option.some.injEq, Prod.mk.injEq] at h
          rw [← h.2.2]

/-- Witness of C18: the first page of `identHeader` moves the cursor from 0 to 58,
and taking its packet leaves it at 58. -/
theorem C18_cursor_never_decreases_witness :
    ((OggStream.new (memReader identHeader)).m_pos ≤ identState.m_pos ∧
      ((0 : Int) ≤ 0 → (OggStream.new (memReader identHeader)).m_pos + 28 ≤ identState.m_pos)) ∧
    ({ identState with m_packets := [] } : OggStream).m_pos = identState.m_pos :=
  ⟨(C18_cursor_never_decreases sampleK (OggStream.new (memReader identHeader)) blankPage
      (by decide)).1 0 identState
      (drained (OggPage.Read sampleK blankPage (memReader identHeader) 0).2.1) rfl,
    (C18_cursor_never_decreases sampleK identState blankPage (by decide)).2 1
      (some ⟨[⟨28, 30⟩], 0⟩) { identState with m_packets := [] } rfl⟩

/-! ## C19 -/

/-- C19 (code bug): `pollutedHeader` has the flags byte `0xF8` on the wire and the
single lacing value 255.  `OggPage::Read` stores the flags byte as it is and only
ever ORs `fDone` into it, so whichever unused bit `fDone` is, the decoder accepts
the page and the decoded header has `fDone` set, although the final lacing value
is 255 and the last descriptor is incomplete. -/
theorem C19_wire_flag_bit_is_kept :
    slice pollutedHeader 5 1 = [248] ∧ slice pollutedHeader 26 2 = [1, 255] ∧
    (OggPage.Read sampleK blankPage (memReader pollutedHeader) 0).2.1.m_descriptors
      = [⟨28, -255⟩] ∧
    ((OggPage.Read ⟨8, -2⟩ blankPage (memReader pollutedHeader) 0).1 = 0 ∧
      (OggPage.Read ⟨8, -2⟩ blankPage (memReader pollutedHeader) 0).2.1.m_header &&& 8 ≠ 0) ∧
    ((OggPage.Read ⟨16, -2⟩ blankPage (memReader pollutedHeader) 0).1 = 0 ∧
      (OggPage.Read ⟨16, -2⟩ blankPage (memReader pollutedHeader) 0).2.1.m_header &&& 16 ≠ 0) ∧
    ((OggPage.Read ⟨32, -2⟩ blankPage (memReader pollutedHeader) 0).1 = 0 ∧
      (OggPage.Read ⟨32, -2⟩ blankPage (memReader pollutedHeader) 0).2.1.m_header &&& 32 ≠ 0) ∧
    ((OggPage.Read ⟨64, -2⟩ blankPage (memReader pollutedHeader) 0).1 = 0 ∧
      (OggPage.Read ⟨64, -2⟩ blankPage (memReader pollutedHeader) 0).2.1.m_header &&& 64 ≠ 0) ∧
    ((OggPage.Read ⟨128, -2⟩ blankPage (memReader pollutedHeader) 0).1 = 0 ∧
      (OggPage.Read ⟨128, -2⟩ blankPage (memReader pollutedHeader) 0).2.1.m_header &&& 128 ≠ 0) := by
  decide

/-! ## C20 -/

/-- C20: in every reachable state each queued packet holds a descriptor; every page
that `OggPage::Read` accepts has a descriptor; `ReadPage` and `GetPacket` return (no
`assert` fails) and `ReadPage` leaves only packets that hold a descriptor; and the
packets that the guards of `ReadPage` look at after line 604 (the queue
`push q dd`) all hold a descriptor. -/
theorem C20_packets_and_pages_have_descriptors (K : Consts) (r : IOggReader) (s : OggStream)
    (hK : K.E_FILE_FORMAT_INVALID < 0) (hR : Reachable K r s) :
    (∀ pkt ∈ s.m_packets, pkt.descriptors ≠ []) ∧
    (∀ (page : OggPage) (r2 : IOggReader) (pos : Int), 0 ≤ (OggPage.Read K page r2 pos).1 →
      (OggPage.Read K page r2 pos).2.1.m_descriptors ≠ []) ∧
    (∀ page, ∃ res s2 page2, OggStream.ReadPage K s page = some (res, s2, page2) ∧
      ∀ pkt ∈ s2.m_packets, pkt.descriptors ≠ []) ∧
    (∃ res out s2, OggStream.GetPacket s = some (res, out, s2)) ∧
    (∀ page d0 rest q dd, 0 ≤ (OggPage.Read K page s.m_pReader s.m_pos).1 →
      (OggPage.Read K page s.m_pReader s.m_pos).2.1.m_descriptors = d0 :: rest →
      OggStream.ReadPage.continuation (OggPage.Read K page s.m_pReader s.m_pos).2.1.m_header
        s.m_packets d0 rest = some (q, dd) →
      ∀ pkt ∈ OggStream.ReadPage.push q dd, pkt.descriptors ≠ []) := by
  have hInv := (reachable_inv K hK r s hR).1
  refine ⟨hInv.nonempty, ?_, ?_, ?_, ?_⟩
  · intro page r2 pos h
    have hA := accepts_of_nonneg K page r2 pos hK h
    rw [Read_of_accepts K page r2 pos hA]
    exact decodedPage_descriptors_ne_nil K r2 pos hA
  · intro page
    obtain ⟨res, s2, page2, h1, h2, -, -, -⟩ := ReadPage_step K hK s page hInv
    exact ⟨res, s2, page2, h1, h2.nonempty⟩
  · obtain ⟨res, out, s2, h1, -⟩ := GetPacket_step s hInv
    exact ⟨res, out, s2, h1⟩
  · intro page d0 rest q dd h hd hc
    have hA := accepts_of_nonneg K page s.m_pReader s.m_pos hK h
    rw [Read_of_accepts K page s.m_pReader s.m_pos hA] at hd hc
    exact (continuation_ingested K s d0 rest q dd hInv hA hd hc).nonempty

/-- Witness of C20: the state after a page with segment table `[255, 255, 3, 0, 255]`. -/
theorem C20_packets_and_pages_have_descriptors_witness :
    (∀ pkt ∈ lacedState.m_packets, pkt.descriptors ≠ []) ∧
    (∀ (page : OggPage) (r2 : IOggReader) (pos : Int),
      0 ≤ (OggPage.Read sampleK page r2 pos).1 →
      (OggPage.Read sampleK page r2 pos).2.1.m_descriptors ≠ []) ∧
    (∀ page, ∃ res s2 page2, OggStream.ReadPage sampleK lacedState page = some (res, s2, page2) ∧
      ∀ pkt ∈ s2.m_packets, pkt.descriptors ≠ []) ∧
    (∃ res out s2, OggStream.GetPacket lacedState = some (res, out, s2)) ∧
    (∀ page d0 rest q dd,
      0 ≤ (OggPage.Read sampleK page lacedState.m_pReader lacedState.m_pos).1 →
      (OggPage.Read sampleK page lacedState.m_pReader lacedState.m_pos).2.1.m_descriptors
        = d0 :: rest →
      OggStream.ReadPage.continuation
        (OggPage.Read sampleK page lacedState.m_pReader lacedState.m_pos).2.1.m_header
        lacedState.m_packets d0 rest = some (q, dd) →
      ∀ pkt ∈ OggStream.ReadPage.push q dd, pkt.descriptors ≠ []) :=
  C20_packets_and_pages_have_descriptors sampleK (memReader lacedHeader) lacedState (by decide)
    lacedState_reachable

/-! ## C21 -/

/-- C21: in any state, when the page decodes with a negative granule position
(whatever its value) and its continuation flag agrees with the queue, `ReadPage`
returns with the queue as lines 554-604 left it: the packets that were queued keep
their granule positions and each of the `n` packets added has -1.  The newest
packet ends with the last descriptor `dl` of the page, and the result is 0 when
`dl` is incomplete and `E_FILE_FORMAT_INVALID` otherwise. -/
theorem C21_negative_granule_assigns_nothing (K : Consts) (s : OggStream) (page : OggPage)
    (hK : K.E_FILE_FORMAT_INVALID < 0)
    (hdec : 0 ≤ (OggPage.Read K page s.m_pReader s.m_pos).1)
    (hg : (OggPage.Read K page s.m_pReader s.m_pos).2.1.m_granule_pos < 0)
    (hagree : ¬ (((OggPage.Read K page s.m_pReader s.m_pos).2.1.m_header &&& fContinued ≠ 0 ∧
        (s.m_packets = [] ∨ ∃ pkt d, s.m_packets.getLast? = some pkt ∧
          pkt.descriptors.getLast? = some d ∧ 0 ≤ d.len)) ∨
      ((OggPage.Read K page s.m_pReader s.m_pos).2.1.m_header &&& fContinued = 0 ∧
        ∃ pkt d, s.m_packets.getLast? = some pkt ∧
          pkt.descriptors.getLast? = some d ∧ d.len < 0))) :
    ∃ dl s2 page2 n newest,
      (OggPage.Read K page s.m_pReader s.m_pos).2.1.m_descriptors.getLast? = some dl ∧
      OggStream.ReadPage K s page =
        some (if dl.len < 0 then 0 else K.E_FILE_FORMAT_INVALID, s2, page2) ∧
      s2.m_packets.map (fun p => p.granule_pos) =
        s.m_packets.map (fun p => p.granule_pos) ++ List.replicate n (-1) ∧
      s2.m_packets.getLast? = some newest ∧ newest.descriptors.getLast? = some dl := by
  have hA := accepts_of_nonneg K page s.m_pReader s.m_pos hK hdec
  rw [Read_of_accepts K page s.m_pReader s.m_pos hA] at hg hagree ⊢
  simp only [] at hg hagree ⊢
  obtain ⟨d0, rest, hd⟩ := List.exists_cons_of_ne_nil
    (decodedPage_descriptors_ne_nil K s.m_pReader s.m_pos hA)
  rw [ReadPage_of_accepts K s page d0 rest hA hd]
  cases hc : OggStream.ReadPage.continuation (decodedPage K s.m_pReader s.m_pos).m_header
      s.m_packets d0 rest with
  | none => exact absurd (continuation_none _ _ _ _ hc) hagree
  | some qd =>
    obtain ⟨q, dd⟩ := qd
    obtain ⟨ini, P0, dl, hpush, hdl, hPl, -⟩ := continuation_push_last _ _ _ _ _ _ hc
    have hgl : (OggStream.ReadPage.push q dd).getLast? = some P0 := by
      rw [hpush]; exact List.getLast?_concat _
    refine ⟨dl, { s with m_pos := decodedEnd s.m_pReader s.m_pos,
                         m_packets := OggStream.ReadPage.push q dd },
      { decodedPage K s.m_pReader s.m_pos with m_descriptors := [] }, dd.length, P0,
      by rw [hd]; exact hdl, ?_, push_granules _ _ _ _ _ _ hc, hgl, hPl⟩
    simp only []
    unfold OggStream.ReadPage.resolve
    simp only [hgl, hg, hPl, if_true]
    by_cases hl : dl.len < 0
    · rw [if_neg (not_le.mpr hl), if_pos hl]
    · rw [if_pos (not_lt.mp hl), if_neg hl]

/-- Witness of C21: two pages with the granule position `0x8080808080808080` read as
a `long long`, one ending in the lacing value 255 (result 0), one in the lacing
value 7 (result `E_FILE_FORMAT_INVALID`); in both the one packet added has granule
position -1. -/
theorem C21_negative_granule_assigns_nothing_witness :
    (OggPage.Read sampleK blankPage (memReader farGranuleOpen) 0).2.1.m_granule_pos
      = -9187201950435737472 ∧
    (∃ dl s2 page2 n newest,
      (OggPage.Read sampleK blankPage (memReader farGranuleOpen) 0).2.1.m_descriptors.getLast?
        = some dl ∧
      OggStream.ReadPage sampleK (OggStream.new (memReader farGranuleOpen)) blankPage =
        some (if dl.len < 0 then 0 else sampleK.E_FILE_FORMAT_INVALID, s2, page2) ∧
      s2.m_packets.map (fun p => p.granule_pos) =
        (OggStream.new (memReader farGranuleOpen)).m_packets.map (fun p => p.granule_pos)
          ++ List.replicate n (-1) ∧
      s2.m_packets.getLast? = some newest ∧ newest.descriptors.getLast? = some dl) ∧
    OggStream.ReadPage sampleK (OggStream.new (memReader farGranuleOpen)) blankPage =
      some (0, ⟨memReader farGranuleOpen, 283, [⟨[⟨28, -255⟩], -1⟩]⟩,
        drained (OggPage.Read sampleK blankPage (memReader farGranuleOpen) 0).2.1) ∧
    OggStream.ReadPage sampleK (OggStream.new (memReader farGranuleClosed)) blankPage =
      some (sampleK.E_FILE_FORMAT_INVALID, ⟨memReader farGranuleClosed, 35, [⟨[⟨28, 7⟩], -1⟩]⟩,
        drained (OggPage.Read sampleK blankPage (memReader farGranuleClosed) 0).2.1) :=
  ⟨by decide,
    C21_negative_granule_assigns_nothing sampleK (OggStream.new (memReader farGranuleOpen))
      blankPage (by decide) (by decide) (by decide)
      (by
        rintro (⟨hf, -⟩ | ⟨-, pkt, d, h1, -⟩)
        · exact absurd hf (by decide)
        · exact absurd h1 (by simp [OggStream.new])),
    rfl, rfl⟩

/-! ## C22 -/

/-- C22: over a finite byte source of length `L`, (1) the segment-table loops of
`OggPage::Read` never fail and leave `pos` behind exactly the `n` lacing values of
the segment count; (2) a `ReadPage` that succeeds began before `L` and advances the
cursor by at least 28; (3) a `ReadPage` with the cursor at or after `L` returns a
negative result; and hence (4) `OggStream::Init` ends: there is an outcome other
than running out of iterations that `Init` has for every iteration budget `fuel`
with `(L - m_pos) + 28 <= 28 * fuel`. -/
theorem C22_bootstrap_terminates (K : Consts) (hK : K.E_FILE_FORMAT_INVALID < 0)
    (r : IOggReader) (L : Int) (hfin : r.EndsAt L) :
    (∀ (n : Nat) (pos : Int) (hdr : Nat) (ds : List Descriptor),
      (OggPage.Read.lacing K r n pos hdr ds).1 = 0 ∧
        (OggPage.Read.lacing K r n pos hdr ds).2.1 = pos + (n : Int)) ∧
    (∀ (s s2 : OggStream) (page page2 : OggPage) (res : Int), s.m_pReader = r →
      OggStream.ReadPage K s page = some (res, s2, page2) → 0 ≤ res →
      s.m_pos < L ∧ s.m_pos + 28 ≤ s2.m_pos ∧ s2.m_pReader = r) ∧
    (∀ (s : OggStream) (page : OggPage), s.m_pReader = r → L ≤ s.m_pos →
      ∃ res s2 page2, OggStream.ReadPage K s page = some (res, s2, page2) ∧ res < 0) ∧
    (∀ (s : OggStream) (page : OggPage), s.m_pReader = r →
      ∃ out, out ≠ Run.timeout ∧
        ∀ fuel : Nat, (L - s.m_pos).toNat + 28 ≤ 28 * fuel →
          OggStream.Init K fuel s page = out) := by
  refine ⟨lacing_consumes K r, ?_, ?_, ?_⟩
  · intro s s2 page page2 res hr h hres
    obtain ⟨h1, h2, h3⟩ := ReadPage_before_end K hK L s s2 page page2 res (by rw [hr]; exact hfin)
      h hres
    exact ⟨h1, h2, by rw [h3, hr]⟩
  · intro s page hr hL
    exact ReadPage_past_end K hK L s page (by rw [hr]; exact hfin) hL
  · intro s page hr
    have hfin2 : s.m_pReader.EndsAt L := by rw [hr]; exact hfin
    have hb : (L - s.m_pos).toNat + 28 ≤ 28 * ((L - s.m_pos).toNat + 1) := by omega
    obtain ⟨g1, g2⟩ := Init_ends K hK L ((L - s.m_pos).toNat + 1) s page hfin2 hb
    refine ⟨OggStream.Init K ((L - s.m_pos).toNat + 1) s page, g1, ?_⟩
    intro fuel hf
    obtain ⟨f1, f2⟩ := Init_ends K hK L fuel s page hfin2 hf
    rcases Nat.le_total fuel ((L - s.m_pos).toNat + 1) with hle | hle
    · obtain ⟨k, hk⟩ := Nat.exists_eq_add_of_le hle
      rw [hk, f2 k]
    · obtain ⟨k, hk⟩ := Nat.exists_eq_add_of_le hle
      rw [hk, g2 k]

set_option maxRecDepth 100000 in
/-- Witness of C22 on `threeHeaders`, a source of 103 bytes: `Init` returns 0 with
the cursor at 103 for every budget of at least 5 iterations; and on `openEnded`,
whose second packet never ends, the first loop reads to the end of the source and
`Init` returns the error of the read at the end. -/
theorem C22_bootstrap_terminates_witness :
    (memReader threeHeaders).EndsAt 103 ∧
    (∃ out, out ≠ Run.timeout ∧
      ∀ fuel : Nat, ((103 : Int) - (OggStream.new (memReader threeHeaders)).m_pos).toNat + 28
          ≤ 28 * fuel →
        OggStream.Init sampleK fuel (OggStream.new (memReader threeHeaders)) blankPage = out) ∧
    OggStream.Init sampleK 5 (OggStream.new (memReader threeHeaders)) blankPage =
      Run.done (0, ⟨memReader threeHeaders, 103, []⟩) ∧
    OggStream.Init sampleK 2 (OggStream.new (memReader openEnded)) blankPage =
      Run.done (-1, ⟨memReader openEnded, 341, [⟨[⟨86, -255⟩], -1⟩]⟩) :=
  ⟨memReader_endsAt threeHeaders,
    (C22_bootstrap_terminates sampleK (by decide) (memReader threeHeaders) 103
      (memReader_endsAt threeHeaders)).2.2.2 (OggStream.new (memReader threeHeaders)) blankPage
      rfl,
    rfl, rfl⟩

end oggparser
